import Mathlib

/-!
A shallow embedding of the render-tree / render-cache subsystem of
`renpy/display/render.pyx`.

Modelling conventions:

* Python objects are identified by numeric ids (`Nat`), mirroring the
  source's use of `id(d)` for cache keys and object identity (`is`) for
  graph membership.
* Python floats are modelled as rationals (`ℚ`); none of the modelled
  algorithms depend on rounding.
* The module-level mutable state of `render.pyx` (the render cache, the
  live-render list, the screen render, the frame time, the `sizing`
  flag, ...) is collected in a `GState` record that every operation
  threads explicitly.
* Python exceptions are modelled with `Except Err`; every raise site in
  the modelled code checks its condition before mutating, so an error
  result corresponds to an unchanged state.
* The recursive procedures `Render.kill_cache`, `Render.kill`, the
  mark-phase worklist loop of `mark_sweep` and `Render.subsurface` are
  written with an explicit fuel argument; the wrappers supply a fuel
  that is provably sufficient (the flag-before-recursion discipline
  bounds the recursion depth by the number of unflagged nodes).
* The external render callback of a displayable (`d.render(w, h, st,
  at)`) is modelled as a pure description of the node it would build: a
  size plus a list of construction operations (`blit`, `depends_on`,
  `add_focus`, ...), executed by `runBuild` through the same primitive
  operations the source exposes.  An instrumentation log
  (`callback_log`) records each invocation of the callback; it models
  observing the external callback, and is read by no modelled code.
* `absolute.compute_raw` lives outside this file's sources.  Modelled
  from the spec: clamping uses the displayable's declared maximum size
  in pixels, so `computeRaw` of a pixel-valued maximum is that value.
* The redraw queue (`redraw`, `process_redraws`, `check_redraws`) and
  the focus resolver (`take_focuses`, `focus_at_point`) are not needed
  by any statement below and are not modelled.
-/

namespace RenpyRender

/-- A 2D matrix, as consumed by `Render.subsurface` (only the entries the
source reads: `xdx`, `xdy`, `ydx`, `ydy`, `wdw`). -/
structure Mat where
  xdx : ℚ
  xdy : ℚ
  ydx : ℚ
  ydy : ℚ
  wdw : ℚ
deriving Repr, DecidableEq

/-- A child x/y offset.  `blit` stores `int(xo)`, `subpixel_blit` stores
`float(xo)` and `absolute_blit` stores `absolute(xo)`; `subsurface`
distinguishes them with `isinstance(cx, int)`. -/
inductive Off where
  | i (n : ℤ)
  | f (q : ℚ)
  | ab (q : ℚ)
deriving Repr, DecidableEq

/-- Numeric value of an offset. -/
def Off.q : Off → ℚ
  | .i n => (n : ℚ)
  | .f q => q
  | .ab q => q

/-- Is this offset an `int` (`isinstance(cx, int)`)? -/
def Off.isInt : Off → Bool
  | .i _ => true
  | _ => false

/-- A member of a `children` list or a focus mask: another Render (by id),
a raw pygame surface, or a loaded texture (both opaque, with a size). -/
inductive Child where
  | node (i : Nat)
  | surface (w h : ℚ)
  | texture (w h : ℚ)
deriving Repr, DecidableEq

/-- A uniform value: a Render (tracked as a dependency) or an opaque
scalar. -/
inductive UVal where
  | render (i : Nat)
  | val (q : ℚ)
deriving Repr, DecidableEq

/-- A focus region `(d, arg, x, y, w, h, mx, my, mask)`.  The mask data
`(mx, my, mask)` is bundled: the source checks `mx is not None` and then
uses all three. -/
structure FocusEntry where
  d : Nat
  arg : Nat
  x : Option ℚ
  y : ℚ
  w : ℚ
  h : ℚ
  maskInfo : Option (ℚ × ℚ × Child)
deriving Repr, DecidableEq

/-- The python truncating conversion `int(x)` (toward zero). -/
def pyInt (q : ℚ) : ℤ := q.num.tdiv (q.den : ℤ)

/-- The state of one `Render` object: the attributes set by
`Render.__init__` that the modelled operations read or write.  The
drawing-backend caches (`surface`, `alpha_surface`, `half_cache`,
`loaded`) are carried only where the modelled code touches them
(`cached_texture`, `cached_model` are cleared by `kill`). -/
structure RNode where
  mark : Bool
  cache_killed : Bool
  killed : Bool
  width : ℚ
  height : ℚ
  layer_name : Option String
  children : List (Child × Off × Off × Bool × Bool)
  forward : Option Mat
  reverse : Option Mat
  alpha : ℚ
  over : ℚ
  nearest : Option Bool
  focuses : Option (List FocusEntry)
  pass_focuses : Option (List Nat)
  focus_screen : Option Nat
  render_of : List Nat
  xclipping : Bool
  yclipping : Bool
  modal : Bool
  text_input : Bool
  parents : List Nat
  depends_on_list : List Nat
  operation : Nat
  operation_complete : ℚ
  operation_alpha : Bool
  operation_parameter : ℚ
  mesh : Bool
  shaders : Option (List String)
  uniforms : Option (List (String × UVal))
  properties : Option (List (String × ℚ))
  cached_texture : Option Nat
  cached_model : Option Nat
  uniforms_has_render : Bool
  debug : Bool
deriving Repr, DecidableEq

/-- The fresh node built by `Render.__init__`. -/
def initRender (w h : ℚ) (layer : Option String) : RNode :=
  { mark := false
    cache_killed := false
    killed := false
    width := w
    height := h
    layer_name := layer
    children := []
    forward := none
    reverse := none
    alpha := 1
    over := 1
    nearest := none
    focuses := none
    pass_focuses := none
    focus_screen := none
    render_of := []
    xclipping := false
    yclipping := false
    modal := false
    text_input := false
    parents := []
    depends_on_list := []
    operation := 0
    operation_complete := 0
    operation_alpha := false
    operation_parameter := 0
    mesh := false
    shaders := none
    uniforms := none
    properties := none
    cached_texture := none
    cached_model := none
    uniforms_has_render := false
    debug := false }

/-- The heap of Render objects, as an association list from object id to
node state. -/
abbrev Store := List (Nat × RNode)

/-- Look up a node by id. -/
def findN : Store → Nat → Option RNode
  | [], _ => none
  | p :: ps, i => if p.1 = i then some p.2 else findN ps i

/-- Update the node with the given id in place. -/
def updN (l : Store) (i : Nat) (g : RNode → RNode) : Store :=
  l.map (fun p => if p.1 = i then (p.1, g p.2) else p)

/-- Python `set.add`: append if absent (insertion-ordered set model). -/
def setAdd (l : List Nat) (x : Nat) : List Nat :=
  if x ∈ l then l else l ++ [x]

/-- Python `list.insert`, which clamps an over-long index to an append. -/
def pyInsert {α : Type} (l : List α) (i : Nat) (a : α) : List α :=
  match l, i with
  | [], _ => [a]
  | x :: xs, 0 => a :: x :: xs
  | x :: xs, n + 1 => x :: pyInsert xs n a

/-- A render-cache key: `(w, h, frame_time - st, frame_time - at)`. -/
abbrev CKey := ℚ × ℚ × ℚ × ℚ

/-- The per-displayable render cache: an insertion-ordered dict from key
to render id. -/
abbrev DCache := List (CKey × Nat)

/-- The full render cache: a dict from displayable id to its `DCache`. -/
abbrev RCache := List (Nat × DCache)

def lookupKey : DCache → CKey → Option Nat
  | [], _ => none
  | p :: ps, k => if p.1 = k then some p.2 else lookupKey ps k

/-- Python dict assignment: overwrite in place, else append. -/
def setKey : DCache → CKey → Nat → DCache
  | [], k, v => [(k, v)]
  | p :: ps, k, v => if p.1 = k then (k, v) :: ps else p :: setKey ps k v

def lookupDisp : RCache → Nat → Option DCache
  | [], _ => none
  | p :: ps, d => if p.1 = d then some p.2 else lookupDisp ps d

def setDisp : RCache → Nat → DCache → RCache
  | [], d, v => [(d, v)]
  | p :: ps, d, v => if p.1 = d then (d, v) :: ps else p :: setDisp ps d v

/-- Python `del render_cache[d]`. -/
def delDisp (c : RCache) (d : Nat) : RCache :=
  c.filter (fun p => p.1 ≠ d)

/-- The errors the modelled code can raise.  The generic `Exception`s of
the source are classified following the spec's taxonomy. -/
inductive Err where
  | blitToSelf
  | dependsOnSelf
  | notARender
  | renderDuringInit
  | subsurfaceFailure
deriving Repr, DecidableEq

/-- The spec's `ContractViolation` class: a callback returned the wrong
type, or a node attempted to depend on / blit itself. -/
def Err.isContractViolation : Err → Bool
  | .blitToSelf => true
  | .dependsOnSelf => true
  | .notARender => true
  | _ => false

/-- The module-level mutable state of `render.pyx`, plus the external
collaborators `mark_sweep` reads (the image-cache renders, the
emscripten flag and the video-frame renders) and the callback
instrumentation log. -/
instance : DecidableEq (Nat × DCache) := instDecidableEqProd

instance : DecidableEq (Nat × ℚ × ℚ × ℚ × ℚ) := instDecidableEqProd

structure GState where
  store : Store
  nextId : Nat
  render_cache : RCache
  live_renders : List Nat
  screen_render : Option Nat
  frame_time : ℚ
  interact_time : Option ℚ
  sizing : Bool
  models : Bool
  emscripten : Bool
  video_renders : List Nat
  im_cache_renders : List Nat
  render_is_ready : Bool
  developer : Bool
  callback_log : List (Nat × ℚ × ℚ × ℚ × ℚ)
deriving Repr, DecidableEq

/-- Update one node inside the global state. -/
def updS (s : GState) (i : Nat) (g : RNode → RNode) : GState :=
  { s with store := updN s.store i g }

/-- `Render(w, h)`: allocate a fresh node; `__init__` appends it to
`live_renders`. -/
def alloc (s : GState) (w h : ℚ) : GState × Nat :=
  let i := s.nextId
  ({ s with
      store := s.store ++ [(i, initRender w h none)]
      live_renders := s.live_renders ++ [i]
      nextId := i + 1 },
   i)

/-- `if models: if isinstance(source, pygame.Surface): source =
renpy.display.draw.load_texture(source)`. -/
def loadTextureIfSurface (src : Child) : Child :=
  match src with
  | .surface w h => .texture w h
  | c => c

/-- Does `source is self` hold? -/
def isSelf (src : Child) (self : Nat) : Bool :=
  match src with
  | .node j => j = self
  | _ => false

/-- Shared tail of the three blit variants: append the child entry and
record the dependency edges when the source is a Render. -/
def blitCore (s : GState) (self : Nat) (src : Child) (xo yo : Off)
    (focus main : Bool) (index : Option Nat) : GState :=
  let s := updS s self (fun n =>
      { n with children :=
          match index with
          | none => n.children ++ [(src, xo, yo, focus, main)]
          | some ix => pyInsert n.children ix (src, xo, yo, focus, main) })
  match src with
  | .node j =>
    let s := updS s self (fun n =>
        { n with depends_on_list := n.depends_on_list ++ [j] })
    updS s j (fun n =>
        { n with parents := setAdd n.parents self })
  | _ => s

/-- `Render.blit`. -/
def blitOp (s : GState) (self : Nat) (source : Child) (pos : ℚ × ℚ)
    (focus main : Bool) (index : Option Nat) : Except Err GState :=
  if isSelf source self then .error .blitToSelf
  else
    let source := if s.models then loadTextureIfSurface source else source
    .ok (blitCore s self source (.i (pyInt pos.1)) (.i (pyInt pos.2)) focus main index)

/-- `Render.subpixel_blit`. -/
def subpixelBlitOp (s : GState) (self : Nat) (source : Child) (pos : ℚ × ℚ)
    (focus main : Bool) (index : Option Nat) : Except Err GState :=
  if isSelf source self then .error .blitToSelf
  else
    let source := if s.models then loadTextureIfSurface source else source
    .ok (blitCore s self source (.f pos.1) (.f pos.2) focus main index)

/-- `Render.absolute_blit`. -/
def absoluteBlitOp (s : GState) (self : Nat) (source : Child) (pos : ℚ × ℚ)
    (focus main : Bool) (index : Option Nat) : Except Err GState :=
  if isSelf source self then .error .blitToSelf
  else
    let source := if s.models then loadTextureIfSurface source else source
    .ok (blitCore s self source (.ab pos.1) (.ab pos.2) focus main index)

/-- `Render.depends_on`. -/
def dependsOnOp (s : GState) (self : Nat) (source : Nat) (focus : Bool) :
    Except Err GState :=
  if source = self then .error .dependsOnSelf
  else
    let s := updS s self (fun n =>
        { n with depends_on_list := n.depends_on_list ++ [source] })
    let s := updS s source (fun n =>
        { n with parents := setAdd n.parents self })
    if focus then
      .ok (updS s self (fun n =>
          { n with pass_focuses := some ((n.pass_focuses.getD []) ++ [source]) }))
    else .ok s

/-- `Render.add_focus`.  When the mask is a Render other than `self`, a
dependency on it is recorded (`self.depends_on(mask)` cannot raise
there, because `mask is not self` was just checked). -/
def addFocusOp (s : GState) (self : Nat) (e : FocusEntry) : GState :=
  let s :=
    match e.maskInfo with
    | some (_, _, .node m) =>
      if m = self then s
      else
        let s := updS s self (fun n =>
            { n with depends_on_list := n.depends_on_list ++ [m] })
        updS s m (fun n =>
            { n with parents := setAdd n.parents self })
    | _ => s
  updS s self (fun n =>
      { n with focuses := some ((n.focuses.getD []) ++ [e]) })

/-- `Render.add_shader`. -/
def addShaderOp (s : GState) (self : Nat) (shader : String) : GState :=
  updS s self (fun n =>
      match n.shaders with
      | none => { n with shaders := some [shader] }
      | some l => if shader ∈ l then n else { n with shaders := some (l ++ [shader]) })

/-- `Render.add_uniform`.  A Render value triggers `self.depends_on(value)`,
which raises when the value is `self` itself. -/
def addUniformOp (s : GState) (self : Nat) (name : String) (value : UVal) :
    Except Err GState :=
  match value with
  | .render i =>
    if i = self then .error .dependsOnSelf
    else
      let s := updS s self (fun n =>
          { n with depends_on_list := n.depends_on_list ++ [i] })
      let s := updS s i (fun n =>
          { n with parents := setAdd n.parents self })
      let s := updS s self (fun n =>
          { n with uniforms_has_render := true })
      .ok (updS s self (fun n =>
          { n with uniforms := some (setUniform (n.uniforms.getD []) name value) }))
  | .val _ =>
      .ok (updS s self (fun n =>
          { n with uniforms := some (setUniform (n.uniforms.getD []) name value) }))
where
  /-- Python dict assignment on the uniforms dict. -/
  setUniform : List (String × UVal) → String → UVal → List (String × UVal)
    | [], k, v => [(k, v)]
    | p :: ps, k, v => if p.1 = k then (k, v) :: ps else p :: setUniform ps k v

/-- `Render.compute_subline`: 1-D overlap of a source span `(sx, sw)` with
a crop span `(cx, cw)`, adjusted by the bounds span `(bx, bw)`; returns
`(offset, crop, width)`.  (`bw` is accepted and unused, as in the
source.) -/
def compute_subline (sx sw cx cw bx bw : ℚ) : ℚ × ℚ × ℚ :=
  let _ := bw
  let s_end := sx + sw
  let c_end := cx + cw
  let start := max sx cx
  let offset := start - cx
  let crop := start - sx
  let e := min s_end c_end
  let width := e - start
  let bsx := max sx bx
  if bsx < 0 then (offset + bsx, crop + bsx, width - bsx)
  else (offset, crop, width)

/-- The cache-eviction step shared by `kill_cache` and `kill`: for every
displayable in `render_of`, delete the cache entries whose value is
`self`, and drop the displayable's dict if it became empty.  (The
`defaultdict` access for a missing displayable creates an empty dict and
immediately deletes it again: a no-op.) -/
def rmStep (self : Nat) (c : RCache) (ro : Nat) : RCache :=
  match lookupDisp c ro with
  | none => c
  | some rs =>
    let rs2 := rs.filter (fun kv => kv.2 ≠ self)
    if rs2.isEmpty then delDisp c ro else setDisp c ro rs2

def removeFromCache (c : RCache) (self : Nat) (ros : List Nat) : RCache :=
  ros.foldl (rmStep self) c

/-- The `for i in list(self.parents): i.kill_cache()` loop, abstracted
over the recursive call. -/
def killCacheList (k : GState → Nat → GState) : GState → List Nat → GState
  | s, [] => s
  | s, p :: rest => killCacheList k (k s p) rest

/-- One unfolding of `Render.kill_cache`: flag the node, recurse into
its parents, then evict its cache entries. -/
def killCacheStep (k : GState → Nat → GState) (s : GState) (self : Nat) : GState :=
  match findN s.store self with
  | none => s
  | some n =>
    if n.cache_killed then s
    else
      let s1 := updS s self (fun m => { m with cache_killed := true })
      let s2 := killCacheList k s1 n.parents
      { s2 with render_cache := removeFromCache s2.render_cache self n.render_of }

/-- `Render.kill_cache` with explicit fuel standing for the call stack. -/
def killCacheF : Nat → GState → Nat → GState
  | 0 => fun s _ => s
  | f + 1 => killCacheStep (killCacheF f)

/-- `Render.kill_cache` with sufficient fuel (the recursion flags a new
node at every level, so its depth is bounded by the store size). -/
def kill_cache (s : GState) (self : Nat) : GState :=
  killCacheF (s.store.length + 1) s self

/-- The `for i in list(self.parents): i.kill()` loop, abstracted over
the recursive call. -/
def killList (k : GState → Nat → GState) : GState → List Nat → GState
  | s, [] => s
  | s, p :: rest => killList k (k s p) rest

/-- The tail of `Render.kill`, after the node is flagged and its parents
killed: clear its own parents, discard it from its dependencies' parent
sets, evict its cache entries, and (when it had render dependencies)
break its references. -/
def killFinish (s2 : GState) (self : Nat) (n : RNode) : GState :=
  let s3 := updS s2 self (fun m => { m with parents := [] })
  let s4 := n.depends_on_list.foldl
      (fun t i => updS t i (fun m => { m with parents := m.parents.erase self }))
      s3
  let s5 := { s4 with render_cache := removeFromCache s4.render_cache self n.render_of }
  let s6 :=
    if n.depends_on_list.isEmpty then s5
    else updS s5 self (fun m =>
        { m with depends_on_list := [], render_of := [], children := [] })
  updS s6 self (fun m =>
      { m with focuses := none, pass_focuses := none,
               cached_texture := none, cached_model := none })

/-- One unfolding of `Render.kill`: flag the node, kill its parents,
then run the reference-breaking tail. -/
def killStep (k : GState → Nat → GState) (s : GState) (self : Nat) : GState :=
  match findN s.store self with
  | none => s
  | some n =>
    if n.killed then s
    else killFinish (killList k (updS s self (fun m => { m with killed := true })) n.parents)
      self n

/-- `Render.kill` with explicit fuel standing for the call stack. -/
def killF : Nat → GState → Nat → GState
  | 0 => fun s _ => s
  | f + 1 => killStep (killF f)

/-- `Render.kill` with sufficient fuel. -/
def kill (s : GState) (self : Nat) : GState :=
  killF (s.store.length + 1) s self

/-- `adjust_render_cache_times(old_time, new_time)`: for each displayable
that has at least one cache key whose `st_base` (third component) equals
`old_time`, rebuild its dict rewriting every `st_base`/`at_base`
component equal to `old_time` to `new_time`. -/
def rebaseKey (old_time new_time : ℚ) (k : CKey) : CKey :=
  (k.1, k.2.1,
   (if k.2.2.1 = old_time then new_time else k.2.2.1),
   (if k.2.2.2 = old_time then new_time else k.2.2.2))

def adjust_render_cache_times (s : GState) (old_time new_time : ℚ) : GState :=
  { s with render_cache := s.render_cache.map (fun p =>
      if p.2.any (fun kv => kv.1.2.2.1 = old_time) then
        (p.1, p.2.foldl (fun acc kv => setKey acc (rebaseKey old_time new_time kv.1) kv.2) [])
      else p) }

/-- `child.get_size()` for a children-list member or focus mask. -/
def getSize (s : GState) (c : Child) : Option (ℚ × ℚ) :=
  match c with
  | .node i => (findN s.store i).map (fun n => (n.width, n.height))
  | .surface w h => some (w, h)
  | .texture w h => some (w, h)

/-- The type of `Render.subsurface` as seen one recursion level down. -/
abbrev SubsurfaceFn := GState → Nat → (ℚ × ℚ × ℚ × ℚ) → Bool → Bool →
  Option (ℚ × ℚ × ℚ × ℚ) → Except Err (Nat × GState)

/-- `mask.subsurface(rect)` for a focus mask: a Render mask recurses with
default arguments, an opaque surface is cropped directly. -/
def maskGo (sub : SubsurfaceFn) (s : GState) (mask : Child) (rect : ℚ × ℚ × ℚ × ℚ) :
    Except Err (Child × GState) :=
  match mask with
  | .node i =>
    match sub s i rect false false none with
    | .error e => .error e
    | .ok (j, s) => .ok (.node j, s)
  | .surface _ _ => .ok (.surface rect.2.2.1 rect.2.2.2, s)
  | .texture _ _ => .ok (.texture rect.2.2.1 rect.2.2.2, s)

/-- The `try` block of the children loop of `subsurface`: crop one
child, recursing when it is a Render (with the clip-dependent crop and
bounds rectangles) and cropping directly when it is an opaque surface or
texture. -/
def childCrop (sub : SubsurfaceFn) (s : GState) (child : Child)
    (child_subpixel : Bool) (xo cx cw yo cy ch cbx cby w h bw bh : ℚ)
    (focus : Bool) : Except Err (Child × GState) :=
  match child with
  | .node cn =>
    match findN s.store cn with
    | none => .error .subsurfaceFailure
    | some cnode =>
      let (cropw, cbx2, cbw2) :=
        if cnode.xclipping then (cw, max 0 cbx, min cw (cbx + bw) - max 0 cbx)
        else (w - xo, cbx, bw)
      let (croph, cby2, cbh2) :=
        if cnode.yclipping then (ch, max 0 cby, min ch (cby + bh) - max 0 cby)
        else (h - yo, cby, bh)
      match sub s cn (cx, cy, cropw, croph) focus child_subpixel
          (some (cbx2, cby2, cbw2, cbh2)) with
      | .error _ => .error .subsurfaceFailure
      | .ok (nc, s) =>
        .ok (Child.node nc, updS s nc (fun m =>
            { m with render_of := cnode.render_of,
                     xclipping := cnode.xclipping || m.xclipping,
                     yclipping := cnode.yclipping || m.yclipping }))
  | .surface _ _ => .ok (.surface cw ch, s)
  | .texture _ _ => .ok (.texture cw ch, s)

/-- The `for child, cx, cy, cfocus, cmain in self.children` loop of
`subsurface`, abstracted over the recursive call into a child. -/
def childrenGo (sub : SubsurfaceFn) (s : GState) (rv : Nat)
    (cs : List (Child × Off × Off × Bool × Bool)) (x y w h bx by0 bw bh : ℚ)
    (focus subpixel : Bool) : Except Err GState :=
  match cs with
  | [] => .ok s
  | (child, cxo, cyo, cfocus, cmain) :: rest =>
    let child_subpixel := subpixel || !cxo.isInt || !cyo.isInt
    match getSize s child with
    | none => .error .subsurfaceFailure
    | some (childw, childh) =>
      let (xo, cx, cw) := compute_subline cxo.q childw x w bx bw
      let (yo, cy, ch) := compute_subline cyo.q childh y h by0 bh
      let cbx := bx - xo
      let cby := by0 - yo
      if cw ≤ 0 ∨ ch ≤ 0 ∨ w - xo ≤ 0 ∨ h - yo ≤ 0 then
        childrenGo sub s rv rest x y w h bx by0 bw bh focus subpixel
      else if cx < 0 ∨ cx ≥ childw ∨ cy < 0 ∨ cy ≥ childh then
        childrenGo sub s rv rest x y w h bx by0 bw bh focus subpixel
      else
        match childCrop sub s child child_subpixel xo cx cw yo cy ch cbx cby
            w h bw bh focus with
        | .error _ => .error .subsurfaceFailure
        | .ok (newchild, s) =>
          match (if child_subpixel then subpixelBlitOp s rv newchild (xo, yo) cfocus cmain none
                 else blitOp s rv newchild (xo, yo) cfocus cmain none) with
          | .error e => .error e
          | .ok s => childrenGo sub s rv rest x y w h bx by0 bw bh focus subpixel

/-- The `if focus and self.focuses` loop of `subsurface`, abstracted
over the recursive call used for mask cropping. -/
def focusesGo (sub : SubsurfaceFn) (s : GState) (rv : Nat) (fs : List FocusEntry)
    (x y w h bx by0 bw bh : ℚ) : Except Err GState :=
  match fs with
  | [] => .ok s
  | e :: rest =>
    match e.x with
    | none =>
      focusesGo sub (addFocusOp s rv e) rv rest x y w h bx by0 bw bh
    | some exo =>
      let (xo, _cx, fw) := compute_subline exo e.w x w bx bw
      let (yo, _cy, fh) := compute_subline e.y e.h y h by0 bh
      if fw ≤ 0 ∨ fh ≤ 0 then
        focusesGo sub s rv rest x y w h bx by0 bw bh
      else
        match e.maskInfo with
        | none =>
          let s := addFocusOp s rv { e with x := some xo, y := yo, w := fw, h := fh }
          focusesGo sub s rv rest x y w h bx by0 bw bh
        | some (mx, my, mask) =>
          match getSize s mask with
          | none => .error .subsurfaceFailure
          | some (mw, mh) =>
            let (mx2, mcx, mw2) := compute_subline mx mw x w bx bw
            let (my2, mcy, mh2) := compute_subline my mh y h by0 bh
            if mw2 ≤ 0 ∨ mh2 ≤ 0 then
              let s := addFocusOp s rv
                { e with x := some xo, y := yo, w := fw, h := fh, maskInfo := none }
              focusesGo sub s rv rest x y w h bx by0 bw bh
            else
              match maskGo sub s mask (mcx, mcy, mw2, mh2) with
              | .error e2 => .error e2
              | .ok (mask2, s) =>
                let s := addFocusOp s rv
                  { e with x := some xo, y := yo, w := fw, h := fh,
                           maskInfo := some (mx2, my2, mask2) }
                focusesGo sub s rv rest x y w h bx by0 bw bh

/-- One unfolding of `Render.subsurface(rect, focus, subpixel, bounds)`,
abstracted over the recursion used for children and masks.  Any failure
below a child is wrapped as the source wraps it in a generic subsurface
exception. -/
def subsurfaceStep (sub : SubsurfaceFn) : SubsurfaceFn := fun s self rect focus subpixel bounds =>
  match findN s.store self with
  | none => .error .subsurfaceFailure
  | some selfN =>
    let (x0, y0, w0, h0) := rect
    let x := if subpixel then x0 else ((pyInt x0 : ℤ) : ℚ)
    let y := if subpixel then y0 else ((pyInt y0 : ℤ) : ℚ)
    let w := if subpixel then w0 else ((pyInt w0 : ℤ) : ℚ)
    let h := if subpixel then h0 else ((pyInt h0 : ℤ) : ℚ)
    let (bx, by0, bw, bh) := bounds.getD (x, y, w, h)
    let (s, rv) := alloc s w h
    let flatten : Bool :=
      match selfN.reverse with
      | some m => decide (m.wdw ≠ 1)
      | none => false
    if flatten then
      let (s, thisId) := alloc s selfN.width selfN.height
      let s := updS s thisId (fun n => { n with mesh := true })
      let s := addShaderOp s thisId "renpy.texture"
      match blitOp s thisId (.node self) (0, 0) focus true none with
      | .error e => .error e
      | .ok s =>
        let s := updS s rv (fun n =>
            { n with xclipping := true, yclipping := true })
        match (if subpixel then subpixelBlitOp s rv (.node thisId) (-x, -y) focus true none
               else blitOp s rv (.node thisId) (-x, -y) focus true none) with
        | .error e => .error e
        | .ok s => .ok (rv, s)
    else
      let nonaxis : Bool :=
        (match selfN.reverse with
         | some m => decide (m.xdx ≠ 1 ∨ m.xdy ≠ 0 ∨ m.ydx ≠ 0 ∨ m.ydy ≠ 1)
         | none => false) || selfN.mesh
      if nonaxis then
        let s := updS s rv (fun n =>
            { n with xclipping := true, yclipping := true })
        match (if subpixel then subpixelBlitOp s rv (.node self) (-x, -y) focus true none
               else blitOp s rv (.node self) (-x, -y) focus true none) with
        | .error e => .error e
        | .ok s => .ok (rv, s)
      else
        match childrenGo sub s rv selfN.children x y w h bx by0 bw bh focus subpixel with
        | .error e => .error e
        | .ok s =>
          match (if focus then
                   match selfN.focuses with
                   | some fs => focusesGo sub s rv fs x y w h bx by0 bw bh
                   | none => .ok s
                 else .ok s) with
          | .error e => .error e
          | .ok s =>
            match dependsOnOp s rv self false with
            | .error e => .error e
            | .ok s =>
              .ok (rv, updS s rv (fun n =>
                  { n with alpha := selfN.alpha, over := selfN.over,
                           operation := selfN.operation,
                           operation_alpha := selfN.operation_alpha,
                           operation_complete := selfN.operation_complete,
                           nearest := selfN.nearest, mesh := selfN.mesh,
                           shaders := selfN.shaders, uniforms := selfN.uniforms,
                           properties := selfN.properties,
                           text_input := selfN.text_input }))

/-- `Render.subsurface`, with fuel standing for the python call stack. -/
def subsurfaceF : Nat → SubsurfaceFn
  | 0 => fun _ _ _ _ _ _ => .error .subsurfaceFailure
  | f + 1 => subsurfaceStep (subsurfaceF f)

/-- One construction step an external render callback may perform on the
node it is building (the operations `render.pyx` exposes to
displayables). -/
inductive BuildOp where
  | blit (src : Child) (xo yo : ℚ) (focus main : Bool)
  | subpixelBlit (src : Child) (xo yo : ℚ) (focus main : Bool)
  | absoluteBlit (src : Child) (xo yo : ℚ) (focus main : Bool)
  | dependsOn (src : Nat) (focus : Bool)
  | addFocus (e : FocusEntry)
  | addUniform (name : String) (value : UVal)
  | addShader (name : String)
  | setForward (m : Mat)
  | setReverse (m : Mat)
  | setMesh (b : Bool)
  | setClipping (xc yc : Bool)

/-- What an external render callback builds: `Render(width, height)`
followed by a list of construction operations. -/
structure BuildSpec where
  width : ℚ
  height : ℚ
  ops : List BuildOp

/-- The slice of a displayable the renderer reads: its python id, its
style's maximum sizes, `_offer_size`, `_clipping`, `style.debug`, and
its external render callback.  `bad_return` models a callback that
returns something other than a Render. -/
structure Displayable where
  id : Nat
  xmaximum : Option ℚ
  ymaximum : Option ℚ
  offer_size : Option (ℚ × ℚ)
  clipping : Bool
  style_debug : Bool
  bad_return : Bool
  build : ℚ → ℚ → ℚ → ℚ → BuildSpec

/-- Execute one callback construction step on the node being built. -/
def runOp (s : GState) (self : Nat) : BuildOp → Except Err GState
  | .blit src xo yo focus main => blitOp s self src (xo, yo) focus main none
  | .subpixelBlit src xo yo focus main => subpixelBlitOp s self src (xo, yo) focus main none
  | .absoluteBlit src xo yo focus main => absoluteBlitOp s self src (xo, yo) focus main none
  | .dependsOn src focus => dependsOnOp s self src focus
  | .addFocus e => .ok (addFocusOp s self e)
  | .addUniform name value => addUniformOp s self name value
  | .addShader name => .ok (addShaderOp s self name)
  | .setForward m => .ok (updS s self (fun n => { n with forward := some m }))
  | .setReverse m => .ok (updS s self (fun n => { n with reverse := some m }))
  | .setMesh b => .ok (updS s self (fun n => { n with mesh := b }))
  | .setClipping xc yc => .ok (updS s self (fun n =>
      { n with xclipping := xc, yclipping := yc }))

def runOps (s : GState) (self : Nat) : List BuildOp → Except Err GState
  | [] => .ok s
  | op :: ops =>
    match runOp s self op with
    | .ok s2 => runOps s2 self ops
    | .error e => .error e

/-- Run an external render callback's construction: allocate the node,
then apply its operations. -/
def runBuild (s : GState) (b : BuildSpec) : Except Err (Nat × GState) :=
  let (s1, i) := alloc s b.width b.height
  match runOps s1 i b.ops with
  | .ok s2 => .ok (i, s2)
  | .error e => .error e

/-- `render_cache[id_d]`: a `defaultdict` access, which creates an empty
per-displayable dict when none exists. -/
def dget (s : GState) (d : Nat) : DCache × GState :=
  match lookupDisp s.render_cache d with
  | some rs => (rs, s)
  | none => ([], { s with render_cache := s.render_cache ++ [(d, [])] })

/-- Modelled from the spec: `renpy.display.core.absolute.compute_raw` is
external to this file; maxima are declared in pixels, so the computed
raw value of a maximum is the maximum itself (the `room` argument is
what a fractional maximum would be scaled by). -/
def computeRaw (value room : ℚ) : ℚ :=
  let _ := room
  value

/-- The clipping rewrap of the miss path: when the displayable declares
`_clipping`, pass the node through `subsurface((0, 0, w, h), focus=True)`
and append the displayable to the result's `render_of`. -/
def renderClip (s : GState) (d : Displayable) (rv0 : Nat) : Except Err (Nat × GState) :=
  if d.clipping then
    match findN s.store rv0 with
    | none => .error .subsurfaceFailure
    | some n0 =>
      match subsurfaceF (s.store.length + 1) s rv0 (0, 0, n0.width, n0.height)
          true false none with
      | .ok (rv1, s) =>
        .ok (rv1, updS s rv1 (fun n => { n with render_of := n.render_of ++ [d.id] }))
      | .error e => .error e
  else .ok (rv0, s)

/-- The store step of the miss path: re-fetch the displayable's cache
dict (a `defaultdict` access, as invalidations may have removed it) and
store the node under `wh` and, if different, `orig_wh`. -/
def renderStore (s : GState) (d_id : Nat) (wh orig_wh : CKey) (rv : Nat) : GState :=
  let p := dget s d_id
  let c1 := setKey p.1 wh rv
  let c2 := if wh ≠ orig_wh then setKey c1 orig_wh rv else c1
  { p.2 with render_cache := setDisp p.2.render_cache d_id c2 }

/-- The miss path of `render`, after the original-key and clamped-key
cache probes: invoke the callback, post-process, and (outside sizing
mode) store the result. -/
def renderCore (s : GState) (d : Displayable) (wh orig_wh : CKey)
    (width height st at_ : ℚ) : Except Err (Nat × GState) :=
  let s := { s with callback_log := s.callback_log ++ [(d.id, width, height, st, at_)] }
  if d.bad_return then .error .notARender
  else
    match runBuild s (d.build width height st at_) with
    | .error e => .error e
    | .ok (rv0, s) =>
      let s := updS s rv0 (fun n =>
          { n with render_of := n.render_of ++ [d.id], cache_killed := false })
      match renderClip s d rv0 with
      | .error e => .error e
      | .ok (rv, s) =>
        let s := updS s rv (fun n =>
            { n with debug := d.style_debug || n.debug })
        if s.sizing then .ok (rv, s)
        else .ok (rv, renderStore s d.id wh orig_wh rv)

/-- The size clamping of `render`: apply `_offer_size`, clamp against
`style.xmaximum` / `style.ymaximum`, and floor negative results at 0. -/
def clampSize (d : Displayable) (widtho heighto : ℚ) : ℚ × ℚ :=
  let (width0, height0) := d.offer_size.getD (widtho, heighto)
  let width1 := match d.xmaximum with
    | some m => min (computeRaw m width0) width0
    | none => width0
  let height1 := match d.ymaximum with
    | some m => min (computeRaw m height0) height0
    | none => height0
  ((if width1 < 0 then 0 else width1), (if height1 < 0 then 0 else height1))

/-- `render(d, widtho, heighto, st, at)`: the primary cached entry point. -/
def render (s : GState) (d : Displayable) (widtho heighto st at_ : ℚ) :
    Except Err (Nat × GState) :=
  if !s.render_is_ready && s.developer then .error .renderDuringInit
  else
    let (render_cache_d, s) := dget s d.id
    match lookupKey render_cache_d (widtho, heighto, s.frame_time - st, s.frame_time - at_) with
    | some rv => .ok (rv, s)
    | none =>
      let (width, height) := clampSize d widtho heighto
      if widtho ≠ width ∨ heighto ≠ height then
        match lookupKey render_cache_d (width, height, s.frame_time - st, s.frame_time - at_) with
        | some rv => .ok (rv, s)
        | none =>
          renderCore s d (width, height, s.frame_time - st, s.frame_time - at_)
            (widtho, heighto, s.frame_time - st, s.frame_time - at_) width height st at_
      else
        renderCore s d (widtho, heighto, s.frame_time - st, s.frame_time - at_)
          (widtho, heighto, s.frame_time - st, s.frame_time - at_) width height st at_

/-- `render_for_size`: probe the cache, else render with the global
`sizing` flag set (restored afterwards). -/
def render_for_size (s : GState) (d : Displayable) (width height st at_ : ℚ) :
    Except Err (Nat × GState) :=
  let orig_wh : CKey := (width, height, s.frame_time - st, s.frame_time - at_)
  let (render_cache_d, s) := dget s d.id
  match lookupKey render_cache_d orig_wh with
  | some rv => .ok (rv, s)
  | none =>
    let old_sizing := s.sizing
    match render { s with sizing := true } d width height st at_ with
    | .ok (rv, s2) => .ok (rv, { s2 with sizing := old_sizing })
    | .error e => .error e

/-- `render_screen(root, width, height)`: render the root and record it
as the screen render. -/
def render_screen (s : GState) (root : Displayable) (width height : ℚ) :
    Except Err (Nat × GState) :=
  let st : ℚ := match s.interact_time with
    | none => 0
    | some it => s.frame_time - it
  match render s root width height st st with
  | .ok (rv, s1) => .ok (rv, { s1 with screen_render := some rv })
  | .error e => .error e

/-- `r.mark = b`. -/
def setMark (s : GState) (i : Nat) (b : Bool) : GState :=
  updS s i (fun n => { n with mark := b })

/-- The mark roots of `mark_sweep`: the screen render, if any, and the
image-cache renders. -/
def gcRoots (s : GState) : List Nat :=
  (match s.screen_render with | some r => [r] | none => []) ++ s.im_cache_renders

/-- `for r in worklist: r.mark = True` over the initial worklist. -/
def markRoots (s : GState) (roots : List Nat) : GState :=
  roots.foldl (fun t r => setMark t r true) s

/-- One dependency visit of the mark phase: mark and enqueue it if it is
an unmarked render. -/
def bfsMark (p : GState × List Nat) (j : Nat) : GState × List Nat :=
  match findN p.1.store j with
  | some m => if m.mark then p else (setMark p.1 j true, p.2 ++ [j])
  | none => p

/-- The worklist loop of `mark_sweep`'s mark phase: dequeue a render,
mark and enqueue its unmarked dependencies; `acc` collects the processed
prefix, so `acc ++ queue` is the python worklist. -/
def bfsF : Nat → GState → List Nat → List Nat → GState × List Nat
  | _, s, [], acc => (s, acc)
  | 0, s, q, acc => (s, acc ++ q)
  | f + 1, s, r :: q, acc =>
    match findN s.store r with
    | none => bfsF f s q (acc ++ [r])
    | some n =>
      let step := n.depends_on_list.foldl bfsMark (s, q)
      bfsF f step.1 step.2 (acc ++ [r])

/-- The emscripten protection pass: mark the video-frame renders. -/
def videoMark (s : GState) : GState :=
  if s.emscripten then s.video_renders.foldl (fun t o => setMark t o true) s
  else s

/-- One entry of the sweep: kill an unmarked live render, or reset the
mark of a marked one. -/
def sweepStep (t : GState) (r : Nat) : GState :=
  match findN t.store r with
  | none => t
  | some n => if n.mark then setMark t r false else killF (t.store.length + 1) t r

/-- The sweep: kill every unmarked live render, reset the marks of the
others. -/
def sweepKill (s : GState) (live : List Nat) : GState :=
  live.foldl sweepStep s

/-- `mark_sweep()`: mark from the screen render and the image-cache
renders, protect video-frame renders on emscripten, kill every unmarked
live render, reset the marks of the others, and replace `live_renders`
with the worklist. -/
def mark_sweep (s : GState) : GState :=
  let roots := gcRoots s
  let s1 := markRoots s roots
  let step := bfsF (roots.length + s1.store.length + 1) s1 roots []
  let s3 := videoMark step.1
  let s4 := sweepKill s3 s.live_renders
  { s4 with live_renders := step.2 }

/-! ### States, invariants and example fixtures used by the development -/

/-- A small base state shared by the concrete examples below. -/
def exBase : GState :=
  { store := [], nextId := 0, render_cache := [], live_renders := []
    screen_render := none, frame_time := 0, interact_time := none
    sizing := false, models := false, emscripten := false
    video_renders := [], im_cache_renders := []
    render_is_ready := true, developer := true, callback_log := [] }

/-- The state for the C6 counterexample: displayable `0` has a single
key `(5, 5, 7, 0)` whose animation-time component is `0` but whose
shown-time component is not; displayable `1` has keys `(1, 1, 0, 5)` and
`(1, 1, 9, 5)` that collide after rebasing `0 ↦ 9`. -/
def exC6 : GState :=
  { exBase with render_cache :=
      [(0, [((5, 5, 7, 0), 3)]),
       (1, [((1, 1, 0, 5), 10), ((1, 1, 9, 5), 11)])] }

/-- The global fields that the node-building operations (`blit`...,
`depends_on`, `add_focus`, allocation, `subsurface`) never change; the
node id counter only grows. -/
def gExt (s s2 : GState) : Prop :=
  s2.render_cache = s.render_cache ∧ s2.callback_log = s.callback_log ∧
  s2.sizing = s.sizing ∧ s2.frame_time = s.frame_time ∧
  s2.render_is_ready = s.render_is_ready ∧ s2.developer = s.developer ∧
  s.nextId ≤ s2.nextId

/-- Shorthand for the inductive hypothesis threaded through the
subsurface helpers: the recursive call preserves the global fields and
returns the node allocated on entry. -/
def SubPreserves (sub : SubsurfaceFn) : Prop :=
  ∀ s self rect focus subpixel bounds j s2,
    sub s self rect focus subpixel bounds = .ok (j, s2) → j = s.nextId ∧ gExt s s2

/-- Key-level cache lookup, as `render` performs it. -/
def cacheGet (s : GState) (d : Nat) (k : CKey) : Option Nat :=
  match lookupDisp s.render_cache d with
  | none => none
  | some rs => lookupKey rs k

/-- C1 (witness): the theorem applied at a concrete fresh state and a
displayable whose callback builds a bare node. -/
def exD1 : Displayable :=
  { id := 7, xmaximum := none, ymaximum := none, offer_size := none
    clipping := false, style_debug := false, bad_return := false
    build := fun w h _ _ => ⟨w, h, []⟩ }

def exN1 : Nat := ((render exBase exD1 100 50 0 0).toOption.getD (0, exBase)).1

def exS1 : GState := ((render exBase exD1 100 50 0 0).toOption.getD (0, exBase)).2

/-- The displayable for the C5 counterexample: `xmaximum = 100` but with
an `_offer_size` of `(50, 50)`, which `render` applies before the
maximum clamp. -/
def exD5 : Displayable :=
  { id := 5, xmaximum := some 100, ymaximum := none, offer_size := some (50, 50)
    clipping := false, style_debug := false, bad_return := false
    build := fun w h _ _ => ⟨w, h, []⟩ }

/-- C5 (witness): the amended theorem at a concrete displayable with
`xmaximum = 100` and no `_offer_size`, rendered at width 200. -/
def exD5b : Displayable :=
  { id := 6, xmaximum := some 100, ymaximum := none, offer_size := none
    clipping := false, style_debug := false, bad_return := false
    build := fun w h _ _ => ⟨w, h, []⟩ }

def exN5 : Nat := ((render exBase exD5b 200 40 0 0).toOption.getD (0, exBase)).1

def exS5 : GState := ((render exBase exD5b 200 40 0 0).toOption.getD (0, exBase)).2

/-- Every node id stored in the cache was allocated before `nextId`. -/
def cacheBounded (s : GState) : Prop :=
  ∀ dd k i, cacheGet s dd k = some i → i < s.nextId

/-- C8 (witness): the theorem at a concrete fresh state; the cache-hit
clause is instantiated at the populated state `exC6`, whose displayable
`0` holds key `(5, 5, 7, 0)` with node `3`. -/
def exD8 : Displayable :=
  { id := 0, xmaximum := none, ymaximum := none, offer_size := none
    clipping := false, style_debug := false, bad_return := false
    build := fun w h _ _ => ⟨w, h, []⟩ }

def exN8 : Nat := ((render_for_size exBase exD8 5 5 (-7) 0).toOption.getD (0, exBase)).1

def exS8 : GState := ((render_for_size exBase exD8 5 5 (-7) 0).toOption.getD (0, exBase)).2

/-- Cache/store well-formedness: every cache entry's node exists in the
store and records the entry's displayable in its `render_of`. -/
def CacheWF (s : GState) : Prop :=
  ∀ de ∈ s.render_cache, ∀ kv ∈ de.2,
    ∃ n, findN s.store kv.2 = some n ∧ de.1 ∈ n.render_of

/-- No cache entry maps to a `cache_killed` node outside the id set `E`. -/
def CleanExcept (s : GState) (E : List Nat) : Prop :=
  ∀ de ∈ s.render_cache, ∀ kv ∈ de.2, ∀ n,
    findN s.store kv.2 = some n → n.cache_killed = true → kv.2 ∈ E

/-- Executable form of `CacheWF`, for concrete states. -/
def cacheWFb (s : GState) : Bool :=
  s.render_cache.all (fun de => de.2.all (fun kv =>
    match findN s.store kv.2 with
    | some n => decide (de.1 ∈ n.render_of)
    | none => false))

/-- Executable form of `CleanExcept _ []`, for concrete states. -/
def cacheCleanb (s : GState) : Bool :=
  s.render_cache.all (fun de => de.2.all (fun kv =>
    match findN s.store kv.2 with
    | some n => !n.cache_killed
    | none => true))

/-- What a `kill_cache` pass may do to the state: flip `cache_killed`
flags from false to true, and drop cache entries — never adding, moving
or rekeying one — while preserving displayable-key distinctness. -/
def StoreCK (s s2 : GState) : Prop :=
  (∀ i n, findN s.store i = some n →
    findN s2.store i = some n ∨
      (n.cache_killed = false ∧
        findN s2.store i = some { n with cache_killed := true })) ∧
  (∀ i, findN s.store i = none → findN s2.store i = none) ∧
  ((s.render_cache.map Prod.fst).Nodup →
    ∀ de ∈ s2.render_cache, ∀ kv ∈ de.2,
      ∃ rs, (de.1, rs) ∈ s.render_cache ∧ kv ∈ rs) ∧
  ((s.render_cache.map Prod.fst).Nodup → (s2.render_cache.map Prod.fst).Nodup)

/-- C3 (witness): a two-node state where node `0` (cached for
displayable `10`) has parent `1` (cached for displayable `11`). -/
def exN3c : RNode := { initRender 1 1 none with parents := [1], render_of := [10] }

def exN3p : RNode := { initRender 2 2 none with render_of := [11] }

def exS3 : GState :=
  { exBase with
      store := [(0, exN3c), (1, exN3p)]
      render_cache := [(10, [((1, 1, 0, 0), 0)]), (11, [((2, 2, 0, 0), 1)])]
      nextId := 2 }

/-- The number of store nodes whose `cache_killed` flag is still clear:
the measure that bounds the `kill_cache` recursion. -/
def cntCK (s : GState) : Nat := (s.store.filter (fun q => !q.2.cache_killed)).length

/-- The number of store nodes whose `killed` flag is still clear: the
measure that bounds the `kill` recursion. -/
def cntK (s : GState) : Nat := (s.store.filter (fun q => !q.2.killed)).length

/-- The inversion invariant: among live (non-killed) nodes, `b` lists
`a`'s node among its parents exactly when `a` lists `b` among its
dependencies. -/
def LiveInv (s : GState) : Prop :=
  ∀ a na b nb, findN s.store a = some na → findN s.store b = some nb →
    na.killed = false → nb.killed = false →
    (b ∈ na.parents ↔ a ∈ nb.depends_on_list)

/-- C9 (witness): a two-node state satisfying the invariant (node `1`
is a parent of node `0`, recorded in both directions); `depends_on`
applied at it keeps the invariant, checked at the new edge. -/
def exN9a : RNode := { initRender 1 1 none with parents := [1] }

def exN9b : RNode := { initRender 2 2 none with depends_on_list := [0] }

def exS9 : GState := { exBase with store := [(0, exN9a), (1, exN9b)], nextId := 2 }

def exS9d : GState := (dependsOnOp exS9 0 1 false).toOption.getD exS9

/-- Reachability by `depends_on` edges from a set of root ids, over the
store of a fixed state. -/
inductive Reaches (s : GState) (roots : List Nat) : Nat → Prop
  | root {r : Nat} : r ∈ roots → Reaches s roots r
  | step {x : Nat} {nx : RNode} {j : Nat} : Reaches s roots x →
      findN s.store x = some nx → j ∈ nx.depends_on_list → Reaches s roots j

/-- The number of store nodes whose `mark` flag is clear: the worklist
measure of the mark phase. -/
def cntM (s : GState) : Nat := (s.store.filter (fun q => !q.2.mark)).length

/-- The mark phase only sets `mark` flags: every other node field, the
store domain, and the globals it reads are untouched. -/
def OnlyMarks (s s2 : GState) : Prop :=
  (∀ x n, findN s.store x = some n →
    findN s2.store x = some n ∨
      (n.mark = false ∧ findN s2.store x = some { n with mark := true })) ∧
  (∀ x, findN s.store x = none → findN s2.store x = none) ∧
  s2.emscripten = s.emscripten ∧ s2.live_renders = s.live_renders

/-- What the sweep may do to the store viewed forwards: parents only
shrink, `killed` only rises, `mark` only falls, and the domain is
preserved. -/
def KShapeLight (s s2 : GState) : Prop :=
  (∀ x n, findN s.store x = some n →
    ∃ n2, findN s2.store x = some n2 ∧
      (∀ y, y ∈ n2.parents → y ∈ n.parents) ∧
      (n.killed = true → n2.killed = true) ∧
      (n2.mark = true → n.mark = true)) ∧
  (∀ x, findN s.store x = none → findN s2.store x = none)

/-- The state after the root-marking pass of `mark_sweep`. -/
def gcS1 (s : GState) : GState := markRoots s (gcRoots s)

/-- The mark phase of `mark_sweep`: the marked state and the final
worklist. -/
def gcStep (s : GState) : GState × List Nat :=
  bfsF ((gcRoots s).length + (gcS1 s).store.length + 1) (gcS1 s) (gcRoots s) []

/-- The root node of the C2 state: the screen render, depending on `1`. -/
def exN2r : RNode := { initRender 10 10 none with depends_on_list := [1] }

/-- Node `1` of the C2 state: reachable from the root, but also the
dependency of the unreachable node `2`, so its `parents` list is
`[0, 2]`. -/
def exN2b : RNode := { initRender 5 5 none with parents := [0, 2] }

/-- Node `2` of the C2 state: unreachable, with the nonempty dependency
list `[1]`. -/
def exN2u : RNode := { initRender 3 3 none with depends_on_list := [1] }

/-- Node `3` of the C2 state: unreachable, with no dependencies but a
nonempty `children` list (a raw surface child). -/
def exN2c : RNode :=
  { initRender 4 4 none with
      children := [(Child.surface 4 4, Off.i 0, Off.i 0, false, false)] }

/-- The C2 state: screen render `0` depends on `1`; `2` and `3` are
unreachable live renders. -/
def exS2 : GState :=
  { exBase with
      store := [(0, exN2r), (1, exN2b), (2, exN2u), (3, exN2c)]
      live_renders := [0, 1, 2, 3]
      screen_render := some 0
      nextId := 4 }

/-- The node stored at `1` after `mark_sweep` on the C2 state. -/
def exM2n1 : RNode := (findN (mark_sweep exS2).store 1).getD (initRender 0 0 none)

/-- The node stored at `3` after `mark_sweep` on the C2 state. -/
def exM2n3 : RNode := (findN (mark_sweep exS2).store 3).getD (initRender 0 0 none)

/-! ### Association-list lemmas -/

theorem findN_updN (l : Store) (i j : Nat) (g : RNode → RNode) :
    findN (updN l i g) j = if j = i then (findN l j).map g else findN l j := by
  induction l with
  | nil => simp [findN, updN]
  | cons p ps ih =>
    obtain ⟨a, n⟩ := p
    simp only [updN, List.map_cons] at *
    rcases eq_or_ne a i with rfl | hai
    · rcases eq_or_ne a j with rfl | haj
      · simp [findN]
      · simp [findN, haj, ih]
    · rcases eq_or_ne a j with rfl | haj
      · simp [findN, hai, Ne.symm hai]
      · simp [findN, hai, haj, ih]

theorem findN_updS (s : GState) (i j : Nat) (g : RNode → RNode) :
    findN (updS s i g).store j = if j = i then (findN s.store j).map g else findN s.store j := by
  simp [updS, findN_updN]

theorem lookupKey_setKey (c : DCache) (k k2 : CKey) (v : Nat) :
    lookupKey (setKey c k v) k2 = if k2 = k then some v else lookupKey c k2 := by
  induction c with
  | nil => simp [setKey, lookupKey, eq_comm]
  | cons p ps ih =>
    obtain ⟨a, m⟩ := p
    rcases eq_or_ne a k with rfl | hak
    · rcases eq_or_ne a k2 with rfl | hak2
      · simp [setKey, lookupKey]
      · simp [setKey, lookupKey, hak2, Ne.symm hak2]
    · rcases eq_or_ne a k2 with rfl | hak2
      · simp [setKey, lookupKey, hak, Ne.symm hak]
      · simp [setKey, lookupKey, hak, hak2, ih]

theorem lookupDisp_setDisp (c : RCache) (d d2 : Nat) (v : DCache) :
    lookupDisp (setDisp c d v) d2 = if d2 = d then some v else lookupDisp c d2 := by
  induction c with
  | nil => simp [setDisp, lookupDisp, eq_comm]
  | cons p ps ih =>
    obtain ⟨a, m⟩ := p
    rcases eq_or_ne a d with rfl | had
    · rcases eq_or_ne a d2 with rfl | had2
      · simp [setDisp, lookupDisp]
      · simp [setDisp, lookupDisp, had2, Ne.symm had2]
    · rcases eq_or_ne a d2 with rfl | had2
      · simp [setDisp, lookupDisp, had, Ne.symm had]
      · simp [setDisp, lookupDisp, had, had2, ih]

theorem lookupDisp_append (c1 c2 : RCache) (d : Nat) :
    lookupDisp (c1 ++ c2) d =
      match lookupDisp c1 d with
      | some v => some v
      | none => lookupDisp c2 d := by
  induction c1 with
  | nil => simp [lookupDisp]
  | cons p ps ih =>
    by_cases h : p.1 = d <;> simp [lookupDisp, h, ih]

/-! ### C4: subline overlap -/

/-- C4 (counterexample): with source span `(0, 10)`, crop span `(5, 10)`
and bounds equal to the crop span, `compute_subline` returns offset `0`
relative to the crop line, not `5` as the claim states; moreover the
disjoint spans `(-20, 5)` and `(-10, 5)` (with bounds the crop span)
yield overlap width `5 > 0`, refuting the claim that every pair of
disjoint spans gives width `≤ 0`. -/
theorem subline_overlap_cex :
    (compute_subline 0 10 5 10 5 10).1 = 0 ∧ ((0 : ℚ) ≠ 5) ∧
    ((-20 : ℚ) + 5 ≤ -10 ∧ (compute_subline (-20) 5 (-10) 5 (-10) 5).2.2 = 5 ∧
      ¬ ((5 : ℚ) ≤ 0)) := by
  refine ⟨by norm_num [compute_subline], by norm_num, by norm_num, ?_, by norm_num⟩
  norm_num [compute_subline]

/-- C4 (amended): `compute_subline` with source span `(sx = 0, sw = 10)`,
crop span `(cx = 5, cw = 10)` and bounds equal to the crop span returns
offset `0` relative to the crop line, crop `5` relative to the source
line and overlap width `5`; and for every pair of disjoint spans whose
overlap start `max sx cx` is not negative (in particular all spans with
nonnegative start coordinates), the returned width is `≤ 0`. -/
theorem subline_overlap_amended :
    compute_subline 0 10 5 10 5 10 = (0, 5, 5) ∧
    ∀ sx sw cx cw : ℚ, (sx + sw ≤ cx ∨ cx + cw ≤ sx) → 0 ≤ max sx cx →
      (compute_subline sx sw cx cw cx cw).2.2 ≤ 0 := by
  constructor
  · norm_num [compute_subline]
  · intro sx sw cx cw hdisj hnn
    simp only [compute_subline]
    rw [if_neg (by simpa using not_lt.mpr hnn)]
    rcases hdisj with h | h
    · exact sub_nonpos.mpr (le_trans (min_le_left _ _) (le_trans h (le_max_right _ _)))
    · exact sub_nonpos.mpr (le_trans (min_le_right _ _) (le_trans h (le_max_left _ _)))

/-- C4 (witness): the amended theorem applied at the claim's own inputs:
the concrete overlap triple, and the disjoint pair `(0, 5)` / `(10, 5)`. -/
theorem subline_overlap_w :
    compute_subline 0 10 5 10 5 10 = (0, 5, 5) ∧
    (compute_subline 0 5 10 5 10 5).2.2 ≤ 0 :=
  ⟨subline_overlap_amended.1,
   subline_overlap_amended.2 0 5 10 5 (Or.inl (by norm_num)) (by norm_num)⟩

/-! ### C7: no self-dependency -/

/-- C7: every blit variant (`blit`, `subpixel_blit`, `absolute_blit`)
with `source is self`, and `depends_on` with `source is self`, fails
before any mutation with an error in the spec's `ContractViolation`
class, for every node and every state. -/
theorem no_self_dependency :
    (∀ s self pos focus main index,
       blitOp s self (.node self) pos focus main index = .error .blitToSelf) ∧
    (∀ s self pos focus main index,
       subpixelBlitOp s self (.node self) pos focus main index = .error .blitToSelf) ∧
    (∀ s self pos focus main index,
       absoluteBlitOp s self (.node self) pos focus main index = .error .blitToSelf) ∧
    (∀ s self focus, dependsOnOp s self self focus = .error .dependsOnSelf) ∧
    Err.blitToSelf.isContractViolation = true ∧
    Err.dependsOnSelf.isContractViolation = true := by
  refine ⟨?_, ?_, ?_, ?_, rfl, rfl⟩ <;> intros <;>
    simp [blitOp, subpixelBlitOp, absoluteBlitOp, dependsOnOp, isSelf]

/-! ### C6: time rebasing -/

theorem lookupKey_append (c1 c2 : DCache) (k : CKey) :
    lookupKey (c1 ++ c2) k =
      match lookupKey c1 k with
      | some v => some v
      | none => lookupKey c2 k := by
  induction c1 with
  | nil => simp [lookupKey]
  | cons p ps ih =>
    by_cases h : p.1 = k <;> simp [lookupKey, h, ih]

theorem setKey_notMem (c : DCache) (k : CKey) (v : Nat)
    (h : lookupKey c k = none) : setKey c k v = c ++ [(k, v)] := by
  induction c with
  | nil => simp [setKey]
  | cons p ps ih =>
    simp only [lookupKey] at h
    rcases eq_or_ne p.1 k with hk | hk
    · simp [hk] at h
    · simp only [setKey, if_neg hk, List.cons_append, List.cons.injEq, true_and]
      exact ih (by simpa [hk] using h)

theorem foldl_setKey_map (f : CKey → CKey) :
    ∀ (rs : DCache) (acc : DCache),
    (rs.map (fun kv => f kv.1)).Nodup →
    (∀ kv ∈ rs, lookupKey acc (f kv.1) = none) →
    rs.foldl (fun a kv => setKey a (f kv.1) kv.2) acc =
      acc ++ rs.map (fun kv => (f kv.1, kv.2)) := by
  intro rs
  induction rs with
  | nil => simp
  | cons kv rest ih =>
    intro acc hnd hfresh
    simp only [List.foldl_cons]
    rw [setKey_notMem acc _ _ (hfresh kv (List.mem_cons_self _ _)), ih]
    · simp
    · simp only [List.map_cons, List.nodup_cons] at hnd
      exact hnd.2
    · intro kv2 hm
      rw [lookupKey_append, hfresh kv2 (List.mem_cons_of_mem _ hm)]
      have hne : f kv2.1 ≠ f kv.1 := by
        simp only [List.map_cons, List.nodup_cons, List.mem_map] at hnd
        exact fun hEq => hnd.1 ⟨kv2, hm, hEq⟩
      simp [lookupKey, Ne.symm hne]

theorem adjustD_lookup (c : RCache) (ot nt : ℚ) (d : Nat) (rs : DCache)
    (h : lookupDisp c d = some rs) :
    lookupDisp (c.map (fun p =>
      if p.2.any (fun kv => kv.1.2.2.1 = ot) then
        (p.1, p.2.foldl (fun acc kv => setKey acc (rebaseKey ot nt kv.1) kv.2) [])
      else p)) d =
    some (if rs.any (fun kv => kv.1.2.2.1 = ot) then
        rs.foldl (fun acc kv => setKey acc (rebaseKey ot nt kv.1) kv.2) []
      else rs) := by
  induction c with
  | nil => simp [lookupDisp] at h
  | cons p ps ih =>
    rcases eq_or_ne p.1 d with hk | hk
    · simp only [lookupDisp, if_pos hk] at h
      obtain rfl : p.2 = rs := Option.some.inj h
      by_cases hany : p.2.any (fun kv => kv.1.2.2.1 = ot) <;>
        simp [lookupDisp, hany, hk]
    · simp only [lookupDisp, if_neg hk] at h
      by_cases hany : p.2.any (fun kv => kv.1.2.2.1 = ot) <;>
        simp [lookupDisp, hany, hk, ih h]

/-- C6 (amended): `adjust_render_cache_times(oldTime, newTime)` rewrites
the keys of a displayable's cache dict only when that displayable has at
least one key whose shown-time component equals `oldTime`; in that case
(and provided the rewritten keys stay pairwise distinct, so no dict
collision occurs) every key has each shown-time/animation-time component
equal to `oldTime` replaced by `newTime` and keeps its node; a
displayable none of whose keys matches on the shown-time component is
left entirely unchanged, even if some key's animation-time component
equals `oldTime`. -/
theorem time_rebasing_amended (s : GState) (ot nt : ℚ) (d : Nat) (rs : DCache)
    (h : lookupDisp s.render_cache d = some rs) :
    ((∀ kv ∈ rs, kv.1.2.2.1 ≠ ot) →
       lookupDisp (adjust_render_cache_times s ot nt).render_cache d = some rs) ∧
    ((∃ kv ∈ rs, kv.1.2.2.1 = ot) →
     (rs.map (fun kv => rebaseKey ot nt kv.1)).Nodup →
       lookupDisp (adjust_render_cache_times s ot nt).render_cache d =
         some (rs.map (fun kv => (rebaseKey ot nt kv.1, kv.2)))) := by
  constructor
  · intro hno
    have := adjustD_lookup s.render_cache ot nt d rs h
    have hany : rs.any (fun kv => kv.1.2.2.1 = ot) = false := by
      simp only [List.any_eq_false, decide_eq_true_eq]
      exact hno
    simpa [adjust_render_cache_times, hany] using this
  · intro hex hnd
    have := adjustD_lookup s.render_cache ot nt d rs h
    have hany : rs.any (fun kv => kv.1.2.2.1 = ot) = true := by
      simp only [List.any_eq_true, decide_eq_true_eq]
      exact hex
    rw [foldl_setKey_map (rebaseKey ot nt) rs [] hnd (by intros; simp [lookupKey])] at this
    simpa [adjust_render_cache_times, hany] using this

/-- C6 (counterexample): rebasing `0 ↦ 9` on `exC6` (i) leaves
displayable `0`'s key `(5, 5, 7, 0)` unchanged although its
animation-time component equals the old time — the rebased key
`(5, 5, 7, 9)` is not retrievable; and (ii) for displayable `1` the
rewritten key collides with an existing key, so node `10` is lost rather
than kept under the rewritten key. -/
theorem time_rebasing_cex :
    lookupDisp (adjust_render_cache_times exC6 0 9).render_cache 0 =
      some [((5, 5, 7, 0), 3)] ∧
    lookupKey [(((5 : ℚ), (5 : ℚ), (7 : ℚ), (0 : ℚ)), 3)] (5, 5, 7, 9) = none ∧
    lookupDisp (adjust_render_cache_times exC6 0 9).render_cache 1 =
      some [((1, 1, 9, 5), 11)] := by
  refine ⟨?_, by decide, ?_⟩ <;> decide

/-- C6 (witness): the amended theorem applied at a concrete cache with
one displayable whose key `(1, 1, 0, 2)` is rebased to `(1, 1, 9, 2)`. -/
theorem time_rebasing_w :
    lookupDisp (adjust_render_cache_times { exBase with render_cache := [(3, [((1, 1, 0, 2), 5)])] } 0 9).render_cache 3 =
      some [((1, 1, 9, 2), 5)] :=
  (time_rebasing_amended { exBase with render_cache := [(3, [((1, 1, 0, 2), 5)])] } 0 9 3
      [((1, 1, 0, 2), 5)] (by decide)).2 (by decide) (by decide)

/-! ### Global-field preservation through node-building operations -/

theorem gExt_refl (s : GState) : gExt s s :=
  ⟨rfl, rfl, rfl, rfl, rfl, rfl, le_refl _⟩

theorem gExt_trans {a b c : GState} (h1 : gExt a b) (h2 : gExt b c) : gExt a c := by
  obtain ⟨e1, e2, e3, e4, e5, e6, e7⟩ := h1
  obtain ⟨f1, f2, f3, f4, f5, f6, f7⟩ := h2
  exact ⟨f1.trans e1, f2.trans e2, f3.trans e3, f4.trans e4, f5.trans e5,
    f6.trans e6, le_trans e7 f7⟩

theorem gExt_updS (s : GState) (i : Nat) (g : RNode → RNode) :
    gExt s (updS s i g) := by
  simp [gExt, updS]

theorem gExt_alloc (s : GState) (w h : ℚ) : gExt s (alloc s w h).1 := by
  simp [gExt, alloc]

theorem gExt_blitCore (s : GState) (self : Nat) (src : Child) (xo yo : Off)
    (focus main : Bool) (index : Option Nat) :
    gExt s (blitCore s self src xo yo focus main index) := by
  cases src <;> simp [blitCore, gExt, updS]

theorem gExt_blitOp {s s2 : GState} {self : Nat} {src : Child} {pos : ℚ × ℚ}
    {focus main : Bool} {index : Option Nat}
    (h : blitOp s self src pos focus main index = .ok s2) : gExt s s2 := by
  unfold blitOp at h
  split at h
  · cases h
  · exact Except.ok.inj h ▸ gExt_blitCore ..

theorem gExt_subpixelBlitOp {s s2 : GState} {self : Nat} {src : Child} {pos : ℚ × ℚ}
    {focus main : Bool} {index : Option Nat}
    (h : subpixelBlitOp s self src pos focus main index = .ok s2) : gExt s s2 := by
  unfold subpixelBlitOp at h
  split at h
  · cases h
  · exact Except.ok.inj h ▸ gExt_blitCore ..

theorem gExt_absoluteBlitOp {s s2 : GState} {self : Nat} {src : Child} {pos : ℚ × ℚ}
    {focus main : Bool} {index : Option Nat}
    (h : absoluteBlitOp s self src pos focus main index = .ok s2) : gExt s s2 := by
  unfold absoluteBlitOp at h
  split at h
  · cases h
  · exact Except.ok.inj h ▸ gExt_blitCore ..

theorem gExt_dependsOnOp {s s2 : GState} {self source : Nat} {focus : Bool}
    (h : dependsOnOp s self source focus = .ok s2) : gExt s s2 := by
  unfold dependsOnOp at h
  split at h
  · cases h
  · split at h <;> (obtain rfl := Except.ok.inj h; simp [gExt, updS])

theorem gExt_addFocusOp (s : GState) (self : Nat) (e : FocusEntry) :
    gExt s (addFocusOp s self e) := by
  unfold addFocusOp
  split
  · split <;> simp [gExt, updS]
  · simp [gExt, updS]

theorem gExt_addShaderOp (s : GState) (self : Nat) (shader : String) :
    gExt s (addShaderOp s self shader) :=
  gExt_updS ..

theorem gExt_addUniformOp {s s2 : GState} {self : Nat} {name : String} {value : UVal}
    (h : addUniformOp s self name value = .ok s2) : gExt s s2 := by
  unfold addUniformOp at h
  split at h
  · split at h
    · cases h
    · obtain rfl := Except.ok.inj h
      simp [gExt, updS]
  · obtain rfl := Except.ok.inj h
    simp [gExt, updS]

theorem gExt_runOp {s s2 : GState} {self : Nat} {op : BuildOp}
    (h : runOp s self op = .ok s2) : gExt s s2 := by
  cases op with
  | blit src xo yo focus main => exact gExt_blitOp h
  | subpixelBlit src xo yo focus main => exact gExt_subpixelBlitOp h
  | absoluteBlit src xo yo focus main => exact gExt_absoluteBlitOp h
  | dependsOn src focus => exact gExt_dependsOnOp h
  | addFocus e => exact Except.ok.inj h ▸ gExt_addFocusOp ..
  | addUniform name value => exact gExt_addUniformOp h
  | addShader name => exact Except.ok.inj h ▸ gExt_addShaderOp ..
  | setForward m => exact Except.ok.inj h ▸ gExt_updS ..
  | setReverse m => exact Except.ok.inj h ▸ gExt_updS ..
  | setMesh b => exact Except.ok.inj h ▸ gExt_updS ..
  | setClipping xc yc => exact Except.ok.inj h ▸ gExt_updS ..

theorem gExt_runOps {ops : List BuildOp} : ∀ {s s2 : GState} {self : Nat},
    runOps s self ops = .ok s2 → gExt s s2 := by
  induction ops with
  | nil => intro s s2 self h; cases h; exact gExt_refl _
  | cons op ops ih =>
    intro s s2 self h
    unfold runOps at h
    split at h
    · exact gExt_trans (gExt_runOp (by assumption)) (ih h)
    · cases h

theorem runBuild_ok {s s2 : GState} {b : BuildSpec} {i : Nat}
    (h : runBuild s b = .ok (i, s2)) : i = s.nextId ∧ gExt s s2 := by
  simp only [runBuild, alloc] at h
  split at h
  · next s3 heq =>
    have hp := Except.ok.inj h
    obtain ⟨h1, h2⟩ : _ ∧ _ := by
      constructor
      · exact congrArg Prod.fst hp
      · exact congrArg Prod.snd hp
    subst h1
    subst h2
    refine ⟨rfl, gExt_trans ?_ (gExt_runOps heq)⟩
    exact ⟨rfl, rfl, rfl, rfl, rfl, rfl, Nat.le_succ _⟩
  · cases h

theorem ok_pair_inj {α β ε : Type} {a c : α} {b d : β}
    (h : (Except.ok (a, b) : Except ε (α × β)) = .ok (c, d)) : a = c ∧ b = d := by
  have h2 := Except.ok.inj h
  exact ⟨congrArg Prod.fst h2, congrArg Prod.snd h2⟩

theorem gExt_eitherBlit {b : Bool} {s s4 : GState} {rv : Nat} {ch : Child}
    {pos : ℚ × ℚ} {cf cm : Bool} {ix : Option Nat}
    (h : (if b then subpixelBlitOp s rv ch pos cf cm ix
          else blitOp s rv ch pos cf cm ix) = .ok s4) : gExt s s4 := by
  split at h
  · exact gExt_subpixelBlitOp h
  · exact gExt_blitOp h

theorem maskGo_gExt {sub : SubsurfaceFn} (hsub : SubPreserves sub) :
    ∀ s mask rect c s2, maskGo sub s mask rect = .ok (c, s2) → gExt s s2 := by
  intro s mask rect c s2 h
  cases mask with
  | node i =>
    simp only [maskGo] at h
    split at h
    · cases h
    · next heq =>
      obtain ⟨rfl, rfl⟩ := ok_pair_inj h
      exact (hsub _ _ _ _ _ _ _ _ heq).2
  | surface w hh =>
    simp only [maskGo] at h
    obtain ⟨rfl, rfl⟩ := ok_pair_inj h
    exact gExt_refl s
  | texture w hh =>
    simp only [maskGo] at h
    obtain ⟨rfl, rfl⟩ := ok_pair_inj h
    exact gExt_refl s

theorem childCrop_gExt {sub : SubsurfaceFn} (hsub : SubPreserves sub)
    {s : GState} {child : Child} {csp : Bool}
    {xo cx cw yo cy ch cbx cby w hh bw bh : ℚ} {focus : Bool}
    {c2 : Child} {s2 : GState}
    (h : childCrop sub s child csp xo cx cw yo cy ch cbx cby w hh bw bh focus = .ok (c2, s2)) :
    gExt s s2 := by
  cases child with
  | node cn =>
    simp only [childCrop] at h
    split at h
    · cases h
    · split at h
      · cases h
      · next hsubr =>
        obtain ⟨rfl, rfl⟩ := ok_pair_inj h
        exact gExt_trans (hsub _ _ _ _ _ _ _ _ hsubr).2 (gExt_updS ..)
  | surface sw sh =>
    simp only [childCrop] at h
    obtain ⟨rfl, rfl⟩ := ok_pair_inj h
    exact gExt_refl s
  | texture tw th =>
    simp only [childCrop] at h
    obtain ⟨rfl, rfl⟩ := ok_pair_inj h
    exact gExt_refl s

theorem childrenGo_gExt {sub : SubsurfaceFn} (hsub : SubPreserves sub) :
    ∀ (cs : List (Child × Off × Off × Bool × Bool)) s rv x y w hh bx by0 bw bh
      focus subpixel s2,
      childrenGo sub s rv cs x y w hh bx by0 bw bh focus subpixel = .ok s2 →
        gExt s s2 := by
  intro cs
  induction cs with
  | nil =>
    intro s rv x y w hh bx by0 bw bh focus subpixel s2 h
    unfold childrenGo at h
    obtain rfl := Except.ok.inj h
    exact gExt_refl s
  | cons c rest ih =>
    intro s rv x y w hh bx by0 bw bh focus subpixel s2 h
    obtain ⟨child, cxo, cyo, cfocus, cmain⟩ := c
    unfold childrenGo at h
    split at h
    · cases h
    · split at h
      next xo cx cw hcs1 =>
      split at h
      next yo cy ch hcs2 =>
      split at h
      · exact ih _ _ _ _ _ _ _ _ _ _ _ _ _ h
      · split at h
        · exact ih _ _ _ _ _ _ _ _ _ _ _ _ _ h
        · dsimp only at h
          split at h
          · cases h
          · next newchild s3 hnb =>
            split at h
            · cases h
            · next s4 hblit =>
              exact gExt_trans (childCrop_gExt hsub hnb)
                (gExt_trans (gExt_eitherBlit hblit)
                  (ih _ _ _ _ _ _ _ _ _ _ _ _ _ h))

theorem focusesGo_gExt {sub : SubsurfaceFn} (hsub : SubPreserves sub) :
    ∀ (fs : List FocusEntry) s rv x y w hh bx by0 bw bh s2,
      focusesGo sub s rv fs x y w hh bx by0 bw bh = .ok s2 → gExt s s2 := by
  intro fs
  induction fs with
  | nil =>
    intro s rv x y w hh bx by0 bw bh s2 h
    unfold focusesGo at h
    obtain rfl := Except.ok.inj h
    exact gExt_refl s
  | cons e rest ih =>
    intro s rv x y w hh bx by0 bw bh s2 h
    unfold focusesGo at h
    split at h
    · exact gExt_trans (gExt_addFocusOp ..) (ih _ _ _ _ _ _ _ _ _ _ _ h)
    · split at h
      next xo2 cx2 fw hcs1 =>
      split at h
      next yo2 cy2 fh hcs2 =>
      split at h
      · exact ih _ _ _ _ _ _ _ _ _ _ _ h
      · split at h
        · exact gExt_trans (gExt_addFocusOp ..) (ih _ _ _ _ _ _ _ _ _ _ _ h)
        · split at h
          · cases h
          · next mw mh hgs =>
            split at h
            next mx2 mcx mw2 hcm1 =>
            split at h
            next my2 mcy mh2 hcm2 =>
            split at h
            · exact gExt_trans (gExt_addFocusOp ..) (ih _ _ _ _ _ _ _ _ _ _ _ h)
            · split at h
              · cases h
              · next mask2 s3 hmask =>
                exact gExt_trans (maskGo_gExt hsub _ _ _ _ _ hmask)
                  (gExt_trans (gExt_addFocusOp ..) (ih _ _ _ _ _ _ _ _ _ _ _ h))

theorem subsurfaceStep_gExt {sub : SubsurfaceFn} (hsub : SubPreserves sub) :
    SubPreserves (subsurfaceStep sub) := by
  intro s self rect focus subpixel bounds j s2 h
  obtain ⟨x0, y0, w0, h0⟩ := rect
  unfold subsurfaceStep at h
  split at h
  · cases h
  · next selfN hfind =>
    simp only [alloc] at h
    split at h
    · -- flatten branch
      split at h
      · cases h
      · next sB hblit1 =>
        split at h
        · cases h
        · next sB2 hblit2 =>
          obtain ⟨rfl, rfl⟩ := ok_pair_inj h
          constructor
          · rfl
          · refine gExt_trans ?_ (gExt_eitherBlit hblit2)
            refine gExt_trans ?_ (gExt_updS ..)
            refine gExt_trans ?_ (gExt_blitOp hblit1)
            refine gExt_trans ?_ (gExt_addShaderOp ..)
            refine gExt_trans ?_ (gExt_updS ..)
            exact ⟨rfl, rfl, rfl, rfl, rfl, rfl, Nat.le_succ_of_le (Nat.le_succ _)⟩
    · -- no flatten
      split at h
      · -- nonaxis clip path
        split at h
        · cases h
        · next sB hblit =>
          obtain ⟨rfl, rfl⟩ := ok_pair_inj h
          constructor
          · rfl
          · refine gExt_trans ?_ (gExt_eitherBlit hblit)
            refine gExt_trans ?_ (gExt_updS ..)
            exact ⟨rfl, rfl, rfl, rfl, rfl, rfl, Nat.le_succ _⟩
      · -- main path
        split at h
        · cases h
        · next sC hch =>
          split at h
          · cases h
          · next sD hfo =>
            split at h
            · cases h
            · next sE hdep =>
              obtain ⟨rfl, rfl⟩ := ok_pair_inj h
              have hfo2 : gExt sC sD := by
                revert hfo
                split
                · split
                  · intro hfo
                    exact focusesGo_gExt hsub _ _ _ _ _ _ _ _ _ _ _ _ hfo
                  · intro hfo
                    obtain rfl := Except.ok.inj hfo
                    exact gExt_refl _
                · intro hfo
                  obtain rfl := Except.ok.inj hfo
                  exact gExt_refl _
              constructor
              · rfl
              · refine gExt_trans ?_ (gExt_updS ..)
                refine gExt_trans ?_ (gExt_dependsOnOp hdep)
                refine gExt_trans ?_ hfo2
                refine gExt_trans ?_ (childrenGo_gExt hsub _ _ _ _ _ _ _ _ _ _ _ _ _ _ hch)
                exact ⟨rfl, rfl, rfl, rfl, rfl, rfl, Nat.le_succ _⟩

/-- `subsurface` never touches the render cache, the callback log or the
global flags, and its result node is the one allocated on entry. -/
theorem subsurface_gExt : ∀ (fuel : Nat), SubPreserves (subsurfaceF fuel) := by
  intro fuel
  induction fuel with
  | zero =>
    intro s self rect focus subpixel bounds j s2 h
    simp [subsurfaceF] at h
  | succ f ihA =>
    exact subsurfaceStep_gExt ihA

/-! ### The miss path of `render` -/

theorem setDisp_append_empty {c : RCache} {d : Nat}
    (hnone : lookupDisp c d = none) (v : DCache) :
    setDisp (c ++ [(d, [])]) d v = setDisp c d v := by
  induction c with
  | nil => simp [setDisp]
  | cons p ps ih =>
    simp only [lookupDisp] at hnone
    rcases eq_or_ne p.1 d with hk | hk
    · simp [hk] at hnone
    · simp only [List.cons_append, setDisp, if_neg hk, List.cons.injEq, true_and]
      exact ih (by simpa [hk] using hnone)

theorem renderClip_ok {s : GState} {d : Displayable} {rv0 rvC : Nat} {sC : GState}
    (h : renderClip s d rv0 = .ok (rvC, sC)) :
    gExt s sC ∧ (rvC = rv0 ∨ rvC = s.nextId) := by
  unfold renderClip at h
  split at h
  · split at h
    · cases h
    · split at h
      · next heqS =>
        obtain ⟨rfl, rfl⟩ := ok_pair_inj h
        obtain ⟨hj, hE⟩ := subsurface_gExt _ _ _ _ _ _ _ _ _ heqS
        exact ⟨gExt_trans hE (gExt_updS ..), Or.inr hj⟩
      · cases h
  · obtain ⟨rfl, rfl⟩ := ok_pair_inj h
    exact ⟨gExt_refl s, Or.inl rfl⟩

theorem renderStore_spec (s : GState) (d_id : Nat) (wh orig_wh : CKey) (rv : Nat) :
    (renderStore s d_id wh orig_wh rv).render_cache
      = setDisp s.render_cache d_id
         (if wh ≠ orig_wh
          then setKey (setKey ((lookupDisp s.render_cache d_id).getD []) wh rv) orig_wh rv
          else setKey ((lookupDisp s.render_cache d_id).getD []) wh rv) ∧
    (renderStore s d_id wh orig_wh rv).callback_log = s.callback_log ∧
    (renderStore s d_id wh orig_wh rv).sizing = s.sizing ∧
    (renderStore s d_id wh orig_wh rv).frame_time = s.frame_time ∧
    (renderStore s d_id wh orig_wh rv).render_is_ready = s.render_is_ready ∧
    (renderStore s d_id wh orig_wh rv).developer = s.developer ∧
    (renderStore s d_id wh orig_wh rv).store = s.store ∧
    (renderStore s d_id wh orig_wh rv).nextId = s.nextId := by
  unfold renderStore dget
  split
  · next rs hfound =>
    refine ⟨?_, rfl, rfl, rfl, rfl, rfl, rfl, rfl⟩
    simp [hfound]
  · next hnone =>
    refine ⟨?_, rfl, rfl, rfl, rfl, rfl, rfl, rfl⟩
    simp only [hnone, Option.getD_none]
    exact setDisp_append_empty hnone _

/-- What a successful miss-path render does to the state, outside sizing
mode: one callback invocation is logged, the global flags are unchanged,
the returned node is fresh, and the displayable's cache dict gains the
result under `wh` and (when different) `orig_wh`. -/
theorem renderCore_ok {s : GState} {d : Displayable} {wh orig_wh : CKey}
    {width height st at_ : ℚ} {rv : Nat} {s2 : GState}
    (hsz : s.sizing = false)
    (h : renderCore s d wh orig_wh width height st at_ = .ok (rv, s2)) :
    s2.callback_log = s.callback_log ++ [(d.id, width, height, st, at_)] ∧
    s2.sizing = false ∧ s2.frame_time = s.frame_time ∧
    s2.render_is_ready = s.render_is_ready ∧ s2.developer = s.developer ∧
    s.nextId ≤ rv ∧
    s2.render_cache = setDisp s.render_cache d.id
      (if wh ≠ orig_wh
       then setKey (setKey ((lookupDisp s.render_cache d.id).getD []) wh rv) orig_wh rv
       else setKey ((lookupDisp s.render_cache d.id).getD []) wh rv) := by
  simp only [renderCore] at h
  split at h
  · cases h
  · split at h
    · cases h
    · next rv0 sB heqB =>
      obtain ⟨hB0, hBc, hBl, hBs, hBf, hBr, hBd, hBn⟩ :=
        And.intro (runBuild_ok heqB).1 (runBuild_ok heqB).2
      split at h
      · cases h
      · next rvC sC heqC =>
        obtain ⟨hCext, hCrv⟩ := renderClip_ok heqC
        obtain ⟨hCc, hCl, hCs, hCf, hCr, hCd, hCn⟩ := hCext
        have hupdc : ∀ (t : GState) (i : Nat) (g : RNode → RNode),
            (updS t i g).render_cache = t.render_cache ∧
            (updS t i g).callback_log = t.callback_log ∧
            (updS t i g).sizing = t.sizing ∧
            (updS t i g).frame_time = t.frame_time ∧
            (updS t i g).render_is_ready = t.render_is_ready ∧
            (updS t i g).developer = t.developer ∧
            (updS t i g).nextId = t.nextId := by
          intro t i g
          exact ⟨rfl, rfl, rfl, rfl, rfl, rfl, rfl⟩
        -- the updS between runBuild and renderClip
        have hrvfresh : s.nextId ≤ rvC := by
          rcases hCrv with rfl | rfl
          · subst hB0; simp [updS]
          · calc s.nextId ≤ sB.nextId := by simpa using hBn
              _ = _ := by simp [updS]
        split at h
        · next hcond =>
          exfalso
          rw [show (updS sC rvC (fun n => { n with debug := d.style_debug || n.debug })).sizing
              = s.sizing from by simp [updS, hCs, hBs], hsz] at hcond
          exact Bool.false_ne_true hcond
        · obtain ⟨rfl, rfl⟩ := ok_pair_inj h
          have hDc : (updS sC rvC (fun n => { n with debug := d.style_debug || n.debug })).render_cache
              = s.render_cache := by simp [updS, hCc, hBc]
          have hDl : (updS sC rvC (fun n => { n with debug := d.style_debug || n.debug })).callback_log
              = s.callback_log ++ [(d.id, width, height, st, at_)] := by
            simp [updS, hCl, hBl]
          obtain ⟨hS1, hS2, hS3, hS4, hS5, hS6, hS7, hS8⟩ :=
            renderStore_spec (updS sC rvC (fun n => { n with debug := d.style_debug || n.debug }))
              d.id wh orig_wh rvC
          refine ⟨?_, ?_, ?_, ?_, ?_, hrvfresh, ?_⟩
          · rw [hS2, hDl]
          · rw [hS3]; simp [updS, hCs, hBs, hsz]
          · rw [hS4]; simp [updS, hCf, hBf]
          · rw [hS5]; simp [updS, hCr, hBr]
          · rw [hS6]; simp [updS, hCd, hBd]
          · rw [hS1, hDc]

/-! ### C1: cache idempotence -/

/-- C1: outside sizing mode, starting from a state whose cache holds no
entries for the displayable `d` (so the first call is a genuine miss and
the claim's per-cache-lifetime accounting starts at zero), a successful
`render(d, W, H, S, A)` followed by the same call again returns the very
same node id and the very same state — the second call is a pure cache
hit — and the external render callback is logged exactly once across the
two calls. -/
theorem cache_idempotence (s : GState) (d : Displayable) (W H S A : ℚ)
    (n : Nat) (s1 : GState)
    (hsz : s.sizing = false)
    (hfresh : lookupDisp s.render_cache d.id = none)
    (h : render s d W H S A = .ok (n, s1)) :
    render s1 d W H S A = .ok (n, s1) ∧
    s1.callback_log.length = s.callback_log.length + 1 := by
  simp only [render, dget, hfresh, lookupKey] at h
  split at h
  · cases h
  · next hg =>
    have tail : ∀ (wh : CKey) (width height : ℚ),
        renderCore { s with render_cache := s.render_cache ++ [(d.id, [])] } d wh
          (W, H, s.frame_time - S, s.frame_time - A) width height S A = .ok (n, s1) →
        render s1 d W H S A = .ok (n, s1) ∧
        s1.callback_log.length = s.callback_log.length + 1 := by
      intro wh width height hcore
      have hszSD : ({ s with render_cache := s.render_cache ++ [(d.id, [])] } : GState).sizing = false := hsz
      obtain ⟨hlog, hsiz, hframe, hready, hdev, hfreshn, hcache⟩ := renderCore_ok hszSD hcore
      have hlookSD : lookupDisp ({ s with render_cache := s.render_cache ++ [(d.id, [])] } : GState).render_cache d.id = some [] := by
        show lookupDisp (s.render_cache ++ [(d.id, [])]) d.id = some []
        rw [lookupDisp_append, hfresh]
        simp [lookupDisp]
      rw [hlookSD] at hcache
      simp only [Option.getD_some] at hcache
      have hlook1 : lookupDisp s1.render_cache d.id =
          some (if wh ≠ (W, H, s.frame_time - S, s.frame_time - A)
            then setKey (setKey [] wh n) (W, H, s.frame_time - S, s.frame_time - A) n
            else setKey [] wh n) := by
        rw [hcache]
        show lookupDisp (setDisp _ d.id _) d.id = _
        rw [lookupDisp_setDisp, if_pos rfl]
      have hkey : lookupKey
          (if wh ≠ (W, H, s.frame_time - S, s.frame_time - A)
            then setKey (setKey [] wh n) (W, H, s.frame_time - S, s.frame_time - A) n
            else setKey [] wh n)
          (W, H, s.frame_time - S, s.frame_time - A) = some n := by
        by_cases hwo : wh = (W, H, s.frame_time - S, s.frame_time - A)
        · subst hwo
          simp [lookupKey_setKey]
        · rw [if_pos hwo, lookupKey_setKey]
          simp
      constructor
      · simp only [render, dget, hready, hdev, hframe, hlook1, hkey]
        rw [if_neg hg]
      · rw [hlog]
        simp
    split at h
    · exact tail _ _ _ h
    · exact tail _ _ _ h

theorem cache_idempotence_w :
    render exBase exD1 100 50 0 0 = .ok (exN1, exS1) ∧
    render exS1 exD1 100 50 0 0 = .ok (exN1, exS1) ∧
    exS1.callback_log.length = exBase.callback_log.length + 1 := by
  refine ⟨rfl, ?_⟩
  exact cache_idempotence exBase exD1 100 50 0 0 exN1 exS1 rfl rfl rfl

/-! ### C5: clamp consistency -/

/-- C5 (counterexample): `exD5` declares `xmaximum = 100`, yet a render
request at width 200 invokes the callback with width 50, not 100,
because `_offer_size` replaces the requested size before the maximum
clamp is applied. -/
theorem clamp_consistency_cex :
    exD5.xmaximum = some 100 ∧
    ((render exBase exD5 200 100 0 0).toOption.getD (0, exBase)).2.callback_log
      = [(exD5.id, 50, 50, 0, 0)] := ⟨rfl, rfl⟩

/-- C5 (amended): for a displayable with `xmaximum = 100`, **no**
`_offer_size`, no `ymaximum`, a nonnegative requested height, a cache
with no entries for it, and outside sizing mode, a successful render
request at width 200 invokes the callback exactly once with width 100,
stores the node under both the clamped key (width 100) and the
originally requested key (width 200), and a subsequent request at width
100 with the same height and times returns the same node with the state
unchanged — so the callback is not invoked again. -/
theorem clamp_consistency_amended (s : GState) (d : Displayable) (H S A : ℚ)
    (n : Nat) (s1 : GState)
    (hx : d.xmaximum = some 100)
    (hoffer : d.offer_size = none)
    (hy : d.ymaximum = none)
    (hH : 0 ≤ H)
    (hsz : s.sizing = false)
    (hfresh : lookupDisp s.render_cache d.id = none)
    (h : render s d 200 H S A = .ok (n, s1)) :
    s1.callback_log = s.callback_log ++ [(d.id, 100, H, S, A)] ∧
    cacheGet s1 d.id (100, H, s.frame_time - S, s.frame_time - A) = some n ∧
    cacheGet s1 d.id (200, H, s.frame_time - S, s.frame_time - A) = some n ∧
    render s1 d 100 H S A = .ok (n, s1) := by
  have hcl : clampSize d 200 H = (100, H) := by
    simp only [clampSize, hx, hoffer, hy, Option.getD_none, computeRaw]
    norm_num [not_lt.mpr hH]
  simp only [render, dget, hfresh, lookupKey, hcl] at h
  rw [if_pos (Or.inl (by norm_num : (200 : ℚ) ≠ 100))] at h
  split at h
  · cases h
  · next hg =>
    have hszSD : ({ s with render_cache := s.render_cache ++ [(d.id, [])] } : GState).sizing = false := hsz
    obtain ⟨hlog, hsiz, hframe, hready, hdev, hfreshn, hcache⟩ := renderCore_ok hszSD h
    have hlookSD : lookupDisp ({ s with render_cache := s.render_cache ++ [(d.id, [])] } : GState).render_cache d.id = some [] := by
      show lookupDisp (s.render_cache ++ [(d.id, [])]) d.id = some []
      rw [lookupDisp_append, hfresh]
      simp [lookupDisp]
    rw [hlookSD] at hcache
    simp only [Option.getD_some] at hcache
    have hne : ((100 : ℚ), H, s.frame_time - S, s.frame_time - A)
        ≠ ((200 : ℚ), H, s.frame_time - S, s.frame_time - A) := by
      intro hEq
      have : (100 : ℚ) = 200 := congrArg Prod.fst hEq
      norm_num at this
    rw [if_pos hne] at hcache
    have hlook1 : lookupDisp s1.render_cache d.id =
        some (setKey (setKey [] (100, H, s.frame_time - S, s.frame_time - A) n)
          (200, H, s.frame_time - S, s.frame_time - A) n) := by
      rw [hcache]
      show lookupDisp (setDisp _ d.id _) d.id = _
      rw [lookupDisp_setDisp, if_pos rfl]
    have hkey100 : lookupKey
        (setKey (setKey [] (100, H, s.frame_time - S, s.frame_time - A) n)
          (200, H, s.frame_time - S, s.frame_time - A) n)
        (100, H, s.frame_time - S, s.frame_time - A) = some n := by
      rw [lookupKey_setKey, if_neg hne, lookupKey_setKey, if_pos rfl]
    have hkey200 : lookupKey
        (setKey (setKey [] (100, H, s.frame_time - S, s.frame_time - A) n)
          (200, H, s.frame_time - S, s.frame_time - A) n)
        (200, H, s.frame_time - S, s.frame_time - A) = some n := by
      rw [lookupKey_setKey, if_pos rfl]
    refine ⟨by rw [hlog], ?_, ?_, ?_⟩
    · rw [cacheGet, hlook1]
      exact hkey100
    · rw [cacheGet, hlook1]
      exact hkey200
    · simp only [render, dget, hready, hdev, hframe, hlook1, hkey100]
      rw [if_neg hg]

theorem clamp_consistency_w :
    render exBase exD5b 200 40 0 0 = .ok (exN5, exS5) ∧
    exS5.callback_log = exBase.callback_log ++ [(exD5b.id, 100, 40, 0, 0)] ∧
    cacheGet exS5 exD5b.id (100, 40, 0, 0) = some exN5 ∧
    cacheGet exS5 exD5b.id (200, 40, 0, 0) = some exN5 ∧
    render exS5 exD5b 100 40 0 0 = .ok (exN5, exS5) := by
  refine ⟨rfl, ?_⟩
  have h := clamp_consistency_amended exBase exD5b 40 0 0 exN5 exS5 rfl rfl rfl
    (by norm_num) rfl rfl rfl
  simpa using h

/-! ### C8: sizing mode purity -/

/-- Inside sizing mode, a successful miss-path render logs one callback
invocation, leaves the render cache untouched, and returns a fresh node. -/
theorem renderCore_sizing {s : GState} {d : Displayable} {wh orig_wh : CKey}
    {width height st at_ : ℚ} {rv : Nat} {s2 : GState}
    (hsz : s.sizing = true)
    (h : renderCore s d wh orig_wh width height st at_ = .ok (rv, s2)) :
    s2.render_cache = s.render_cache ∧
    s2.callback_log = s.callback_log ++ [(d.id, width, height, st, at_)] ∧
    s.nextId ≤ rv := by
  simp only [renderCore] at h
  split at h
  · cases h
  · split at h
    · cases h
    · next rv0 sB heqB =>
      obtain ⟨hB0, hBext⟩ := runBuild_ok heqB
      obtain ⟨hBc, hBl, hBs, hBf, hBr, hBd, hBn⟩ := hBext
      split at h
      · cases h
      · next rvC sC heqC =>
        obtain ⟨hCext, hCrv⟩ := renderClip_ok heqC
        obtain ⟨hCc, hCl, hCs, hCf, hCr, hCd, hCn⟩ := hCext
        have hrvfresh : s.nextId ≤ rvC := by
          rcases hCrv with rfl | rfl
          · subst hB0; simp [updS]
          · calc s.nextId ≤ sB.nextId := by simpa using hBn
              _ = _ := by simp [updS]
        split at h
        · obtain ⟨rfl, rfl⟩ := ok_pair_inj h
          exact ⟨by simp [updS, hCc, hBc], by simp [updS, hCl, hBl], hrvfresh⟩
        · next hcond =>
          exfalso
          apply hcond
          rw [show (updS sC rvC (fun n => { n with debug := d.style_debug || n.debug })).sizing
              = s.sizing from by simp [updS, hCs, hBs]]
          exact hsz

theorem cacheGet_append_empty {s s2 : GState} {d0 : Nat}
    (hrc : s2.render_cache = s.render_cache ++ [(d0, [])]) (dd : Nat) (k : CKey) :
    cacheGet s2 dd k = cacheGet s dd k := by
  simp only [cacheGet, hrc, lookupDisp_append]
  cases hl : lookupDisp s.render_cache dd with
  | some rs => rfl
  | none =>
    cases hd : lookupDisp [(d0, [])] dd with
    | none => rfl
    | some rs =>
      have hrs : rs = [] := by
        simp only [lookupDisp] at hd
        split at hd
        · exact (Option.some.inj hd).symm
        · cases hd
      rw [hrs]
      rfl

/-- C8: `render_for_size` from a state whose cache holds no entries for
the displayable logs exactly one callback invocation, leaves the cache
pointwise unchanged (so no key maps to the newly produced node, given
every cached id predates `nextId`), while from any state that already
holds a matching entry it returns that cached node with the state
unchanged. -/
theorem sizing_mode_purity (s : GState) (d : Displayable) (W H S A : ℚ)
    (n : Nat) (s1 : GState)
    (hfresh : lookupDisp s.render_cache d.id = none)
    (hbnd : cacheBounded s)
    (h : render_for_size s d W H S A = .ok (n, s1)) :
    s1.callback_log.length = s.callback_log.length + 1 ∧
    (∀ dd k, cacheGet s1 dd k = cacheGet s dd k) ∧
    (∀ dd k, cacheGet s1 dd k ≠ some n) ∧
    (∀ s0 rv, cacheGet s0 d.id (W, H, s0.frame_time - S, s0.frame_time - A) = some rv →
      render_for_size s0 d W H S A = .ok (rv, s0)) := by
  have hit : ∀ s0 rv, cacheGet s0 d.id (W, H, s0.frame_time - S, s0.frame_time - A) = some rv →
      render_for_size s0 d W H S A = .ok (rv, s0) := by
    intro s0 rv hhit
    simp only [cacheGet] at hhit
    simp only [render_for_size, dget]
    split at hhit
    · cases hhit
    · next rs hl =>
      rw [hl, hhit]
  have main : s1.callback_log.length = s.callback_log.length + 1 ∧
      (∀ dd k, cacheGet s1 dd k = cacheGet s dd k) ∧
      (∀ dd k, cacheGet s1 dd k ≠ some n) := by
    simp only [render_for_size, dget, hfresh, lookupKey] at h
    split at h
    · next rv2 s2 heqR =>
      obtain ⟨rfl, rfl⟩ := ok_pair_inj h
      have hlookSD : lookupDisp (s.render_cache ++ [(d.id, [])]) d.id = some [] := by
        rw [lookupDisp_append, hfresh]
        simp [lookupDisp]
      simp only [render, dget, hlookSD, lookupKey] at heqR
      have tail : ∀ (wh owh : CKey) (width height : ℚ),
          renderCore { s with render_cache := s.render_cache ++ [(d.id, [])], sizing := true }
            d wh owh width height S A = .ok (rv2, s2) →
          ({ s2 with sizing := s.sizing } : GState).callback_log.length
            = s.callback_log.length + 1 ∧
          (∀ dd k, cacheGet { s2 with sizing := s.sizing } dd k = cacheGet s dd k) ∧
          (∀ dd k, cacheGet { s2 with sizing := s.sizing } dd k ≠ some rv2) := by
        intro wh owh width height hcore
        obtain ⟨hrc2, hlog2, hfresh2⟩ := renderCore_sizing rfl hcore
        have hrc3 : ({ s2 with sizing := s.sizing } : GState).render_cache
            = s.render_cache ++ [(d.id, [])] := hrc2
        have hcg : ∀ dd k, cacheGet { s2 with sizing := s.sizing } dd k = cacheGet s dd k :=
          cacheGet_append_empty hrc3
        refine ⟨?_, hcg, ?_⟩
        · show s2.callback_log.length = s.callback_log.length + 1
          rw [hlog2]
          simp
        · intro dd k hbad
          rw [hcg dd k] at hbad
          have hlt := hbnd dd k rv2 hbad
          have hge : s.nextId ≤ rv2 := hfresh2
          omega
      split at heqR
      · cases heqR
      · split at heqR
        · exact tail _ _ _ _ heqR
        · exact tail _ _ _ _ heqR
    · cases h
  exact ⟨main.1, main.2.1, main.2.2, hit⟩

theorem sizing_mode_purity_w :
    render_for_size exBase exD8 5 5 (-7) 0 = .ok (exN8, exS8) ∧
    exS8.callback_log.length = exBase.callback_log.length + 1 ∧
    cacheGet exS8 exD8.id (5, 5, 7, 0) = cacheGet exBase exD8.id (5, 5, 7, 0) ∧
    cacheGet exS8 exD8.id (5, 5, 7, 0) ≠ some exN8 ∧
    render_for_size exC6 exD8 5 5 (-7) 0 = .ok (3, exC6) := by
  obtain ⟨h1, h2, h3, h4⟩ := sizing_mode_purity exBase exD8 5 5 (-7) 0 exN8 exS8 rfl
    (by intro dd k i hh; simp [cacheGet, exBase, lookupDisp] at hh) rfl
  exact ⟨rfl, h1, h2 exD8.id (5, 5, 7, 0), h3 exD8.id (5, 5, 7, 0), h4 exC6 3 (by norm_num [cacheGet, exC6, exBase, exD8, lookupDisp, lookupKey])⟩

/-! ### C3: invalidation cascade -/

theorem lookupDisp_mem {c : RCache} {d : Nat} {rs : DCache}
    (h : lookupDisp c d = some rs) : (d, rs) ∈ c := by
  induction c with
  | nil => cases h
  | cons p ps ih =>
    simp only [lookupDisp] at h
    split at h
    · next hpd =>
      obtain ⟨a, b⟩ := p
      cases hpd
      obtain rfl := Option.some.inj h
      exact List.mem_cons_self _ _
    · exact List.mem_cons_of_mem _ (ih h)

theorem lookupKey_mem {rs : DCache} {k : CKey} {i : Nat}
    (h : lookupKey rs k = some i) : (k, i) ∈ rs := by
  induction rs with
  | nil => cases h
  | cons p ps ih =>
    simp only [lookupKey] at h
    split at h
    · next hpk =>
      obtain ⟨a, b⟩ := p
      cases hpk
      obtain rfl := Option.some.inj h
      exact List.mem_cons_self _ _
    · exact List.mem_cons_of_mem _ (ih h)

theorem lookupDisp_none_not_mem {c : RCache} {d : Nat} {rs : DCache}
    (h : lookupDisp c d = none) : (d, rs) ∉ c := by
  induction c with
  | nil => simp
  | cons p ps ih =>
    simp only [lookupDisp] at h
    split at h
    · cases h
    · next hpd =>
      intro hmem
      rcases List.mem_cons.mp hmem with heq | hmem2
      · apply hpd
        rw [← heq]
      · exact ih h hmem2

theorem setDisp_keys_of_lookup {c : RCache} {d : Nat} {rs0 : DCache}
    (h : lookupDisp c d = some rs0) (v : DCache) :
    (setDisp c d v).map Prod.fst = c.map Prod.fst := by
  induction c with
  | nil => cases h
  | cons p ps ih =>
    simp only [lookupDisp] at h
    simp only [setDisp]
    split at h
    · next hpd =>
      rw [if_pos hpd, List.map_cons, List.map_cons, hpd]
    · next hpd =>
      rw [if_neg hpd, List.map_cons, List.map_cons, ih h]

theorem setDisp_mem_nodup {c : RCache} {d d2 : Nat} {v v2 : DCache}
    (hnd : (c.map Prod.fst).Nodup)
    (h : (d2, v2) ∈ setDisp c d v) :
    (d2 = d ∧ v2 = v) ∨ (d2 ≠ d ∧ (d2, v2) ∈ c) := by
  induction c with
  | nil =>
    simp only [setDisp, List.mem_singleton] at h
    left
    exact ⟨congrArg Prod.fst h, congrArg Prod.snd h⟩
  | cons p ps ih =>
    simp only [List.map_cons, List.nodup_cons] at hnd
    simp only [setDisp] at h
    split at h
    · next hpd =>
      rcases List.mem_cons.mp h with heq | hmem
      · left
        exact ⟨congrArg Prod.fst heq, congrArg Prod.snd heq⟩
      · right
        refine ⟨?_, List.mem_cons_of_mem _ hmem⟩
        intro hd2
        apply hnd.1
        rw [hpd, ← hd2]
        exact List.mem_map_of_mem Prod.fst hmem
    · next hpd =>
      rcases List.mem_cons.mp h with heq | hmem
      · right
        refine ⟨?_, List.mem_cons.mpr (Or.inl heq)⟩
        intro hd2
        apply hpd
        rw [← heq]
        exact hd2
      · rcases ih hnd.2 hmem with hL | ⟨hne, hm⟩
        · exact Or.inl hL
        · exact Or.inr ⟨hne, List.mem_cons_of_mem _ hm⟩

theorem delDisp_keys_nodup {c : RCache} {d : Nat}
    (h : (c.map Prod.fst).Nodup) : ((delDisp c d).map Prod.fst).Nodup :=
  List.Nodup.sublist (List.Sublist.map _ (List.filter_sublist c)) h

theorem rmStep_none {c : RCache} {self ro : Nat}
    (hl : lookupDisp c ro = none) : rmStep self c ro = c := by
  unfold rmStep
  rw [hl]

theorem rmStep_del {c : RCache} {self ro : Nat} {rs0 : DCache}
    (hl : lookupDisp c ro = some rs0)
    (he : (rs0.filter (fun kv => kv.2 ≠ self)).isEmpty = true) :
    rmStep self c ro = delDisp c ro := by
  unfold rmStep
  rw [hl]
  exact if_pos he

theorem rmStep_set {c : RCache} {self ro : Nat} {rs0 : DCache}
    (hl : lookupDisp c ro = some rs0)
    (he : ¬ (rs0.filter (fun kv => kv.2 ≠ self)).isEmpty = true) :
    rmStep self c ro = setDisp c ro (rs0.filter (fun kv => kv.2 ≠ self)) := by
  unfold rmStep
  rw [hl]
  exact if_neg he

theorem removeFromCache_cons (c : RCache) (self ro : Nat) (rest : List Nat) :
    removeFromCache c self (ro :: rest) = removeFromCache (rmStep self c ro) self rest := rfl

theorem removeFromCache_nodup (ros : List Nat) : ∀ (c : RCache) (self : Nat),
    (c.map Prod.fst).Nodup → ((removeFromCache c self ros).map Prod.fst).Nodup := by
  induction ros with
  | nil => intro c self h; exact h
  | cons ro rest ih =>
    intro c self h
    rw [removeFromCache_cons]
    cases hl : lookupDisp c ro with
    | none =>
      rw [rmStep_none hl]
      exact ih c self h
    | some rs0 =>
      by_cases he : (rs0.filter (fun kv => kv.2 ≠ self)).isEmpty = true
      · rw [rmStep_del hl he]
        exact ih _ self (delDisp_keys_nodup h)
      · rw [rmStep_set hl he]
        apply ih
        rw [setDisp_keys_of_lookup hl]
        exact h

theorem removeFromCache_mem (ros : List Nat) : ∀ (c : RCache) (self : Nat)
    (de : Nat × DCache), (c.map Prod.fst).Nodup →
    de ∈ removeFromCache c self ros →
    ∃ rs, (de.1, rs) ∈ c ∧ (∀ kv ∈ de.2, kv ∈ rs) ∧
      (de.1 ∈ ros → ∀ kv ∈ de.2, kv.2 ≠ self) := by
  induction ros with
  | nil =>
    intro c self de _ h
    exact ⟨de.2, h, fun kv hkv => hkv, by simp⟩
  | cons ro rest ih =>
    intro c self de hnd h
    rw [removeFromCache_cons] at h
    cases hl : lookupDisp c ro with
    | none =>
      rw [rmStep_none hl] at h
      obtain ⟨rs, hmem, hsub, hros⟩ := ih c self de hnd h
      refine ⟨rs, hmem, hsub, ?_⟩
      intro hin kv hkv
      rcases List.mem_cons.mp hin with heq1 | hin2
      · exfalso
        rw [heq1] at hmem
        exact lookupDisp_none_not_mem hl hmem
      · exact hros hin2 kv hkv
    | some rs0 =>
      by_cases he : (rs0.filter (fun kv => kv.2 ≠ self)).isEmpty = true
      · rw [rmStep_del hl he] at h
        obtain ⟨rs, hmem, hsub, hros⟩ := ih _ self de (delDisp_keys_nodup hnd) h
        have hmemc : (de.1, rs) ∈ c ∧ de.1 ≠ ro := by
          have := List.mem_filter.mp hmem
          refine ⟨this.1, ?_⟩
          simpa using this.2
        refine ⟨rs, hmemc.1, hsub, ?_⟩
        intro hin kv hkv
        rcases List.mem_cons.mp hin with heq1 | hin2
        · exact absurd heq1 hmemc.2
        · exact hros hin2 kv hkv
      · rw [rmStep_set hl he] at h
        have hnd2 : ((setDisp c ro (rs0.filter (fun kv => kv.2 ≠ self))).map Prod.fst).Nodup := by
          rw [setDisp_keys_of_lookup hl]
          exact hnd
        obtain ⟨rs, hmem, hsub, hros⟩ := ih _ self de hnd2 h
        obtain ⟨a, b⟩ := de
        rcases setDisp_mem_nodup hnd hmem with ⟨hda, hrs⟩ | ⟨hda, hmemc⟩
        · refine ⟨rs0, ?_, ?_, ?_⟩
          · rw [show (a, b).1 = ro from hda]
            exact lookupDisp_mem hl
          · intro kv hkv
            have := List.mem_filter.mp (by rw [← hrs]; exact hsub kv hkv)
            exact this.1
          · intro _ kv hkv
            have := List.mem_filter.mp (by rw [← hrs]; exact hsub kv hkv)
            simpa using this.2
        · refine ⟨rs, hmemc, hsub, ?_⟩
          intro hin kv hkv
          rcases List.mem_cons.mp hin with heq1 | hin2
          · exact absurd heq1 hda
          · exact hros hin2 kv hkv

theorem StoreCK_refl (s : GState) : StoreCK s s := by
  refine ⟨fun i n h => Or.inl h, fun i h => h, ?_, fun h => h⟩
  intro _ de hde kv hkv
  obtain ⟨a, b⟩ := de
  exact ⟨b, hde, hkv⟩

theorem StoreCK_trans {a b c : GState} (h1 : StoreCK a b) (h2 : StoreCK b c) :
    StoreCK a c := by
  obtain ⟨h1a, h1b, h1c, h1d⟩ := h1
  obtain ⟨h2a, h2b, h2c, h2d⟩ := h2
  refine ⟨?_, fun i h => h2b i (h1b i h), ?_, fun h => h2d (h1d h)⟩
  · intro i n h
    rcases h1a i n h with hb | ⟨hck, hb⟩
    · rcases h2a i n hb with hc | ⟨hck2, hc⟩
      · exact Or.inl hc
      · exact Or.inr ⟨hck2, hc⟩
    · rcases h2a i { n with cache_killed := true } hb with hc | ⟨hck2, hc⟩
      · exact Or.inr ⟨hck, hc⟩
      · cases hck2
  · intro hnd de hde kv hkv
    obtain ⟨rs, hm, hkv2⟩ := h2c (h1d hnd) de hde kv hkv
    obtain ⟨rs2, hm2, hkv3⟩ := h1c hnd (de.1, rs) hm kv hkv2
    exact ⟨rs2, hm2, hkv3⟩

theorem StoreCK_flag {s : GState} {self : Nat} {n : RNode}
    (hf : findN s.store self = some n) (hck : n.cache_killed = false) :
    StoreCK s (updS s self (fun m => { m with cache_killed := true })) := by
  refine ⟨?_, ?_, ?_, fun h => h⟩
  · intro i m h
    rw [findN_updS]
    rcases eq_or_ne i self with rfl | hi
    · rw [if_pos rfl, h]
      rw [h] at hf
      obtain rfl := Option.some.inj hf
      exact Or.inr ⟨hck, rfl⟩
    · rw [if_neg hi]
      exact Or.inl h
  · intro i h
    rw [findN_updS]
    rcases eq_or_ne i self with rfl | hi
    · rw [h] at hf
      cases hf
    · rw [if_neg hi]
      exact h
  · intro _ de hde kv hkv
    obtain ⟨a, b⟩ := de
    exact ⟨b, hde, hkv⟩

theorem StoreCK_rm (s : GState) (self : Nat) (ros : List Nat) :
    StoreCK s { s with render_cache := removeFromCache s.render_cache self ros } := by
  refine ⟨fun i n h => Or.inl h, fun i h => h, ?_, ?_⟩
  · intro hnd de hde kv hkv
    obtain ⟨rs, hm, hsub, _⟩ := removeFromCache_mem ros s.render_cache self de hnd hde
    exact ⟨rs, hm, hsub kv hkv⟩
  · intro hnd
    exact removeFromCache_nodup ros s.render_cache self hnd

theorem StoreCK_list {k : GState → Nat → GState}
    (hk : ∀ s p, StoreCK s (k s p)) :
    ∀ (ps : List Nat) (s : GState), StoreCK s (killCacheList k s ps) := by
  intro ps
  induction ps with
  | nil => intro s; exact StoreCK_refl s
  | cons p rest ih =>
    intro s
    exact StoreCK_trans (hk s p) (ih (k s p))

theorem StoreCK_killCacheF : ∀ (f : Nat) (s : GState) (self : Nat),
    StoreCK s (killCacheF f s self) := by
  intro f
  induction f with
  | zero => intro s self; exact StoreCK_refl s
  | succ f ih =>
    intro s self
    show StoreCK s (killCacheStep (killCacheF f) s self)
    cases hfind : findN s.store self with
    | none =>
      simp only [killCacheStep, hfind]
      exact StoreCK_refl s
    | some n =>
      simp only [killCacheStep, hfind]
      by_cases hck : n.cache_killed = true
      · rw [if_pos hck]
        exact StoreCK_refl s
      · rw [if_neg hck]
        have hck2 : n.cache_killed = false := Bool.not_eq_true _ ▸ hck
        refine StoreCK_trans (StoreCK_trans (StoreCK_flag hfind hck2)
          (StoreCK_list ih n.parents _)) (StoreCK_rm _ self n.render_of)

theorem CacheWF_of_StoreCK {s s2 : GState} (hwf : CacheWF s)
    (hnd : (s.render_cache.map Prod.fst).Nodup) (hS : StoreCK s s2) :
    CacheWF s2 := by
  intro de hde kv hkv
  obtain ⟨rs, hm, hkv2⟩ := hS.2.2.1 hnd de hde kv hkv
  obtain ⟨n, hn, hro⟩ := hwf (de.1, rs) hm kv hkv2
  rcases hS.1 kv.2 n hn with h1 | ⟨_, h1⟩
  · exact ⟨n, h1, hro⟩
  · exact ⟨{ n with cache_killed := true }, h1, hro⟩

theorem findN_flagged_StoreCK {s s2 : GState} {i : Nat} {n : RNode}
    (hS : StoreCK s s2) (hf : findN s.store i = some n)
    (hckt : n.cache_killed = true) : findN s2.store i = some n := by
  rcases hS.1 i n hf with h | ⟨hck, _⟩
  · exact h
  · rw [hck] at hckt
    cases hckt

theorem killCacheList_append (k : GState → Nat → GState) (xs ys : List Nat) :
    ∀ s, killCacheList k s (xs ++ ys) = killCacheList k (killCacheList k s xs) ys := by
  induction xs with
  | nil => intro s; rfl
  | cons x rest ih => intro s; exact ih (k s x)

/-- A full `kill_cache` pass never leaves a cache entry pointing at a
`cache_killed` node, beyond those already doing so before the pass. -/
theorem killCacheF_clean : ∀ (f : Nat) (s : GState) (self : Nat) (E : List Nat),
    CacheWF s → (s.render_cache.map Prod.fst).Nodup → CleanExcept s E →
    CleanExcept (killCacheF f s self) E := by
  intro f
  induction f with
  | zero => intro s self E _ _ hcl; exact hcl
  | succ f ih =>
    intro s self E hwf hnd hcl
    show CleanExcept (killCacheStep (killCacheF f) s self) E
    cases hfind : findN s.store self with
    | none =>
      simp only [killCacheStep, hfind]
      exact hcl
    | some n =>
      simp only [killCacheStep, hfind]
      by_cases hck : n.cache_killed = true
      · rw [if_pos hck]
        exact hcl
      · rw [if_neg hck]
        have hck2 : n.cache_killed = false := Bool.not_eq_true _ ▸ hck
        have hS1 : StoreCK s (updS s self (fun m => { m with cache_killed := true })) :=
          StoreCK_flag hfind hck2
        have hwf1 : CacheWF (updS s self (fun m => { m with cache_killed := true })) :=
          CacheWF_of_StoreCK hwf hnd hS1
        have hnd1 : (((updS s self (fun m => { m with cache_killed := true })
            : GState)).render_cache.map Prod.fst).Nodup := hnd
        have hcl1 : CleanExcept (updS s self (fun m => { m with cache_killed := true }))
            (self :: E) := by
          intro de hde kv hkv m hm hckm
          rcases eq_or_ne kv.2 self with heq | hne
          · exact heq ▸ List.mem_cons_self _ _
          · rw [findN_updS, if_neg hne] at hm
            exact List.mem_cons_of_mem _ (hcl de hde kv hkv m hm hckm)
        have loop : ∀ (ps : List Nat) (t : GState),
            CacheWF t → (t.render_cache.map Prod.fst).Nodup → CleanExcept t (self :: E) →
            CleanExcept (killCacheList (killCacheF f) t ps) (self :: E) ∧
            CacheWF (killCacheList (killCacheF f) t ps) ∧
            ((killCacheList (killCacheF f) t ps).render_cache.map Prod.fst).Nodup := by
          intro ps
          induction ps with
          | nil => intro t h1 h2 h3; exact ⟨h3, h1, h2⟩
          | cons q rest ihp =>
            intro t h1 h2 h3
            have hS := StoreCK_killCacheF f t q
            exact ihp (killCacheF f t q) (CacheWF_of_StoreCK h1 h2 hS) (hS.2.2.2 h2)
              (ih t q (self :: E) h1 h2 h3)
        obtain ⟨hcl2, hwf2, hnd2⟩ := loop n.parents _ hwf1 hnd1 hcl1
        have hS12 : StoreCK (updS s self (fun m => { m with cache_killed := true }))
            (killCacheList (killCacheF f)
              (updS s self (fun m => { m with cache_killed := true })) n.parents) :=
          StoreCK_list (fun t q => StoreCK_killCacheF f t q) n.parents _
        have hfl2 : findN (killCacheList (killCacheF f)
            (updS s self (fun m => { m with cache_killed := true })) n.parents).store self
            = some { n with cache_killed := true } := by
          refine findN_flagged_StoreCK hS12 ?_ rfl
          rw [findN_updS, if_pos rfl, hfind]
          rfl
        intro de hde kv hkv m hm hckm
        obtain ⟨rs, hmem, hsub, hros⟩ := removeFromCache_mem n.render_of _ self de hnd2 hde
        have hmemE := hcl2 (de.1, rs) hmem kv (hsub kv hkv) m hm hckm
        rcases List.mem_cons.mp hmemE with heqself | hmemE2
        · exfalso
          obtain ⟨m2, hm2f, hro⟩ := hwf2 (de.1, rs) hmem kv (hsub kv hkv)
          rw [heqself, hfl2] at hm2f
          obtain rfl := Option.some.inj hm2f
          exact hros hro kv hkv heqself
        · exact hmemE2

/-- The target of a `kill_cache` call gets its `cache_killed` flag set,
and nothing else of it changes. -/
theorem killCacheF_flags (f : Nat) (s : GState) (self : Nat) (n : RNode)
    (hf : findN s.store self = some n) (hck : n.cache_killed = false) :
    findN (killCacheF (f + 1) s self).store self
      = some { n with cache_killed := true } := by
  show findN (killCacheStep (killCacheF f) s self).store self = _
  simp only [killCacheStep, hf]
  rw [if_neg (by simp [hck])]
  have hfl1 : findN (updS s self (fun m => { m with cache_killed := true })).store self
      = some { n with cache_killed := true } := by
    rw [findN_updS, if_pos rfl, hf]
    rfl
  have hres := findN_flagged_StoreCK
    (StoreCK_list (fun t q => StoreCK_killCacheF f t q) n.parents
      (updS s self (fun m => { m with cache_killed := true }))) hfl1 rfl
  exact hres

/-- A parent of the `kill_cache` target gets its `cache_killed` flag
set, and nothing else of it changes. -/
theorem killCacheF_flags_parent (f : Nat) (s : GState) (self p : Nat) (n np : RNode)
    (hf : findN s.store self = some n) (hck : n.cache_killed = false)
    (hfp : findN s.store p = some np) (hkp : np.cache_killed = false)
    (hmem : p ∈ n.parents) (hfuel : 1 ≤ f) :
    findN (killCacheF (f + 1) s self).store p
      = some { np with cache_killed := true } := by
  show findN (killCacheStep (killCacheF f) s self).store p = _
  simp only [killCacheStep, hf]
  rw [if_neg (by simp [hck])]
  obtain ⟨xs, ys, hsplit⟩ := List.append_of_mem hmem
  rw [hsplit, killCacheList_append]
  have hS1t : StoreCK (updS s self (fun m => { m with cache_killed := true }))
      (killCacheList (killCacheF f)
        (updS s self (fun m => { m with cache_killed := true })) xs) :=
    StoreCK_list (fun t q => StoreCK_killCacheF f t q) xs _
  have hfp1 : findN (updS s self (fun m => { m with cache_killed := true })).store p
        = some np ∨
      findN (updS s self (fun m => { m with cache_killed := true })).store p
        = some { np with cache_killed := true } := by
    rw [findN_updS]
    rcases eq_or_ne p self with rfl | hne
    · rw [if_pos rfl, hf]
      rw [hf] at hfp
      obtain rfl := Option.some.inj hfp
      exact Or.inr rfl
    · rw [if_neg hne]
      exact Or.inl hfp
  have hftp : findN (killCacheList (killCacheF f)
        (updS s self (fun m => { m with cache_killed := true })) xs).store p = some np ∨
      findN (killCacheList (killCacheF f)
        (updS s self (fun m => { m with cache_killed := true })) xs).store p
        = some { np with cache_killed := true } := by
    rcases hfp1 with h1 | h1
    · rcases hS1t.1 p np h1 with h2 | ⟨_, h2⟩
      · exact Or.inl h2
      · exact Or.inr h2
    · exact Or.inr (findN_flagged_StoreCK hS1t h1 rfl)
  obtain ⟨f0, rfl⟩ : ∃ f0, f = f0 + 1 := ⟨f - 1, (Nat.succ_pred_eq_of_pos hfuel).symm⟩
  have hkt : findN (killCacheF (f0 + 1) (killCacheList (killCacheF (f0 + 1))
        (updS s self (fun m => { m with cache_killed := true })) xs) p).store p
      = some { np with cache_killed := true } := by
    rcases hftp with h1 | h1
    · exact killCacheF_flags f0 _ p np h1 hkp
    · exact findN_flagged_StoreCK (StoreCK_killCacheF (f0 + 1) _ p) h1 rfl
  have hres := findN_flagged_StoreCK
    (StoreCK_list (fun u q => StoreCK_killCacheF (f0 + 1) u q) ys
      (killCacheF (f0 + 1) (killCacheList (killCacheF (f0 + 1))
        (updS s self (fun m => { m with cache_killed := true })) xs) p)) hkt rfl
  exact hres

theorem cacheWFb_spec {s : GState} (hb : cacheWFb s = true) : CacheWF s := by
  intro de hde kv hkv
  simp only [cacheWFb, List.all_eq_true] at hb
  have h2 := hb de hde kv hkv
  cases hf : findN s.store kv.2 with
  | none =>
    rw [hf] at h2
    cases h2
  | some n =>
    rw [hf] at h2
    exact ⟨n, rfl, of_decide_eq_true h2⟩

theorem cacheCleanb_spec {s : GState} (hb : cacheCleanb s = true) :
    CleanExcept s [] := by
  intro de hde kv hkv n hf hck
  simp only [cacheCleanb, List.all_eq_true] at hb
  have h2 := hb de hde kv hkv
  rw [hf] at h2
  simp [hck] at h2

/-- C3: for cached nodes `P` and `C` with `P ∈ C.parents`, in a
well-formed state (cache entries point into the store at nodes recording
their displayable, no entry maps to an already-`cache_killed` node, and
cache keys are distinct), `kill_cache C` leaves no cache key mapping to
either `C` or `P` — `P` is no longer retrievable under any key — while
the only field of either node that changes is the `cache_killed` flag:
children, depends_on, render_of and focuses survive until garbage
collection. -/
theorem invalidation_cascade (s : GState) (c p : Nat) (nc np : RNode)
    (hwf : cacheWFb s = true)
    (hclean : cacheCleanb s = true)
    (hnd : (s.render_cache.map Prod.fst).Nodup)
    (hfc : findN s.store c = some nc)
    (hfp : findN s.store p = some np)
    (hpar : p ∈ nc.parents)
    (hkc : nc.cache_killed = false)
    (hkp : np.cache_killed = false) :
    (∀ dd k, cacheGet (kill_cache s c) dd k ≠ some c) ∧
    (∀ dd k, cacheGet (kill_cache s c) dd k ≠ some p) ∧
    findN (kill_cache s c).store c = some { nc with cache_killed := true } ∧
    findN (kill_cache s c).store p = some { np with cache_killed := true } := by
  have hlen : 1 ≤ s.store.length := by
    cases hst : s.store with
    | nil =>
      rw [hst] at hfc
      cases hfc
    | cons a l => simp
  have hflagC : findN (kill_cache s c).store c = some { nc with cache_killed := true } :=
    killCacheF_flags s.store.length s c nc hfc hkc
  have hflagP : findN (kill_cache s c).store p = some { np with cache_killed := true } :=
    killCacheF_flags_parent s.store.length s c p nc np hfc hkc hfp hkp hpar hlen
  have hcleanOut : CleanExcept (kill_cache s c) [] :=
    killCacheF_clean (s.store.length + 1) s c []
      (cacheWFb_spec hwf) hnd (cacheCleanb_spec hclean)
  refine ⟨?_, ?_, hflagC, hflagP⟩
  · intro dd k hbad
    simp only [cacheGet] at hbad
    cases hl : lookupDisp (kill_cache s c).render_cache dd with
    | none =>
      rw [hl] at hbad
      cases hbad
    | some rs =>
      rw [hl] at hbad
      have hment : (dd, rs) ∈ (kill_cache s c).render_cache := lookupDisp_mem hl
      have hkvm : (k, c) ∈ rs := lookupKey_mem hbad
      have hmem0 := hcleanOut (dd, rs) hment (k, c) hkvm
        { nc with cache_killed := true } hflagC rfl
      cases hmem0
  · intro dd k hbad
    simp only [cacheGet] at hbad
    cases hl : lookupDisp (kill_cache s c).render_cache dd with
    | none =>
      rw [hl] at hbad
      cases hbad
    | some rs =>
      rw [hl] at hbad
      have hment : (dd, rs) ∈ (kill_cache s c).render_cache := lookupDisp_mem hl
      have hkvm : (k, p) ∈ rs := lookupKey_mem hbad
      have hmem0 := hcleanOut (dd, rs) hment (k, p) hkvm
        { np with cache_killed := true } hflagP rfl
      cases hmem0

theorem invalidation_cascade_w :
    cacheGet (kill_cache exS3 0) 10 (1, 1, 0, 0) ≠ some 0 ∧
    cacheGet (kill_cache exS3 0) 11 (2, 2, 0, 0) ≠ some 1 ∧
    findN (kill_cache exS3 0).store 0 = some { exN3c with cache_killed := true } ∧
    findN (kill_cache exS3 0).store 1 = some { exN3p with cache_killed := true } := by
  obtain ⟨h1, h2, h3, h4⟩ := invalidation_cascade exS3 0 1 exN3c exN3p
    (by decide) (by decide) (by decide) rfl rfl (by decide) rfl rfl
  exact ⟨h1 10 (1, 1, 0, 0), h2 11 (2, 2, 0, 0), h3, h4⟩

/-! ### C10: termination and idempotence of the kill operations -/

theorem findN_some_mem {l : Store} {i : Nat} {n : RNode}
    (h : findN l i = some n) : (i, n) ∈ l := by
  induction l with
  | nil => cases h
  | cons p ps ih =>
    simp only [findN] at h
    split at h
    · next hpi =>
      obtain ⟨a, b⟩ := p
      cases hpi
      obtain rfl := Option.some.inj h
      exact List.mem_cons_self _ _
    · exact List.mem_cons_of_mem _ (ih h)

theorem updN_filter_length_le (l : Store) (i : Nat) (g : RNode → RNode)
    (pred : Nat × RNode → Bool)
    (hg : ∀ a n, pred (a, g n) = true → pred (a, n) = true) :
    ((updN l i g).filter pred).length ≤ (l.filter pred).length := by
  induction l with
  | nil => simp [updN]
  | cons p ps ih =>
    simp only [updN, List.map_cons] at ih ⊢
    by_cases hpi : p.1 = i
    · rw [if_pos hpi, List.filter_cons, List.filter_cons]
      by_cases hh : pred (p.1, g p.2) = true
      · have hh2 : pred p = true := hg p.1 p.2 hh
        rw [if_pos hh, if_pos hh2]
        simpa using ih
      · rw [if_neg hh]
        by_cases hh2 : pred p = true
        · rw [if_pos hh2]
          exact Nat.le_succ_of_le ih
        · rw [if_neg hh2]
          exact ih
    · rw [if_neg hpi, List.filter_cons, List.filter_cons]
      by_cases hh2 : pred p = true
      · rw [if_pos hh2, if_pos hh2]
        simpa using ih
      · rw [if_neg hh2, if_neg hh2]
        exact ih

theorem updN_filter_length_lt (l : Store) (i : Nat) (g : RNode → RNode)
    (pred : Nat × RNode → Bool)
    (hg : ∀ a n, pred (a, g n) = true → pred (a, n) = true)
    (n : RNode) (hf : findN l i = some n)
    (htrue : pred (i, n) = true) (hfalse : pred (i, g n) = false) :
    ((updN l i g).filter pred).length < (l.filter pred).length := by
  induction l with
  | nil => cases hf
  | cons p ps ih =>
    obtain ⟨a, b⟩ := p
    simp only [findN] at hf
    simp only [updN, List.map_cons] at ih ⊢
    by_cases hpi : a = i
    · cases hpi
      rw [if_pos rfl] at hf
      obtain rfl := Option.some.inj hf
      rw [if_pos rfl, List.filter_cons, List.filter_cons,
        if_neg (by rw [hfalse]; exact Bool.false_ne_true), if_pos htrue]
      have hle := updN_filter_length_le ps i g pred hg
      simp only [updN] at hle
      simp only [List.length_cons]
      omega
    · rw [if_neg (by simpa using hpi)] at hf
      rw [if_neg hpi, List.filter_cons, List.filter_cons]
      have hlt := ih hf
      by_cases hh2 : pred (a, b) = true
      · rw [if_pos hh2, if_pos hh2]
        simpa using hlt
      · rw [if_neg hh2, if_neg hh2]
        exact hlt

theorem updN_filter_length_eq (l : Store) (i : Nat) (g : RNode → RNode)
    (pred : Nat × RNode → Bool)
    (hg : ∀ a n, pred (a, g n) = pred (a, n)) :
    ((updN l i g).filter pred).length = (l.filter pred).length := by
  induction l with
  | nil => simp [updN]
  | cons p ps ih =>
    simp only [updN, List.map_cons] at ih ⊢
    by_cases hpi : p.1 = i
    · rw [if_pos hpi, List.filter_cons, List.filter_cons]
      have hh : pred (p.1, g p.2) = pred p := hg p.1 p.2
      rw [hh]
      by_cases hh2 : pred p = true
      · rw [if_pos hh2, if_pos hh2]
        simpa using ih
      · rw [if_neg hh2, if_neg hh2]
        exact ih
    · rw [if_neg hpi, List.filter_cons, List.filter_cons]
      by_cases hh2 : pred p = true
      · rw [if_pos hh2, if_pos hh2]
        simpa using ih
      · rw [if_neg hh2, if_neg hh2]
        exact ih

theorem cntCK_flag_le (s : GState) (self : Nat) :
    cntCK (updS s self (fun m => { m with cache_killed := true })) ≤ cntCK s := by
  show ((updN s.store self (fun m => { m with cache_killed := true })).filter
      (fun q => !q.2.cache_killed)).length
    ≤ (s.store.filter (fun q => !q.2.cache_killed)).length
  exact updN_filter_length_le _ _ _ _ (fun a n h => by simp at h)

theorem cntCK_flag_lt {s : GState} {self : Nat} {n : RNode}
    (hf : findN s.store self = some n) (hck : n.cache_killed = false) :
    cntCK (updS s self (fun m => { m with cache_killed := true })) < cntCK s := by
  show ((updN s.store self (fun m => { m with cache_killed := true })).filter
      (fun q => !q.2.cache_killed)).length
    < (s.store.filter (fun q => !q.2.cache_killed)).length
  exact updN_filter_length_lt _ _ _ _ (fun a m h => by simp at h)
    n hf (by simp [hck]) rfl

theorem cntCK_pos_of_unflagged {s : GState} {i : Nat} {n : RNode}
    (hf : findN s.store i = some n) (hck : n.cache_killed = false) : 1 ≤ cntCK s := by
  have hmem : (i, n) ∈ s.store := findN_some_mem hf
  have h2 : (i, n) ∈ s.store.filter (fun q => !q.2.cache_killed) :=
    List.mem_filter.mpr ⟨hmem, by simp [hck]⟩
  exact List.length_pos_of_mem h2

theorem cntCK_killCacheF_le : ∀ (f : Nat) (s : GState) (self : Nat),
    cntCK (killCacheF f s self) ≤ cntCK s := by
  intro f
  induction f with
  | zero => intro s self; exact le_refl _
  | succ f ih =>
    intro s self
    show cntCK (killCacheStep (killCacheF f) s self) ≤ cntCK s
    cases hf : findN s.store self with
    | none =>
      simp only [killCacheStep, hf]
      exact le_refl _
    | some n =>
      simp only [killCacheStep, hf]
      by_cases hck : n.cache_killed = true
      · rw [if_pos hck]
      · rw [if_neg hck]
        have hloop : ∀ (ps : List Nat) (t : GState),
            cntCK (killCacheList (killCacheF f) t ps) ≤ cntCK t := by
          intro ps
          induction ps with
          | nil => intro t; exact le_refl _
          | cons q rest ihq =>
            intro t
            exact le_trans (ihq (killCacheF f t q)) (ih t q)
        have hfin : cntCK (killCacheList (killCacheF f)
            (updS s self (fun m => { m with cache_killed := true })) n.parents) ≤ cntCK s :=
          le_trans (hloop n.parents _) (cntCK_flag_le s self)
        exact hfin

/-- The `kill_cache` recursion is insensitive to its fuel once the fuel
covers the number of still-unflagged nodes: on any graph, cyclic parent
sets included, the recursion terminates within that bound. -/
theorem killCacheF_fuel_irrel : ∀ (f1 f2 : Nat) (s : GState) (self : Nat),
    cntCK s ≤ f1 → cntCK s ≤ f2 →
    killCacheF (f1 + 1) s self = killCacheF (f2 + 1) s self := by
  intro f1
  induction f1 with
  | zero =>
    intro f2 s self h1 _
    show killCacheStep (killCacheF 0) s self = killCacheStep (killCacheF f2) s self
    cases hf : findN s.store self with
    | none => simp only [killCacheStep, hf]
    | some n =>
      simp only [killCacheStep, hf]
      have hck : n.cache_killed = true := by
        by_contra hco
        have hpos := cntCK_pos_of_unflagged hf (Bool.not_eq_true _ ▸ hco)
        omega
      rw [if_pos hck, if_pos hck]
  | succ f1 ih =>
    intro f2 s self h1 h2
    show killCacheStep (killCacheF (f1 + 1)) s self
      = killCacheStep (killCacheF f2) s self
    cases hf : findN s.store self with
    | none => simp only [killCacheStep, hf]
    | some n =>
      simp only [killCacheStep, hf]
      by_cases hck : n.cache_killed = true
      · rw [if_pos hck, if_pos hck]
      · rw [if_neg hck, if_neg hck]
        have hck2 : n.cache_killed = false := Bool.not_eq_true _ ▸ hck
        have hpos := cntCK_pos_of_unflagged hf hck2
        obtain ⟨f2p, rfl⟩ : ∃ k, f2 = k + 1 :=
          ⟨f2 - 1, (Nat.succ_pred_eq_of_pos (by omega)).symm⟩
        have hlt := cntCK_flag_lt hf hck2
        have hc1 : cntCK (updS s self (fun m => { m with cache_killed := true })) ≤ f1 := by
          omega
        have hc2 : cntCK (updS s self (fun m => { m with cache_killed := true })) ≤ f2p := by
          omega
        have hloop : ∀ (ps : List Nat) (t : GState),
            cntCK t ≤ f1 → cntCK t ≤ f2p →
            killCacheList (killCacheF (f1 + 1)) t ps
              = killCacheList (killCacheF (f2p + 1)) t ps := by
          intro ps
          induction ps with
          | nil => intro t _ _; rfl
          | cons q rest ihq =>
            intro t ht1 ht2
            show killCacheList (killCacheF (f1 + 1)) (killCacheF (f1 + 1) t q) rest
              = killCacheList (killCacheF (f2p + 1)) (killCacheF (f2p + 1) t q) rest
            rw [ih f2p t q ht1 ht2]
            exact ihq (killCacheF (f2p + 1) t q)
              (le_trans (cntCK_killCacheF_le (f2p + 1) t q) ht1)
              (le_trans (cntCK_killCacheF_le (f2p + 1) t q) ht2)
        rw [hloop n.parents _ hc1 hc2]

theorem cntK_rc (s : GState) (c : RCache) : cntK { s with render_cache := c } = cntK s := rfl

theorem cntK_updS_eq (s : GState) (i : Nat) (g : RNode → RNode)
    (hg : ∀ m, (g m).killed = m.killed) :
    cntK (updS s i g) = cntK s := by
  show ((updN s.store i g).filter (fun q => !q.2.killed)).length
    = (s.store.filter (fun q => !q.2.killed)).length
  exact updN_filter_length_eq _ _ _ _ (fun a m => by simp [hg m])

theorem cntK_foldl_erase_eq (self : Nat) (L : List Nat) : ∀ (t : GState),
    cntK (L.foldl
      (fun t i => updS t i (fun m => { m with parents := m.parents.erase self })) t)
    = cntK t := by
  induction L with
  | nil => intro t; rfl
  | cons j rest ih =>
    intro t
    rw [List.foldl_cons, ih]
    exact cntK_updS_eq t j _ (fun m => rfl)

theorem cntK_killFinish (s2 : GState) (self : Nat) (n : RNode) :
    cntK (killFinish s2 self n) = cntK s2 := by
  simp only [killFinish]
  rw [cntK_updS_eq _ _
    (fun m =>
      { m with
          focuses := none, pass_focuses := none, cached_texture := none,
          cached_model := none })
    (fun m => rfl)]
  by_cases he : n.depends_on_list.isEmpty = true
  · rw [if_pos he, cntK_rc, cntK_foldl_erase_eq,
      cntK_updS_eq _ _ (fun m => { m with parents := [] }) (fun m => rfl)]
  · rw [if_neg he,
      cntK_updS_eq _ _
        (fun m =>
          { m with
              depends_on_list := [], render_of := [], children := [] })
        (fun m => rfl),
      cntK_rc, cntK_foldl_erase_eq,
      cntK_updS_eq _ _ (fun m => { m with parents := [] }) (fun m => rfl)]

theorem cntK_flag_le (s : GState) (self : Nat) :
    cntK (updS s self (fun m => { m with killed := true })) ≤ cntK s := by
  show ((updN s.store self (fun m => { m with killed := true })).filter
      (fun q => !q.2.killed)).length
    ≤ (s.store.filter (fun q => !q.2.killed)).length
  exact updN_filter_length_le _ _ _ _ (fun a n h => by simp at h)

theorem cntK_flag_lt {s : GState} {self : Nat} {n : RNode}
    (hf : findN s.store self = some n) (hk : n.killed = false) :
    cntK (updS s self (fun m => { m with killed := true })) < cntK s := by
  show ((updN s.store self (fun m => { m with killed := true })).filter
      (fun q => !q.2.killed)).length
    < (s.store.filter (fun q => !q.2.killed)).length
  exact updN_filter_length_lt _ _ _ _ (fun a m h => by simp at h)
    n hf (by simp [hk]) rfl

theorem cntK_pos_of_unflagged {s : GState} {i : Nat} {n : RNode}
    (hf : findN s.store i = some n) (hk : n.killed = false) : 1 ≤ cntK s := by
  have hmem : (i, n) ∈ s.store := findN_some_mem hf
  have h2 : (i, n) ∈ s.store.filter (fun q => !q.2.killed) :=
    List.mem_filter.mpr ⟨hmem, by simp [hk]⟩
  exact List.length_pos_of_mem h2

theorem cntK_killF_le : ∀ (f : Nat) (s : GState) (self : Nat),
    cntK (killF f s self) ≤ cntK s := by
  intro f
  induction f with
  | zero => intro s self; exact le_refl _
  | succ f ih =>
    intro s self
    show cntK (killStep (killF f) s self) ≤ cntK s
    cases hf : findN s.store self with
    | none =>
      simp only [killStep, hf]
      exact le_refl _
    | some n =>
      simp only [killStep, hf]
      by_cases hk : n.killed = true
      · rw [if_pos hk]
      · rw [if_neg hk]
        have hloop : ∀ (ps : List Nat) (t : GState),
            cntK (killList (killF f) t ps) ≤ cntK t := by
          intro ps
          induction ps with
          | nil => intro t; exact le_refl _
          | cons q rest ihq =>
            intro t
            exact le_trans (ihq (killF f t q)) (ih t q)
        rw [cntK_killFinish]
        exact le_trans (hloop n.parents _) (cntK_flag_le s self)

/-- The `kill` recursion is insensitive to its fuel once the fuel covers
the number of still-unkilled nodes: on any graph, cyclic parent sets
included, the recursion terminates within that bound. -/
theorem killF_fuel_irrel : ∀ (f1 f2 : Nat) (s : GState) (self : Nat),
    cntK s ≤ f1 → cntK s ≤ f2 →
    killF (f1 + 1) s self = killF (f2 + 1) s self := by
  intro f1
  induction f1 with
  | zero =>
    intro f2 s self h1 _
    show killStep (killF 0) s self = killStep (killF f2) s self
    cases hf : findN s.store self with
    | none => simp only [killStep, hf]
    | some n =>
      simp only [killStep, hf]
      have hk : n.killed = true := by
        by_contra hco
        have hpos := cntK_pos_of_unflagged hf (Bool.not_eq_true _ ▸ hco)
        omega
      rw [if_pos hk, if_pos hk]
  | succ f1 ih =>
    intro f2 s self h1 h2
    show killStep (killF (f1 + 1)) s self = killStep (killF f2) s self
    cases hf : findN s.store self with
    | none => simp only [killStep, hf]
    | some n =>
      simp only [killStep, hf]
      by_cases hk : n.killed = true
      · rw [if_pos hk, if_pos hk]
      · rw [if_neg hk, if_neg hk]
        have hk2 : n.killed = false := Bool.not_eq_true _ ▸ hk
        have hpos := cntK_pos_of_unflagged hf hk2
        obtain ⟨f2p, rfl⟩ : ∃ k, f2 = k + 1 :=
          ⟨f2 - 1, (Nat.succ_pred_eq_of_pos (by omega)).symm⟩
        have hlt := cntK_flag_lt hf hk2
        have hc1 : cntK (updS s self (fun m => { m with killed := true })) ≤ f1 := by
          omega
        have hc2 : cntK (updS s self (fun m => { m with killed := true })) ≤ f2p := by
          omega
        have hloop : ∀ (ps : List Nat) (t : GState),
            cntK t ≤ f1 → cntK t ≤ f2p →
            killList (killF (f1 + 1)) t ps = killList (killF (f2p + 1)) t ps := by
          intro ps
          induction ps with
          | nil => intro t _ _; rfl
          | cons q rest ihq =>
            intro t ht1 ht2
            show killList (killF (f1 + 1)) (killF (f1 + 1) t q) rest
              = killList (killF (f2p + 1)) (killF (f2p + 1) t q) rest
            rw [ih f2p t q ht1 ht2]
            exact ihq (killF (f2p + 1) t q)
              (le_trans (cntK_killF_le (f2p + 1) t q) ht1)
              (le_trans (cntK_killF_le (f2p + 1) t q) ht2)
        rw [hloop n.parents _ hc1 hc2]

theorem updS_killed_mono {g : RNode → RNode}
    {s : GState} {j i : Nat} {n : RNode}
    (hf : findN s.store i = some n) (hk : n.killed = true)
    (hg : ∀ m, (g m).killed = m.killed ∨ (g m).killed = true) :
    ∃ n2, findN (updS s j g).store i = some n2 ∧ n2.killed = true := by
  rw [findN_updS]
  rcases eq_or_ne i j with rfl | hne
  · rw [if_pos rfl, hf]
    refine ⟨g n, rfl, ?_⟩
    rcases hg n with h | h
    · rw [h]
      exact hk
    · exact h
  · rw [if_neg hne]
    exact ⟨n, hf, hk⟩

theorem findN_updS_none {s : GState} {j : Nat} {g : RNode → RNode} {i : Nat}
    (h : findN s.store i = none) : findN (updS s j g).store i = none := by
  rw [findN_updS]
  rcases eq_or_ne i j with rfl | hne
  · rw [if_pos rfl, h]
    rfl
  · rw [if_neg hne]
    exact h

theorem foldl_updS_killed_mono {g : RNode → RNode}
    (L : List Nat)
    (hg : ∀ m, (g m).killed = m.killed ∨ (g m).killed = true) :
    ∀ (t : GState) {i : Nat} {n : RNode},
    findN t.store i = some n → n.killed = true →
    ∃ n2, findN (L.foldl (fun t j => updS t j g) t).store i = some n2 ∧
      n2.killed = true := by
  induction L with
  | nil => intro t i n h1 h2; exact ⟨n, h1, h2⟩
  | cons j rest ih =>
    intro t i n h1 h2
    rw [List.foldl_cons]
    obtain ⟨n2, h3, h4⟩ := updS_killed_mono h1 h2 hg
    exact ih _ h3 h4

theorem foldl_updS_none {g : RNode → RNode} (L : List Nat) :
    ∀ (t : GState) {i : Nat}, findN t.store i = none →
    findN (L.foldl (fun t j => updS t j g) t).store i = none := by
  induction L with
  | nil => intro t i h; exact h
  | cons j rest ih =>
    intro t i h
    rw [List.foldl_cons]
    exact ih _ (findN_updS_none h)

theorem killFinish_killed_mono {s2 : GState} {self : Nat} {n : RNode}
    {i : Nat} {m : RNode}
    (hf : findN s2.store i = some m) (hk : m.killed = true) :
    ∃ m2, findN (killFinish s2 self n).store i = some m2 ∧ m2.killed = true := by
  simp only [killFinish]
  obtain ⟨m3, hf3, hk3⟩ := updS_killed_mono (j := self)
    (g := fun m => { m with parents := [] }) hf hk (fun m => Or.inl rfl)
  obtain ⟨m4, hf4, hk4⟩ := foldl_updS_killed_mono
    (g := fun m => { m with parents := m.parents.erase self })
    n.depends_on_list (fun m => Or.inl rfl) _ hf3 hk3
  by_cases he : n.depends_on_list.isEmpty = true
  · rw [if_pos he]
    exact updS_killed_mono hf4 hk4 (fun m => Or.inl rfl)
  · rw [if_neg he]
    obtain ⟨m5, hf5, hk5⟩ := updS_killed_mono (j := self)
      (g := fun m => { m with depends_on_list := [], render_of := [], children := [] })
      hf4 hk4 (fun m => Or.inl rfl)
    exact updS_killed_mono hf5 hk5 (fun m => Or.inl rfl)

theorem killFinish_none {s2 : GState} {self : Nat} {n : RNode} {i : Nat}
    (h : findN s2.store i = none) :
    findN (killFinish s2 self n).store i = none := by
  simp only [killFinish]
  have h3 := findN_updS_none (j := self)
    (g := fun m => { m with parents := [] }) h
  have h4 := foldl_updS_none
    (g := fun m => { m with parents := m.parents.erase self })
    n.depends_on_list _ h3
  by_cases he : n.depends_on_list.isEmpty = true
  · rw [if_pos he]
    exact findN_updS_none h4
  · rw [if_neg he]
    exact findN_updS_none (findN_updS_none h4)

theorem killF_killed_mono : ∀ (f : Nat) (s : GState) (self i : Nat) (n : RNode),
    findN s.store i = some n → n.killed = true →
    ∃ n2, findN (killF f s self).store i = some n2 ∧ n2.killed = true := by
  intro f
  induction f with
  | zero => intro s self i n h1 h2; exact ⟨n, h1, h2⟩
  | succ f ih =>
    intro s self i n h1 h2
    show ∃ n2, findN (killStep (killF f) s self).store i = some n2 ∧ n2.killed = true
    cases hfs : findN s.store self with
    | none =>
      simp only [killStep, hfs]
      exact ⟨n, h1, h2⟩
    | some m =>
      simp only [killStep, hfs]
      by_cases hkm : m.killed = true
      · rw [if_pos hkm]
        exact ⟨n, h1, h2⟩
      · rw [if_neg hkm]
        obtain ⟨n1, hf1, hk1⟩ := updS_killed_mono (j := self)
          (g := fun m => { m with killed := true }) h1 h2 (fun m => Or.inr rfl)
        have hloop : ∀ (ps : List Nat) (t : GState) (j : Nat) (nn : RNode),
            findN t.store j = some nn → nn.killed = true →
            ∃ n2, findN (killList (killF f) t ps).store j = some n2 ∧
              n2.killed = true := by
          intro ps
          induction ps with
          | nil => intro t j nn ha hb; exact ⟨nn, ha, hb⟩
          | cons q rest ihq =>
            intro t j nn ha hb
            obtain ⟨n2, h3, h4⟩ := ih t q j nn ha hb
            exact ihq _ j n2 h3 h4
        obtain ⟨n2, hf2, hk2⟩ := hloop m.parents _ i n1 hf1 hk1
        exact killFinish_killed_mono hf2 hk2

theorem killF_none : ∀ (f : Nat) (s : GState) (self i : Nat),
    findN s.store i = none → findN (killF f s self).store i = none := by
  intro f
  induction f with
  | zero => intro s self i h; exact h
  | succ f ih =>
    intro s self i h
    show findN (killStep (killF f) s self).store i = none
    cases hfs : findN s.store self with
    | none =>
      simp only [killStep, hfs]
      exact h
    | some m =>
      simp only [killStep, hfs]
      by_cases hkm : m.killed = true
      · rw [if_pos hkm]
        exact h
      · rw [if_neg hkm]
        have hloop : ∀ (ps : List Nat) (t : GState) (j : Nat),
            findN t.store j = none →
            findN (killList (killF f) t ps).store j = none := by
          intro ps
          induction ps with
          | nil => intro t j ha; exact ha
          | cons q rest ihq =>
            intro t j ha
            exact ihq _ j (ih t q j ha)
        exact killFinish_none (hloop m.parents _ i (findN_updS_none h))

theorem killF_flags (f : Nat) (s : GState) (self : Nat) (n : RNode)
    (hf : findN s.store self = some n) (hk : n.killed = false) :
    ∃ n2, findN (killF (f + 1) s self).store self = some n2 ∧
      n2.killed = true := by
  show ∃ n2, findN (killStep (killF f) s self).store self = some n2 ∧ n2.killed = true
  simp only [killStep, hf]
  rw [if_neg (by simp [hk])]
  have hf1 : findN (updS s self (fun m => { m with killed := true })).store self
      = some { n with killed := true } := by
    rw [findN_updS, if_pos rfl, hf]
    rfl
  have hloop : ∀ (ps : List Nat) (t : GState) (j : Nat) (nn : RNode),
      findN t.store j = some nn → nn.killed = true →
      ∃ n2, findN (killList (killF f) t ps).store j = some n2 ∧ n2.killed = true := by
    intro ps
    induction ps with
    | nil => intro t j nn ha hb; exact ⟨nn, ha, hb⟩
    | cons q rest ihq =>
      intro t j nn ha hb
      obtain ⟨n2, h3, h4⟩ := killF_killed_mono f t q j nn ha hb
      exact ihq _ j n2 h3 h4
  obtain ⟨n2, hf2, hk2⟩ := hloop n.parents _ self { n with killed := true } hf1 rfl
  exact killFinish_killed_mono hf2 hk2

/-- C10: both `kill_cache` and `kill` flag their node before recursing
into its parents and return immediately on an already-flagged node, so
on every node graph — cyclic parent relations included — they terminate
(any fuel from the store size up computes the same result), and running
either a second time on the same node leaves the state unchanged. -/
theorem kill_termination_idempotence (s : GState) (self : Nat) :
    (∀ f, s.store.length ≤ f →
      killCacheF (f + 1) s self = kill_cache s self ∧
      killF (f + 1) s self = kill s self) ∧
    kill_cache (kill_cache s self) self = kill_cache s self ∧
    kill (kill s self) self = kill s self := by
  refine ⟨?_, ?_, ?_⟩
  · intro f hfl
    have hckb : cntCK s ≤ s.store.length := List.length_filter_le _ _
    have hkb : cntK s ≤ s.store.length := List.length_filter_le _ _
    exact ⟨killCacheF_fuel_irrel f s.store.length s self (le_trans hckb hfl) hckb,
      killF_fuel_irrel f s.store.length s self (le_trans hkb hfl) hkb⟩
  · cases hf : findN s.store self with
    | none =>
      have hnone : findN (kill_cache s self).store self = none :=
        (StoreCK_killCacheF (s.store.length + 1) s self).2.1 self hf
      show killCacheStep (killCacheF (kill_cache s self).store.length)
        (kill_cache s self) self = kill_cache s self
      simp only [killCacheStep, hnone]
    | some n =>
      by_cases hck : n.cache_killed = true
      · have hout : kill_cache s self = s := by
          show killCacheStep (killCacheF s.store.length) s self = s
          simp only [killCacheStep, hf]
          rw [if_pos hck]
        rw [hout]
        exact hout
      · have hflag : findN (kill_cache s self).store self
            = some { n with cache_killed := true } :=
          killCacheF_flags s.store.length s self n hf (Bool.not_eq_true _ ▸ hck)
        show killCacheStep (killCacheF (kill_cache s self).store.length)
          (kill_cache s self) self = kill_cache s self
        simp only [killCacheStep, hflag]
        simp
  · cases hf : findN s.store self with
    | none =>
      have hnone : findN (kill s self).store self = none :=
        killF_none (s.store.length + 1) s self self hf
      show killStep (killF (kill s self).store.length) (kill s self) self = kill s self
      simp only [killStep, hnone]
    | some n =>
      by_cases hk : n.killed = true
      · have hout : kill s self = s := by
          show killStep (killF s.store.length) s self = s
          simp only [killStep, hf]
          rw [if_pos hk]
        rw [hout]
        exact hout
      · obtain ⟨n2, hf2, hk2⟩ := killF_flags s.store.length s self n hf
          (Bool.not_eq_true _ ▸ hk)
        have hf2b : findN (kill s self).store self = some n2 := hf2
        show killStep (killF (kill s self).store.length) (kill s self) self = kill s self
        simp only [killStep, hf2b]
        rw [if_pos hk2]

/-- C10 (witness): the theorem at a concrete two-node state with fuel 7
exceeding the store size 2. -/
theorem kill_termination_idempotence_w :
    (killCacheF 8 exS3 0 = kill_cache exS3 0 ∧ killF 8 exS3 0 = kill exS3 0) ∧
    kill_cache (kill_cache exS3 0) 0 = kill_cache exS3 0 ∧
    kill (kill exS3 0) 0 = kill exS3 0 := by
  obtain ⟨h1, h2, h3⟩ := kill_termination_idempotence exS3 0
  exact ⟨h1 7 (by decide), h2, h3⟩

/-! ### C9: parents / depends_on inversion -/

theorem setAdd_mem (l : List Nat) (x y : Nat) : y ∈ setAdd l x ↔ (y ∈ l ∨ y = x) := by
  unfold setAdd
  split
  · next hx =>
    exact ⟨fun h => Or.inl h, fun h => h.elim id (fun hyx => hyx ▸ hx)⟩
  · simp [List.mem_append]

/-- A node update that touches neither `killed`, `parents` nor
`depends_on_list` preserves the inversion invariant. -/
theorem LiveInv_updS_neutral {s : GState} {i : Nat} {g : RNode → RNode}
    (hk : ∀ m, (g m).killed = m.killed)
    (hp : ∀ m, (g m).parents = m.parents)
    (hd : ∀ m, (g m).depends_on_list = m.depends_on_list)
    (hinv : LiveInv s) : LiveInv (updS s i g) := by
  intro a na b nb hfa hfb hka hkb
  rw [findN_updS] at hfa hfb
  have hchar : ∀ x nx, (if x = i then (findN s.store x).map g else findN s.store x)
      = some nx → ∃ nx0, findN s.store x = some nx0 ∧ nx.killed = nx0.killed ∧
      nx.parents = nx0.parents ∧ nx.depends_on_list = nx0.depends_on_list := by
    intro x nx hx
    by_cases hxi : x = i
    · rw [if_pos hxi] at hx
      cases hfx : findN s.store x with
      | none => rw [hfx] at hx; cases hx
      | some nx0 =>
        rw [hfx] at hx
        obtain rfl := Option.some.inj hx
        exact ⟨nx0, rfl, hk nx0, hp nx0, hd nx0⟩
    · rw [if_neg hxi] at hx
      exact ⟨nx, hx, rfl, rfl, rfl⟩
  obtain ⟨na0, hfa0, hka0, hpa0, hda0⟩ := hchar a na hfa
  obtain ⟨nb0, hfb0, hkb0, hpb0, hdb0⟩ := hchar b nb hfb
  rw [hpa0, hdb0]
  exact hinv a na0 b nb0 hfa0 hfb0 (hka0 ▸ hka) (hkb0 ▸ hkb)

/-- Recording a dependency edge in both directions preserves the
inversion invariant. -/
theorem LiveInv_addEdge {s : GState} (self j : Nat) (hinv : LiveInv s) :
    LiveInv (updS (updS s self
        (fun n => { n with depends_on_list := n.depends_on_list ++ [j] }))
      j (fun n => { n with parents := setAdd n.parents self })) := by
  intro a na b nb hfa hfb hka hkb
  rw [findN_updS] at hfa hfb
  have hchar : ∀ x nx,
      (if x = j
        then (findN (updS s self
          (fun n => { n with depends_on_list := n.depends_on_list ++ [j] })).store x).map
            (fun n => { n with parents := setAdd n.parents self })
        else findN (updS s self
          (fun n => { n with depends_on_list := n.depends_on_list ++ [j] })).store x)
      = some nx →
      ∃ nx0, findN s.store x = some nx0 ∧ nx.killed = nx0.killed ∧
        (∀ y, y ∈ nx.parents ↔ (y ∈ nx0.parents ∨ (x = j ∧ y = self))) ∧
        (∀ y, y ∈ nx.depends_on_list ↔ (y ∈ nx0.depends_on_list ∨ (x = self ∧ y = j))) := by
    intro x nx hx
    by_cases hxj : x = j
    · rw [if_pos hxj, findN_updS] at hx
      by_cases hxs : x = self
      · rw [if_pos hxs] at hx
        cases hfx : findN s.store x with
        | none => rw [hfx] at hx; cases hx
        | some nx0 =>
          rw [hfx] at hx
          obtain rfl := Option.some.inj hx
          subst hxj
          subst hxs
          refine ⟨nx0, rfl, rfl, ?_, ?_⟩
          · intro y
            simp [setAdd_mem]
          · intro y
            simp
      · rw [if_neg hxs] at hx
        cases hfx : findN s.store x with
        | none => rw [hfx] at hx; cases hx
        | some nx0 =>
          rw [hfx] at hx
          obtain rfl := Option.some.inj hx
          refine ⟨nx0, rfl, rfl, ?_, ?_⟩
          · intro y
            simp [setAdd_mem, hxj]
          · intro y
            simp [hxs]
    · rw [if_neg hxj, findN_updS] at hx
      by_cases hxs : x = self
      · rw [if_pos hxs] at hx
        cases hfx : findN s.store x with
        | none => rw [hfx] at hx; cases hx
        | some nx0 =>
          rw [hfx] at hx
          obtain rfl := Option.some.inj hx
          refine ⟨nx0, rfl, rfl, ?_, ?_⟩
          · intro y
            simp [hxj]
          · intro y
            simp [hxs]
      · rw [if_neg hxs] at hx
        refine ⟨nx, hx, rfl, ?_, ?_⟩
        · intro y
          simp [hxj]
        · intro y
          simp [hxs]
  obtain ⟨na0, hfa0, hka0, hpa0, hda0⟩ := hchar a na hfa
  obtain ⟨nb0, hfb0, hkb0, hpb0, hdb0⟩ := hchar b nb hfb
  rw [hpa0 b, hdb0 a]
  have hbase := hinv a na0 b nb0 hfa0 hfb0 (hka0 ▸ hka) (hkb0 ▸ hkb)
  rw [hbase]
  tauto

/-- Updating a dead (or absent) node with a killed-preserving function
cannot break the inversion invariant: pairs involving the dead node are
vacuous, and the rest of the store is untouched. -/
theorem LiveInv_updS_dead {s : GState} {i : Nat} {g : RNode → RNode}
    (hk : ∀ m, (g m).killed = m.killed)
    (hdead : ∀ m, findN s.store i = some m → m.killed = true)
    (hinv : LiveInv s) : LiveInv (updS s i g) := by
  intro a na b nb hfa hfb hka hkb
  rw [findN_updS] at hfa hfb
  have hne : ∀ x nx, (if x = i then (findN s.store x).map g else findN s.store x)
      = some nx → nx.killed = false → x ≠ i ∧ findN s.store x = some nx := by
    intro x nx hx hkx
    by_cases hxi : x = i
    · rw [if_pos hxi] at hx
      cases hfx : findN s.store x with
      | none => rw [hfx] at hx; cases hx
      | some nx0 =>
        rw [hfx] at hx
        obtain rfl := Option.some.inj hx
        exfalso
        have hd := hdead nx0 (hxi ▸ hfx)
        rw [hk nx0, hd] at hkx
        cases hkx
    · rw [if_neg hxi] at hx
      exact ⟨hxi, hx⟩
  obtain ⟨hna, hfa0⟩ := hne a na hfa hka
  obtain ⟨hnb, hfb0⟩ := hne b nb hfb hkb
  exact hinv a na b nb hfa0 hfb0 hka hkb

/-- Flagging a node as killed preserves the inversion invariant. -/
theorem LiveInv_flagK {s : GState} {self : Nat} (hinv : LiveInv s) :
    LiveInv (updS s self (fun m => { m with killed := true })) := by
  intro a na b nb hfa hfb hka hkb
  rw [findN_updS] at hfa hfb
  have hne : ∀ x nx, (if x = self
        then (findN s.store x).map (fun m => { m with killed := true })
        else findN s.store x)
      = some nx → nx.killed = false → findN s.store x = some nx := by
    intro x nx hx hkx
    by_cases hxi : x = self
    · rw [if_pos hxi] at hx
      cases hfx : findN s.store x with
      | none => rw [hfx] at hx; cases hx
      | some nx0 =>
        rw [hfx] at hx
        obtain rfl := Option.some.inj hx
        cases hkx
    · rw [if_neg hxi] at hx
      exact hx
  exact hinv a na b nb (hne a na hfa hka) (hne b nb hfb hkb) hka hkb

/-- Discarding a dead node from another node's parent set preserves the
inversion invariant. -/
theorem LiveInv_erase_dead {s : GState} {j self : Nat}
    (hdead : ∀ m, findN s.store self = some m → m.killed = true)
    (hinv : LiveInv s) :
    LiveInv (updS s j (fun m => { m with parents := m.parents.erase self })) := by
  intro a na b nb hfa hfb hka hkb
  have hbself : b ≠ self := by
    intro hbs
    rw [findN_updS] at hfb
    by_cases hbj : b = j
    · rw [if_pos hbj] at hfb
      cases hfx : findN s.store b with
      | none => rw [hfx] at hfb; cases hfb
      | some nb0 =>
        rw [hfx] at hfb
        obtain rfl := Option.some.inj hfb
        have := hdead nb0 (hbs ▸ hfx)
        rw [show ({ nb0 with parents := nb0.parents.erase self } : RNode).killed
            = nb0.killed from rfl, this] at hkb
        cases hkb
    · rw [if_neg hbj] at hfb
      have := hdead nb (hbs ▸ hfb)
      rw [this] at hkb
      cases hkb
  rw [findN_updS] at hfa hfb
  have hchar : ∀ x nx, (if x = j
        then (findN s.store x).map (fun m => { m with parents := m.parents.erase self })
        else findN s.store x)
      = some nx → ∃ nx0, findN s.store x = some nx0 ∧ nx.killed = nx0.killed ∧
        nx.depends_on_list = nx0.depends_on_list ∧
        (∀ y, y ≠ self → (y ∈ nx.parents ↔ y ∈ nx0.parents)) := by
    intro x nx hx
    by_cases hxj : x = j
    · rw [if_pos hxj] at hx
      cases hfx : findN s.store x with
      | none => rw [hfx] at hx; cases hx
      | some nx0 =>
        rw [hfx] at hx
        obtain rfl := Option.some.inj hx
        refine ⟨nx0, rfl, rfl, rfl, ?_⟩
        intro y hy
        show y ∈ nx0.parents.erase self ↔ y ∈ nx0.parents
        exact List.mem_erase_of_ne hy
    · rw [if_neg hxj] at hx
      exact ⟨nx, hx, rfl, rfl, fun y _ => Iff.rfl⟩
  obtain ⟨na0, hfa0, hka0, hda0, hpa0⟩ := hchar a na hfa
  obtain ⟨nb0, hfb0, hkb0, hdb0, hpb0⟩ := hchar b nb hfb
  rw [hpa0 b hbself, hdb0]
  exact hinv a na0 b nb0 hfa0 hfb0 (hka0 ▸ hka) (hkb0 ▸ hkb)

theorem dead_updS {s : GState} {i j : Nat} {g : RNode → RNode}
    (hk : ∀ m, (g m).killed = m.killed ∨ (g m).killed = true)
    (hdead : ∀ m, findN s.store i = some m → m.killed = true) :
    ∀ m, findN (updS s j g).store i = some m → m.killed = true := by
  intro m hm
  rw [findN_updS] at hm
  by_cases hij : i = j
  · rw [if_pos hij] at hm
    cases hfx : findN s.store i with
    | none => rw [hfx] at hm; cases hm
    | some m0 =>
      rw [hfx] at hm
      obtain rfl := Option.some.inj hm
      rcases hk m0 with h | h
      · rw [h]
        exact hdead m0 hfx
      · exact h
  · rw [if_neg hij] at hm
    exact hdead m hm

theorem LiveInv_foldl_erase {self : Nat} (L : List Nat) : ∀ (t : GState),
    (∀ m, findN t.store self = some m → m.killed = true) → LiveInv t →
    LiveInv (L.foldl
      (fun t j => updS t j (fun m => { m with parents := m.parents.erase self })) t) := by
  induction L with
  | nil => intro t _ hinv; exact hinv
  | cons j rest ih =>
    intro t hdead hinv
    rw [List.foldl_cons]
    exact ih _ (dead_updS (fun m => Or.inl rfl) hdead) (LiveInv_erase_dead hdead hinv)

theorem dead_foldl_erase {self : Nat} (L : List Nat) : ∀ (t : GState),
    (∀ m, findN t.store self = some m → m.killed = true) →
    ∀ m, findN (L.foldl
      (fun t j => updS t j (fun m => { m with parents := m.parents.erase self })) t).store self
      = some m → m.killed = true := by
  induction L with
  | nil => intro t hdead; exact hdead
  | cons j rest ih =>
    intro t hdead
    rw [List.foldl_cons]
    exact ih _ (dead_updS (fun m => Or.inl rfl) hdead)

theorem LiveInv_killFinish {s2 : GState} {self : Nat} {n : RNode}
    (hdead : ∀ m, findN s2.store self = some m → m.killed = true)
    (hinv : LiveInv s2) : LiveInv (killFinish s2 self n) := by
  simp only [killFinish]
  have h3inv : LiveInv (updS s2 self (fun m => { m with parents := [] })) := by
    refine LiveInv_updS_dead (fun m => rfl) hdead ?_
    exact hinv
  have h3dead := dead_updS (j := self)
    (g := fun m => { m with parents := [] }) (fun m => Or.inl rfl) hdead
  have h4inv := LiveInv_foldl_erase n.depends_on_list _ h3dead h3inv
  have h4dead := dead_foldl_erase n.depends_on_list _ h3dead
  by_cases he : n.depends_on_list.isEmpty = true
  · rw [if_pos he]
    exact LiveInv_updS_dead (fun m => rfl) h4dead h4inv
  · rw [if_neg he]
    have h6inv : LiveInv (updS _ self (fun m =>
        { m with depends_on_list := [], render_of := [], children := [] })) :=
      LiveInv_updS_dead (fun m => rfl) h4dead h4inv
    have h6dead := dead_updS (j := self)
      (g := fun m => { m with depends_on_list := [], render_of := [], children := [] })
      (fun m => Or.inl rfl) h4dead
    exact LiveInv_updS_dead (fun m => rfl) h6dead h6inv

/-- `Render.kill` preserves the inversion invariant: it removes both
directions of every edge incident to a node it kills, and pairs of nodes
it never touches keep their edges. -/
theorem LiveInv_killF : ∀ (f : Nat) (s : GState) (self : Nat),
    LiveInv s → LiveInv (killF f s self) := by
  intro f
  induction f with
  | zero => intro s self hinv; exact hinv
  | succ f ih =>
    intro s self hinv
    show LiveInv (killStep (killF f) s self)
    cases hf : findN s.store self with
    | none =>
      simp only [killStep, hf]
      exact hinv
    | some n =>
      simp only [killStep, hf]
      by_cases hk : n.killed = true
      · rw [if_pos hk]
        exact hinv
      · rw [if_neg hk]
        have h1inv : LiveInv (updS s self (fun m => { m with killed := true })) :=
          LiveInv_flagK hinv
        have hf1 : findN (updS s self (fun m => { m with killed := true })).store self
            = some { n with killed := true } := by
          rw [findN_updS, if_pos rfl, hf]
          rfl
        have hloop : ∀ (ps : List Nat) (t : GState),
            LiveInv t → LiveInv (killList (killF f) t ps) := by
          intro ps
          induction ps with
          | nil => intro t h; exact h
          | cons q rest ihq =>
            intro t h
            exact ihq _ (ih t q h)
        have h2inv := hloop n.parents _ h1inv
        have hloopdead : ∀ (ps : List Nat) (t : GState) (nn : RNode),
            findN t.store self = some nn → nn.killed = true →
            ∀ m, findN (killList (killF f) t ps).store self = some m →
              m.killed = true := by
          intro ps
          induction ps with
          | nil =>
            intro t nn ha hb m hm
            have hm2 : findN t.store self = some m := hm
            rw [ha] at hm2
            obtain rfl := Option.some.inj hm2
            exact hb
          | cons q rest ihq =>
            intro t nn ha hb m hm
            obtain ⟨n2, h3, h4⟩ := killF_killed_mono f t q self nn ha hb
            exact ihq _ n2 h3 h4 m hm
        have h2dead := hloopdead n.parents _ { n with killed := true } hf1 rfl
        exact LiveInv_killFinish h2dead h2inv

theorem LiveInv_blitCore {s : GState} {self : Nat} {src : Child} {xo yo : Off}
    {focus main : Bool} {index : Option Nat} (hinv : LiveInv s) :
    LiveInv (blitCore s self src xo yo focus main index) := by
  cases src with
  | node j =>
    simp only [blitCore]
    exact LiveInv_addEdge self j
      (LiveInv_updS_neutral (fun m => rfl) (fun m => rfl) (fun m => rfl) hinv)
  | surface w h =>
    simp only [blitCore]
    exact LiveInv_updS_neutral (fun m => rfl) (fun m => rfl) (fun m => rfl) hinv
  | texture w h =>
    simp only [blitCore]
    exact LiveInv_updS_neutral (fun m => rfl) (fun m => rfl) (fun m => rfl) hinv

/-- C9: among live nodes, the `parents` relation is exactly the inverse
of the `depends_on` relation — every edge-adding operation (the three
blit variants, `depends_on`, `add_uniform` with a Render value,
`add_focus` with a Render mask) records both directions, and `kill`
removes both directions of every edge incident to the nodes it kills, so
each operation preserves the inversion invariant. -/
theorem parents_inversion (s : GState) (self : Nat) (hinv : LiveInv s) :
    (∀ src pos focus main ix s2,
      blitOp s self src pos focus main ix = .ok s2 → LiveInv s2) ∧
    (∀ src pos focus main ix s2,
      subpixelBlitOp s self src pos focus main ix = .ok s2 → LiveInv s2) ∧
    (∀ src pos focus main ix s2,
      absoluteBlitOp s self src pos focus main ix = .ok s2 → LiveInv s2) ∧
    (∀ src focus s2, dependsOnOp s self src focus = .ok s2 → LiveInv s2) ∧
    (∀ name v s2, addUniformOp s self name v = .ok s2 → LiveInv s2) ∧
    (∀ e, LiveInv (addFocusOp s self e)) ∧
    LiveInv (kill s self) := by
  refine ⟨?_, ?_, ?_, ?_, ?_, ?_, LiveInv_killF _ s self hinv⟩
  · intro src pos focus main ix s2 h
    simp only [blitOp] at h
    split at h
    · cases h
    · obtain rfl := Except.ok.inj h
      exact LiveInv_blitCore hinv
  · intro src pos focus main ix s2 h
    simp only [subpixelBlitOp] at h
    split at h
    · cases h
    · obtain rfl := Except.ok.inj h
      exact LiveInv_blitCore hinv
  · intro src pos focus main ix s2 h
    simp only [absoluteBlitOp] at h
    split at h
    · cases h
    · obtain rfl := Except.ok.inj h
      exact LiveInv_blitCore hinv
  · intro src focus s2 h
    simp only [dependsOnOp] at h
    split at h
    · cases h
    · split at h
      · obtain rfl := Except.ok.inj h
        exact LiveInv_updS_neutral (fun m => rfl) (fun m => rfl) (fun m => rfl)
          (LiveInv_addEdge self src hinv)
      · obtain rfl := Except.ok.inj h
        exact LiveInv_addEdge self src hinv
  · intro name v s2 h
    cases v with
    | render i =>
      simp only [addUniformOp] at h
      split at h
      · cases h
      · obtain rfl := Except.ok.inj h
        exact LiveInv_updS_neutral (fun m => rfl) (fun m => rfl) (fun m => rfl)
          (LiveInv_updS_neutral (fun m => rfl) (fun m => rfl) (fun m => rfl)
            (LiveInv_addEdge self i hinv))
    | val u =>
      simp only [addUniformOp] at h
      obtain rfl := Except.ok.inj h
      exact LiveInv_updS_neutral (fun m => rfl) (fun m => rfl) (fun m => rfl) hinv
  · intro e
    rcases hmi : e.maskInfo with _ | ⟨x, y, c⟩
    · simp only [addFocusOp, hmi]
      exact LiveInv_updS_neutral (fun m => rfl) (fun m => rfl) (fun m => rfl) hinv
    · cases c with
      | node m =>
        simp only [addFocusOp, hmi]
        by_cases hms : m = self
        · rw [if_pos hms]
          exact LiveInv_updS_neutral (fun m => rfl) (fun m => rfl) (fun m => rfl) hinv
        · rw [if_neg hms]
          exact LiveInv_updS_neutral (fun m => rfl) (fun m => rfl) (fun m => rfl)
            (LiveInv_addEdge self m hinv)
      | surface w h =>
        simp only [addFocusOp, hmi]
        exact LiveInv_updS_neutral (fun m => rfl) (fun m => rfl) (fun m => rfl) hinv
      | texture w h =>
        simp only [addFocusOp, hmi]
        exact LiveInv_updS_neutral (fun m => rfl) (fun m => rfl) (fun m => rfl) hinv

theorem parents_inversion_w :
    dependsOnOp exS9 0 1 false = .ok exS9d ∧
    (0 ∈ ((findN exS9d.store 1).getD (initRender 0 0 none)).parents ↔
      1 ∈ ((findN exS9d.store 0).getD (initRender 0 0 none)).depends_on_list) := by
  have hinv : LiveInv exS9 := by
    intro a na b nb hfa hfb hka hkb
    simp only [exS9, exBase, findN] at hfa hfb
    split at hfa
    · next ha =>
      cases ha
      obtain rfl := Option.some.inj hfa
      split at hfb
      · next hb =>
        cases hb
        obtain rfl := Option.some.inj hfb
        decide
      · split at hfb
        · next hb =>
          cases hb
          obtain rfl := Option.some.inj hfb
          decide
        · cases hfb
    · split at hfa
      · next ha =>
        cases ha
        obtain rfl := Option.some.inj hfa
        split at hfb
        · next hb =>
          cases hb
          obtain rfl := Option.some.inj hfb
          decide
        · split at hfb
          · next hb =>
            cases hb
            obtain rfl := Option.some.inj hfb
            decide
          · cases hfb
      · cases hfa
  obtain ⟨_, _, _, hdep, _, _, _⟩ := parents_inversion exS9 0 hinv
  have hok : dependsOnOp exS9 0 1 false = .ok exS9d := rfl
  have hinv2 := hdep 1 false exS9d hok
  refine ⟨hok, ?_⟩
  have h1 : findN exS9d.store 1
      = some ((findN exS9d.store 1).getD (initRender 0 0 none)) := rfl
  have h0 : findN exS9d.store 0
      = some ((findN exS9d.store 0).getD (initRender 0 0 none)) := rfl
  exact hinv2 1 _ 0 _ h1 h0 rfl rfl

/-! ### C2: garbage-collection safety -/

theorem OnlyMarks_refl (s : GState) : OnlyMarks s s :=
  ⟨fun x n h => Or.inl h, fun x h => h, rfl, rfl⟩

theorem OnlyMarks_trans {a b c : GState} (h1 : OnlyMarks a b) (h2 : OnlyMarks b c) :
    OnlyMarks a c := by
  obtain ⟨h1a, h1b, h1c, h1d⟩ := h1
  obtain ⟨h2a, h2b, h2c, h2d⟩ := h2
  refine ⟨?_, fun x h => h2b x (h1b x h), h2c.trans h1c, h2d.trans h1d⟩
  intro x n h
  rcases h1a x n h with hb | ⟨hm, hb⟩
  · rcases h2a x n hb with hc | ⟨hm2, hc⟩
    · exact Or.inl hc
    · exact Or.inr ⟨hm2, hc⟩
  · rcases h2a x { n with mark := true } hb with hc | ⟨hm2, hc⟩
    · exact Or.inr ⟨hm, hc⟩
    · cases hm2

theorem OnlyMarks_setMark (s : GState) (r : Nat) : OnlyMarks s (setMark s r true) := by
  refine ⟨?_, ?_, rfl, rfl⟩
  · intro x n h
    simp only [setMark, findN_updS]
    by_cases hxr : x = r
    · rw [if_pos hxr, h]
      by_cases hm : n.mark = true
      · left
        show some { n with mark := true } = some n
        rw [show ({ n with mark := true } : RNode) = n from by cases n; simp_all]
      · right
        exact ⟨Bool.not_eq_true _ ▸ hm, rfl⟩
    · rw [if_neg hxr]
      exact Or.inl h
  · intro x h
    simp only [setMark, findN_updS]
    by_cases hxr : x = r
    · rw [if_pos hxr, h]
      rfl
    · rw [if_neg hxr]
      exact h

theorem OnlyMarks_back {s s2 : GState} (h : OnlyMarks s s2) {x : Nat} {n2 : RNode}
    (h2 : findN s2.store x = some n2) :
    ∃ n, findN s.store x = some n ∧ n2.killed = n.killed ∧ n2.parents = n.parents ∧
      n2.depends_on_list = n.depends_on_list ∧ n2.children = n.children ∧
      n2.render_of = n.render_of ∧ (n.mark = true → n2.mark = true) := by
  cases hf : findN s.store x with
  | none =>
    rw [h.2.1 x hf] at h2
    cases h2
  | some n =>
    rcases h.1 x n hf with hb | ⟨hm, hb⟩
    · rw [hb] at h2
      obtain rfl := Option.some.inj h2
      exact ⟨n, rfl, rfl, rfl, rfl, rfl, rfl, fun h => h⟩
    · rw [hb] at h2
      obtain rfl := Option.some.inj h2
      exact ⟨n, rfl, rfl, rfl, rfl, rfl, rfl, fun _ => rfl⟩

theorem marked_mono_OnlyMarks {s s2 : GState} (h : OnlyMarks s s2) {x : Nat} {n : RNode}
    (hf : findN s.store x = some n) (hm : n.mark = true) :
    findN s2.store x = some n := by
  rcases h.1 x n hf with hb | ⟨hm2, _⟩
  · exact hb
  · rw [hm] at hm2
    cases hm2

theorem LiveInv_OnlyMarks {s s2 : GState} (h : OnlyMarks s s2) (hinv : LiveInv s) :
    LiveInv s2 := by
  intro a na b nb hfa hfb hka hkb
  obtain ⟨na0, hfa0, hk1, hp1, hd1, _, _, _⟩ := OnlyMarks_back h hfa
  obtain ⟨nb0, hfb0, hk2, hp2, hd2, _, _, _⟩ := OnlyMarks_back h hfb
  rw [hp1, hd2]
  exact hinv a na0 b nb0 hfa0 hfb0 (hk1 ▸ hka) (hk2 ▸ hkb)

theorem markRoots_OnlyMarks (roots : List Nat) : ∀ (s : GState),
    OnlyMarks s (markRoots s roots) := by
  induction roots with
  | nil => intro s; exact OnlyMarks_refl s
  | cons a rest ih =>
    intro s
    exact OnlyMarks_trans (OnlyMarks_setMark s a) (ih (setMark s a true))

theorem markRoots_marks (roots : List Nat) : ∀ (s : GState) (r : Nat), r ∈ roots →
    ∀ n, findN (markRoots s roots).store r = some n → n.mark = true := by
  induction roots with
  | nil =>
    intro s r hr
    cases hr
  | cons a rest ih =>
    intro s r hr n hn
    rw [show markRoots s (a :: rest) = markRoots (setMark s a true) rest from rfl] at hn
    rcases List.mem_cons.mp hr with rfl | hr2
    · cases hfa : findN s.store r with
      | none =>
        have h1 : findN (setMark s r true).store r = none := by
          simp only [setMark, findN_updS, if_pos rfl, hfa]
          rfl
        rw [(markRoots_OnlyMarks rest (setMark s r true)).2.1 r h1] at hn
        cases hn
      | some n0 =>
        have h1 : findN (setMark s r true).store r = some { n0 with mark := true } := by
          simp only [setMark, findN_updS, if_pos rfl, hfa]
          rfl
        have h2 := marked_mono_OnlyMarks (markRoots_OnlyMarks rest (setMark s r true)) h1 rfl
        rw [h2] at hn
        obtain rfl := Option.some.inj hn
        rfl
    · exact ih (setMark s a true) r hr2 n hn

theorem markRoots_marked_sub (roots : List Nat) : ∀ (s : GState) (P : Nat → Prop),
    (∀ x n, findN s.store x = some n → n.mark = true → P x) →
    ∀ x n, findN (markRoots s roots).store x = some n → n.mark = true →
      P x ∨ x ∈ roots := by
  induction roots with
  | nil =>
    intro s P hall x n hx hm
    exact Or.inl (hall x n hx hm)
  | cons a rest ih =>
    intro s P hall x n hx hm
    have hall2 : ∀ x n, findN (setMark s a true).store x = some n → n.mark = true →
        P x ∨ x = a := by
      intro x2 n2 hx2 hm2
      simp only [setMark, findN_updS] at hx2
      by_cases hxa : x2 = a
      · exact Or.inr hxa
      · rw [if_neg hxa] at hx2
        exact Or.inl (hall x2 n2 hx2 hm2)
    rcases ih (setMark s a true) (fun x => P x ∨ x = a) hall2 x n hx hm with hL | hR
    · rcases hL with hP | rfl
      · exact Or.inl hP
      · exact Or.inr (List.mem_cons_self _ _)
    · exact Or.inr (List.mem_cons_of_mem _ hR)

theorem cntM_setMark_lt {s : GState} {j : Nat} {m : RNode}
    (hf : findN s.store j = some m) (hm : m.mark = false) :
    cntM (setMark s j true) < cntM s := by
  show ((updN s.store j (fun n => { n with mark := true })).filter
      (fun q => !q.2.mark)).length
    < (s.store.filter (fun q => !q.2.mark)).length
  exact updN_filter_length_lt _ _ _ _ (fun a n h => by simp at h)
    m hf (by simp [hm]) rfl

theorem bfsMark_fold (deps : List Nat) : ∀ (s : GState) (q : List Nat),
    OnlyMarks s (deps.foldl bfsMark (s, q)).1 ∧
    ((deps.foldl bfsMark (s, q)).2.length + cntM (deps.foldl bfsMark (s, q)).1
      ≤ q.length + cntM s) ∧
    (∀ r, r ∈ q → r ∈ (deps.foldl bfsMark (s, q)).2) ∧
    (∀ r, r ∈ (deps.foldl bfsMark (s, q)).2 → r ∈ q ∨ r ∈ deps) ∧
    (∀ j, j ∈ deps → ∀ mj, findN (deps.foldl bfsMark (s, q)).1.store j = some mj →
      mj.mark = true) ∧
    (∀ x n2, findN (deps.foldl bfsMark (s, q)).1.store x = some n2 → n2.mark = true →
      (∃ n, findN s.store x = some n ∧ n.mark = true) ∨
        x ∈ (deps.foldl bfsMark (s, q)).2) := by
  induction deps with
  | nil =>
    intro s q
    exact ⟨OnlyMarks_refl s, le_refl _, fun r h => h, fun r h => Or.inl h,
      fun j hj => absurd hj (List.not_mem_nil j),
      fun x n2 h2 hm => Or.inl ⟨n2, h2, hm⟩⟩
  | cons j rest ih =>
    intro s q
    rw [show (j :: rest).foldl bfsMark (s, q) = rest.foldl bfsMark (bfsMark (s, q) j)
      from rfl]
    cases hfj : findN s.store j with
    | none =>
      rw [show bfsMark (s, q) j = (s, q) from by simp [bfsMark, hfj]]
      obtain ⟨i1, i2, i3, i4, i5, i6⟩ := ih s q
      refine ⟨i1, i2, i3, ?_, ?_, i6⟩
      · intro r hr
        rcases i4 r hr with h | h
        · exact Or.inl h
        · exact Or.inr (List.mem_cons_of_mem _ h)
      · intro j2 hj2 mj hmj
        rcases List.mem_cons.mp hj2 with rfl | hj3
        · rw [i1.2.1 j2 hfj] at hmj
          cases hmj
        · exact i5 j2 hj3 mj hmj
    | some m =>
      by_cases hmm : m.mark = true
      · rw [show bfsMark (s, q) j = (s, q) from by simp [bfsMark, hfj, hmm]]
        obtain ⟨i1, i2, i3, i4, i5, i6⟩ := ih s q
        refine ⟨i1, i2, i3, ?_, ?_, i6⟩
        · intro r hr
          rcases i4 r hr with h | h
          · exact Or.inl h
          · exact Or.inr (List.mem_cons_of_mem _ h)
        · intro j2 hj2 mj hmj
          rcases List.mem_cons.mp hj2 with rfl | hj3
          · rw [marked_mono_OnlyMarks i1 hfj hmm] at hmj
            obtain rfl := Option.some.inj hmj
            exact hmm
          · exact i5 j2 hj3 mj hmj
      · have hmf : m.mark = false := Bool.not_eq_true _ ▸ hmm
        rw [show bfsMark (s, q) j = (setMark s j true, q ++ [j]) from by
          simp [bfsMark, hfj, hmf]]
        obtain ⟨i1, i2, i3, i4, i5, i6⟩ := ih (setMark s j true) (q ++ [j])
        have hjm : findN (setMark s j true).store j = some { m with mark := true } := by
          simp only [setMark, findN_updS, if_pos rfl, hfj]
          rfl
        refine ⟨OnlyMarks_trans (OnlyMarks_setMark s j) i1, ?_, ?_, ?_, ?_, ?_⟩
        · have hlt := cntM_setMark_lt hfj hmf
          have hlen : (q ++ [j]).length = q.length + 1 := by simp
          omega
        · intro r hr
          exact i3 r (List.mem_append.mpr (Or.inl hr))
        · intro r hr
          rcases i4 r hr with h | h
          · rcases List.mem_append.mp h with h2 | h2
            · exact Or.inl h2
            · rw [List.mem_singleton] at h2
              exact Or.inr (h2 ▸ List.mem_cons_self _ _)
          · exact Or.inr (List.mem_cons_of_mem _ h)
        · intro j2 hj2 mj hmj
          rcases List.mem_cons.mp hj2 with rfl | hj3
          · rw [marked_mono_OnlyMarks i1 hjm rfl] at hmj
            obtain rfl := Option.some.inj hmj
            rfl
          · exact i5 j2 hj3 mj hmj
        · intro x n2 h2 hm2
          rcases i6 x n2 h2 hm2 with ⟨n1, hn1, hm1⟩ | hq
          · by_cases hxj : x = j
            · subst hxj
              right
              exact i3 x (List.mem_append.mpr (Or.inr (List.mem_singleton.mpr rfl)))
            · left
              refine ⟨n1, ?_, hm1⟩
              rw [setMark, findN_updS, if_neg hxj] at hn1
              exact hn1
          · exact Or.inr hq

/-- The mark phase: with fuel covering the queue and the unmarked nodes,
the worklist loop only sets marks, and at exit the marked set is closed
under dependencies and contained in the reachable set `R`. -/
theorem bfs_main (R : Nat → Prop) : ∀ (f : Nat) (q acc : List Nat) (s : GState),
    q.length + cntM s ≤ f →
    (∀ r, r ∈ q → ∀ n, findN s.store r = some n → n.mark = true) →
    (∀ x, x ∈ acc → ∀ nx, findN s.store x = some nx → ∀ j, j ∈ nx.depends_on_list →
      ∀ mj, findN s.store j = some mj → mj.mark = true) →
    (∀ x n, findN s.store x = some n → n.mark = true → x ∈ acc ∨ x ∈ q) →
    (∀ x n, findN s.store x = some n → n.mark = true → R x) →
    (∀ x nx j, R x → findN s.store x = some nx → j ∈ nx.depends_on_list → R j) →
    OnlyMarks s (bfsF f s q acc).1 ∧
    (∀ x nx, findN (bfsF f s q acc).1.store x = some nx → nx.mark = true →
      ((∀ j, j ∈ nx.depends_on_list →
        ∀ mj, findN (bfsF f s q acc).1.store j = some mj → mj.mark = true) ∧ R x)) := by
  intro f
  induction f with
  | zero =>
    intro q acc s hfuel h1 h2 h4 h5 hRcl
    have hq : q = [] := List.length_eq_zero.mp (by omega)
    subst hq
    refine ⟨OnlyMarks_refl s, ?_⟩
    intro x nx hx hm
    rcases h4 x nx hx hm with hacc | hq
    · exact ⟨h2 x hacc nx hx, h5 x nx hx hm⟩
    · cases hq
  | succ f ihf =>
    intro q acc s hfuel h1 h2 h4 h5 hRcl
    cases q with
    | nil =>
      refine ⟨OnlyMarks_refl s, ?_⟩
      intro x nx hx hm
      rcases h4 x nx hx hm with hacc | hq
      · exact ⟨h2 x hacc nx hx, h5 x nx hx hm⟩
      · cases hq
    | cons r q2 =>
      show OnlyMarks s (bfsF (f + 1) s (r :: q2) acc).1 ∧ _
      cases hfr : findN s.store r with
      | none =>
        rw [show bfsF (f + 1) s (r :: q2) acc = bfsF f s q2 (acc ++ [r]) from by
          simp [bfsF, hfr]]
        refine ihf q2 (acc ++ [r]) s (by simp at hfuel ⊢; omega)
          (fun r2 hr2 => h1 r2 (List.mem_cons_of_mem _ hr2)) ?_ ?_ h5 hRcl
        · intro x hx nx hnx
          rcases List.mem_append.mp hx with hxa | hxr
          · exact h2 x hxa nx hnx
          · rw [List.mem_singleton] at hxr
            subst hxr
            rw [hfr] at hnx
            cases hnx
        · intro x n hx hm
          rcases h4 x n hx hm with hacc | hqq
          · exact Or.inl (List.mem_append.mpr (Or.inl hacc))
          · rcases List.mem_cons.mp hqq with rfl | hq2
            · exact Or.inl (List.mem_append.mpr (Or.inr (List.mem_singleton.mpr rfl)))
            · exact Or.inr hq2
      | some n =>
        rw [show bfsF (f + 1) s (r :: q2) acc
            = bfsF f (n.depends_on_list.foldl bfsMark (s, q2)).1
                (n.depends_on_list.foldl bfsMark (s, q2)).2 (acc ++ [r]) from by
          simp [bfsF, hfr]]
        obtain ⟨F1, F2, F3, F4, F5, F6⟩ := bfsMark_fold n.depends_on_list s q2
        have hrm : n.mark = true := h1 r (List.mem_cons_self _ _) n hfr
        have hmain := ihf (n.depends_on_list.foldl bfsMark (s, q2)).2 (acc ++ [r])
          (n.depends_on_list.foldl bfsMark (s, q2)).1
          (by simp at hfuel; omega)
          ?_ ?_ ?_ ?_ ?_
        · exact ⟨OnlyMarks_trans F1 hmain.1, hmain.2⟩
        · -- queue marked
          intro r2 hr2 nn hnn
          rcases F4 r2 hr2 with hq | hd
          · obtain ⟨n0, hn0, _, _, _, _, _, hmk⟩ := OnlyMarks_back F1 hnn
            exact hmk (h1 r2 (List.mem_cons_of_mem _ hq) n0 hn0)
          · exact F5 r2 hd nn hnn
        · -- processed closure
          intro x hx nx hnx j hj mj hmj
          rcases List.mem_append.mp hx with hxa | hxr
          · obtain ⟨nx0, hnx0, _, _, hdeq, _, _, _⟩ := OnlyMarks_back F1 hnx
            obtain ⟨mj0, hmj0, _, _, _, _, _, hmk⟩ := OnlyMarks_back F1 hmj
            exact hmk (h2 x hxa nx0 hnx0 j (hdeq ▸ hj) mj0 hmj0)
          · rw [List.mem_singleton] at hxr
            subst hxr
            obtain ⟨nx0, hnx0, _, _, hdeq, _, _, _⟩ := OnlyMarks_back F1 hnx
            rw [hfr] at hnx0
            obtain rfl := Option.some.inj hnx0
            exact F5 j (hdeq ▸ hj) mj hmj
        · -- marked in acc or queue
          intro x nn hx hm
          rcases F6 x nn hx hm with ⟨n0, hn0, hm0⟩ | hq
          · rcases h4 x n0 hn0 hm0 with hacc | hqq
            · exact Or.inl (List.mem_append.mpr (Or.inl hacc))
            · rcases List.mem_cons.mp hqq with rfl | hq2
              · exact Or.inl (List.mem_append.mpr (Or.inr (List.mem_singleton.mpr rfl)))
              · exact Or.inr (F3 x hq2)
          · exact Or.inr hq
        · -- marked implies R
          intro x nn hx hm
          rcases F6 x nn hx hm with ⟨n0, hn0, hm0⟩ | hq
          · exact h5 x n0 hn0 hm0
          · rcases F4 x hq with hq2 | hd
            · obtain ⟨n0, hn0, _, _, _, _, _, _⟩ := OnlyMarks_back F1 hx
              exact h5 x n0 hn0 (by
                have := h1 x (List.mem_cons_of_mem _ hq2) n0 hn0
                exact this)
            · exact hRcl r n x (h5 r n hfr hrm) hfr hd
        · -- closure of R transfers
          intro x nx j hRx hx hj
          obtain ⟨nx0, hnx0, _, _, hdeq, _, _, _⟩ := OnlyMarks_back F1 hx
          exact hRcl x nx0 j hRx hnx0 (hdeq ▸ hj)

theorem updS_at {s : GState} {j i : Nat} {g : RNode → RNode} {m : RNode}
    (hm : findN s.store i = some m) :
    findN (updS s j g).store i = some (if i = j then g m else m) := by
  rw [findN_updS]
  by_cases h : i = j
  · rw [if_pos h, if_pos h, hm]
    rfl
  · rw [if_neg h, if_neg h, hm]

theorem foldl_erase_fields {self : Nat} (L : List Nat) : ∀ (t : GState) (i : Nat) (m : RNode),
    findN t.store i = some m →
    ∃ m2, findN (L.foldl
      (fun t j => updS t j (fun n => { n with parents := n.parents.erase self })) t).store i
      = some m2 ∧ m2.killed = m.killed ∧ m2.mark = m.mark ∧
      m2.depends_on_list = m.depends_on_list ∧ m2.children = m.children ∧
      m2.render_of = m.render_of ∧ (∀ y, y ∈ m2.parents → y ∈ m.parents) := by
  induction L with
  | nil =>
    intro t i m hm
    exact ⟨m, hm, rfl, rfl, rfl, rfl, rfl, fun y hy => hy⟩
  | cons j rest ih =>
    intro t i m hm
    rw [List.foldl_cons]
    obtain ⟨m2, h2, e1, e2, e3, e4, e5, hsub⟩ := ih _ i _ (updS_at hm)
    by_cases hij : i = j
    · rw [if_pos hij] at e1 e2 e3 e4 e5 hsub
      refine ⟨m2, h2, e1, e2, e3, e4, e5, ?_⟩
      intro y hy
      exact List.mem_of_mem_erase (hsub y hy)
    · rw [if_neg hij] at e1 e2 e3 e4 e5 hsub
      exact ⟨m2, h2, e1, e2, e3, e4, e5, hsub⟩

theorem killTail_at (s4 : GState) (self : Nat) (n : RNode) (i : Nat) (m4 : RNode)
    (hm : findN s4.store i = some m4) :
    ∃ m2, findN (updS (if n.depends_on_list.isEmpty
        then { s4 with render_cache := removeFromCache s4.render_cache self n.render_of }
        else updS { s4 with render_cache := removeFromCache s4.render_cache self n.render_of }
          self (fun nn => { nn with depends_on_list := [], render_of := [], children := [] }))
      self (fun nn =>
        { nn with
            focuses := none, pass_focuses := none, cached_texture := none,
            cached_model := none })).store i = some m2 ∧
      m2.killed = m4.killed ∧ m2.mark = m4.mark ∧ m2.parents = m4.parents ∧
      (i ≠ self → m2.depends_on_list = m4.depends_on_list ∧ m2.children = m4.children ∧
        m2.render_of = m4.render_of) ∧
      (i = self → n.depends_on_list.isEmpty = false →
        m2.depends_on_list = [] ∧ m2.children = []) ∧
      (i = self → n.depends_on_list.isEmpty = true →
        m2.depends_on_list = m4.depends_on_list ∧ m2.children = m4.children) := by
  have h5 : findN ({ s4 with
      render_cache := removeFromCache s4.render_cache self n.render_of } : GState).store i
      = some m4 := hm
  by_cases he : n.depends_on_list.isEmpty = true
  · rw [if_pos he]
    have h6 := updS_at (j := self)
      (g := fun nn =>
        { nn with
            focuses := none, pass_focuses := none, cached_texture := none,
            cached_model := none }) h5
    by_cases his : i = self
    · rw [if_pos his] at h6
      refine ⟨_, h6, rfl, rfl, rfl, fun his2 => absurd his his2, ?_, ?_⟩
      · intro _ hne
        rw [hne] at he
        cases he
      · intro _ _
        exact ⟨rfl, rfl⟩
    · rw [if_neg his] at h6
      exact ⟨m4, h6, rfl, rfl, rfl, fun _ => ⟨rfl, rfl, rfl⟩,
        fun hs => absurd hs his, fun hs => absurd hs his⟩
  · rw [if_neg he]
    have h5b := updS_at (j := self)
      (g := fun nn => { nn with depends_on_list := [], render_of := [], children := [] }) h5
    by_cases his : i = self
    · rw [if_pos his] at h5b
      have h6 := updS_at (j := self)
        (g := fun nn =>
          { nn with
              focuses := none, pass_focuses := none, cached_texture := none,
              cached_model := none }) h5b
      rw [if_pos his] at h6
      refine ⟨_, h6, rfl, rfl, rfl, fun his2 => absurd his his2, ?_, ?_⟩
      · intro _ _
        exact ⟨rfl, rfl⟩
      · intro _ hemp
        rw [hemp] at he
        exact absurd rfl he
    · rw [if_neg his] at h5b
      have h6 := updS_at (j := self)
        (g := fun nn =>
          { nn with
              focuses := none, pass_focuses := none, cached_texture := none,
              cached_model := none }) h5b
      rw [if_neg his] at h6
      exact ⟨m4, h6, rfl, rfl, rfl, fun _ => ⟨rfl, rfl, rfl⟩,
        fun hs => absurd hs his, fun hs => absurd hs his⟩

theorem killFinish_at (s2 : GState) (self : Nat) (n : RNode) (i : Nat) (m : RNode)
    (hm : findN s2.store i = some m) :
    ∃ m2, findN (killFinish s2 self n).store i = some m2 ∧
      m2.killed = m.killed ∧ m2.mark = m.mark ∧
      (∀ y, y ∈ m2.parents → y ∈ m.parents) ∧
      (i ≠ self → m2.depends_on_list = m.depends_on_list ∧ m2.children = m.children ∧
        m2.render_of = m.render_of) ∧
      (i = self → n.depends_on_list.isEmpty = false →
        m2.depends_on_list = [] ∧ m2.children = []) ∧
      (i = self → n.depends_on_list.isEmpty = true →
        m2.depends_on_list = m.depends_on_list ∧ m2.children = m.children) := by
  simp only [killFinish]
  have h3 := updS_at (j := self) (g := fun nn => { nn with parents := [] }) hm
  obtain ⟨m4, h4, e1, e2, e3, e4, e5, hsub⟩ :=
    foldl_erase_fields n.depends_on_list _ i _ h3
  obtain ⟨m2, h6, f1, f2, f3, f4, f5, f6⟩ := killTail_at _ self n i m4 h4
  by_cases his : i = self
  · rw [if_pos his] at e1 e2 e3 e4 e5 hsub
    refine ⟨m2, h6, by rw [f1, e1], by rw [f2, e2], ?_, fun his2 => absurd his his2,
      f5, ?_⟩
    · intro y hy
      rw [f3] at hy
      exact absurd (hsub y hy) (by simp)
    · intro hs hemp
      obtain ⟨g1, g2⟩ := f6 hs hemp
      exact ⟨by rw [g1, e3], by rw [g2, e4]⟩
  · rw [if_neg his] at e1 e2 e3 e4 e5 hsub
    refine ⟨m2, h6, by rw [f1, e1], by rw [f2, e2], ?_, ?_,
      fun hs => absurd hs his, fun hs => absurd hs his⟩
    · intro y hy
      rw [f3] at hy
      exact hsub y hy
    · intro _
      obtain ⟨g1, g2, g3⟩ := f4 his
      exact ⟨by rw [g1, e3], by rw [g2, e4], by rw [g3, e5]⟩

theorem KShapeLight_refl (s : GState) : KShapeLight s s :=
  ⟨fun x n h => ⟨n, h, fun y hy => hy, fun h2 => h2, fun h2 => h2⟩, fun x h => h⟩

theorem KShapeLight_trans {a b c : GState} (h1 : KShapeLight a b) (h2 : KShapeLight b c) :
    KShapeLight a c := by
  refine ⟨?_, fun x h => h2.2 x (h1.2 x h)⟩
  intro x n h
  obtain ⟨n2, hb, p1, k1, m1⟩ := h1.1 x n h
  obtain ⟨n3, hc, p2, k2, m2⟩ := h2.1 x n2 hb
  exact ⟨n3, hc, fun y hy => p1 y (p2 y hy), fun hk => k2 (k1 hk), fun hm => m1 (m2 hm)⟩

theorem KShapeLight_back {s s2 : GState} (h : KShapeLight s s2) {x : Nat} {n2 : RNode}
    (h2 : findN s2.store x = some n2) :
    ∃ n, findN s.store x = some n ∧ (∀ y, y ∈ n2.parents → y ∈ n.parents) ∧
      (n.killed = true → n2.killed = true) ∧ (n2.mark = true → n.mark = true) := by
  cases hf : findN s.store x with
  | none =>
    rw [h.2 x hf] at h2
    cases h2
  | some n =>
    obtain ⟨n2b, hb, p1, k1, m1⟩ := h.1 x n hf
    rw [hb] at h2
    obtain rfl := Option.some.inj h2
    exact ⟨n, rfl, p1, k1, m1⟩

theorem KShapeLight_updS {s : GState} {j : Nat} {g : RNode → RNode}
    (hg : ∀ m, (∀ y, y ∈ (g m).parents → y ∈ m.parents) ∧
      (m.killed = true → (g m).killed = true) ∧ ((g m).mark = true → m.mark = true)) :
    KShapeLight s (updS s j g) := by
  refine ⟨?_, fun x h => findN_updS_none h⟩
  intro x n h
  rw [updS_at h]
  by_cases hxj : x = j
  · rw [if_pos hxj]
    exact ⟨g n, rfl, (hg n).1, (hg n).2.1, (hg n).2.2⟩
  · rw [if_neg hxj]
    exact ⟨n, rfl, fun y hy => hy, fun h2 => h2, fun h2 => h2⟩

theorem KShapeLight_killFinish (s2 : GState) (self : Nat) (n : RNode) :
    KShapeLight s2 (killFinish s2 self n) := by
  refine ⟨?_, fun x h => killFinish_none h⟩
  intro x m h
  obtain ⟨m2, h6, e1, e2, hp, _, _, _⟩ := killFinish_at s2 self n x m h
  exact ⟨m2, h6, hp, fun hk => e1 ▸ hk, fun hm => e2 ▸ hm⟩

theorem KShapeLight_killF : ∀ (f : Nat) (s : GState) (self : Nat),
    KShapeLight s (killF f s self) := by
  intro f
  induction f with
  | zero => intro s self; exact KShapeLight_refl s
  | succ f ih =>
    intro s self
    show KShapeLight s (killStep (killF f) s self)
    cases hf : findN s.store self with
    | none =>
      simp only [killStep, hf]
      exact KShapeLight_refl s
    | some n =>
      simp only [killStep, hf]
      by_cases hk : n.killed = true
      · rw [if_pos hk]
        exact KShapeLight_refl s
      · rw [if_neg hk]
        have hS1 : KShapeLight s (updS s self (fun m => { m with killed := true })) :=
          KShapeLight_updS (fun m => ⟨fun y hy => hy, fun _ => rfl, fun h2 => h2⟩)
        have hloop : ∀ (ps : List Nat) (t : GState),
            KShapeLight t (killList (killF f) t ps) := by
          intro ps
          induction ps with
          | nil => intro t; exact KShapeLight_refl t
          | cons q rest ihq =>
            intro t
            exact KShapeLight_trans (ih t q) (ihq (killF f t q))
        exact KShapeLight_trans (KShapeLight_trans hS1 (hloop n.parents _))
          (KShapeLight_killFinish _ self n)

/-- `Render.kill` flags nodes only inside any parent-closed set
containing its target: nothing outside the set is newly killed. -/
theorem killF_kills_only (P : Nat → Prop) : ∀ (f : Nat) (s : GState) (self : Nat),
    P self →
    (∀ x nx p, findN s.store x = some nx → P x → p ∈ nx.parents → P p) →
    ∀ i n n2, findN s.store i = some n → findN (killF f s self).store i = some n2 →
      n.killed = false → n2.killed = true → P i := by
  intro f
  induction f with
  | zero =>
    intro s self hP hcl i n n2 hn hn2 hk hk2
    have hn2b : findN s.store i = some n2 := hn2
    rw [hn] at hn2b
    obtain rfl := Option.some.inj hn2b
    rw [hk] at hk2
    cases hk2
  | succ f ih =>
    intro s self hP hcl i n n2 hn hn2 hk hk2
    rw [show killF (f + 1) s self = killStep (killF f) s self from rfl] at hn2
    cases hfs : findN s.store self with
    | none =>
      rw [show killStep (killF f) s self = s from by simp [killStep, hfs]] at hn2
      rw [hn] at hn2
      obtain rfl := Option.some.inj hn2
      rw [hk] at hk2
      cases hk2
    | some m =>
      by_cases hkm : m.killed = true
      · rw [show killStep (killF f) s self = s from by
          simp only [killStep, hfs]
          rw [if_pos hkm]] at hn2
        rw [hn] at hn2
        obtain rfl := Option.some.inj hn2
        rw [hk] at hk2
        cases hk2
      · by_cases hiself : i = self
        · exact hiself ▸ hP
        · rw [show killStep (killF f) s self
              = killFinish (killList (killF f)
                (updS s self (fun mm => { mm with killed := true })) m.parents) self m from by
            simp only [killStep, hfs]
            rw [if_neg hkm]] at hn2
          -- the node of i before the finish
          have hs1 : findN (updS s self (fun mm => { mm with killed := true })).store i
              = some n := by
            rw [updS_at hn, if_neg hiself]
          have hloopK : ∀ (ps : List Nat) (t : GState),
              (∀ p, p ∈ ps → P p) →
              (∀ x nx p, findN t.store x = some nx → P x → p ∈ nx.parents → P p) →
              ∀ i n n2, findN t.store i = some n →
                findN (killList (killF f) t ps).store i = some n2 →
                n.killed = false → n2.killed = true → P i := by
            intro ps
            induction ps with
            | nil =>
              intro t _ _ i n n2 h1 h2 h3 h4
              have h2b : findN t.store i = some n2 := h2
              rw [h1] at h2b
              obtain rfl := Option.some.inj h2b
              rw [h3] at h4
              cases h4
            | cons q rest ihq =>
              intro t hps hclt i n n2 h1 h2 h3 h4
              have hKq := KShapeLight_killF f t q
              obtain ⟨nq, hnq, hpq, hkq, _⟩ := hKq.1 i n h1
              by_cases hkq2 : nq.killed = true
              · exact ih t q (hps q (List.mem_cons_self _ _)) hclt i n nq h1 hnq h3 hkq2
              · refine ihq (killF f t q) (fun p hp => hps p (List.mem_cons_of_mem _ hp))
                  ?_ i nq n2 hnq h2 (Bool.not_eq_true _ ▸ hkq2) h4
                intro x nx p hx hPx hpx
                obtain ⟨nx0, hnx0, hpsub, _, _⟩ := KShapeLight_back hKq hx
                exact hclt x nx0 p hnx0 hPx (hpsub p hpx)
          -- node of i after the loop
          obtain ⟨ns2, hns2val⟩ :
              ∃ ns2, findN (killList (killF f)
                (updS s self (fun mm => { mm with killed := true })) m.parents).store i
                = some ns2 := by
            have hloopS : ∀ (ps : List Nat) (t : GState),
                KShapeLight t (killList (killF f) t ps) := by
              intro ps
              induction ps with
              | nil => intro t; exact KShapeLight_refl t
              | cons q rest ihq =>
                intro t
                exact KShapeLight_trans (KShapeLight_killF f t q) (ihq (killF f t q))
            obtain ⟨ns2, h, _, _, _⟩ := (hloopS m.parents _).1 i n hs1
            exact ⟨ns2, h⟩
          obtain ⟨mfin, hmfin, ef1, _, _, _, _, _⟩ :=
            killFinish_at _ self m i ns2 hns2val
          rw [hmfin] at hn2
          obtain rfl := Option.some.inj hn2
          rw [ef1] at hk2
          -- i was newly killed inside the loop
          have hcl1 : ∀ x nx p, findN (updS s self
              (fun mm => { mm with killed := true })).store x = some nx →
              P x → p ∈ nx.parents → P p := by
            intro x nx p hx hPx hpx
            rw [findN_updS] at hx
            by_cases hxs : x = self
            · subst hxs
              rw [if_pos rfl, hfs] at hx
              obtain rfl := Option.some.inj hx
              exact hcl x m p hfs hPx hpx
            · rw [if_neg hxs] at hx
              exact hcl x nx p hx hPx hpx
          have hroots : ∀ p, p ∈ m.parents → P p := fun p hp => hcl self m p hfs hP hp
          exact hloopK m.parents _ hroots hcl1 i n ns2 hs1 hns2val hk hk2

theorem killF_killedQ_mono : ∀ (f : Nat) (s : GState) (self i : Nat) (n : RNode),
    findN s.store i = some n → n.killed = true →
    ∃ n2, findN (killF f s self).store i = some n2 ∧ n2.killed = true ∧
      n2.depends_on_list = n.depends_on_list ∧ n2.children = n.children := by
  intro f
  induction f with
  | zero => intro s self i n hn hk; exact ⟨n, hn, hk, rfl, rfl⟩
  | succ f ih =>
    intro s self i n hn hk
    rw [show killF (f + 1) s self = killStep (killF f) s self from rfl]
    cases hfs : findN s.store self with
    | none =>
      rw [show killStep (killF f) s self = s from by simp [killStep, hfs]]
      exact ⟨n, hn, hk, rfl, rfl⟩
    | some m =>
      by_cases hkm : m.killed = true
      · rw [show killStep (killF f) s self = s from by
          simp only [killStep, hfs]
          rw [if_pos hkm]]
        exact ⟨n, hn, hk, rfl, rfl⟩
      · rw [show killStep (killF f) s self
            = killFinish (killList (killF f)
              (updS s self (fun mm => { mm with killed := true })) m.parents) self m from by
          simp only [killStep, hfs]
          rw [if_neg hkm]]
        have his : i ≠ self := by
          intro h
          rw [h, hfs] at hn
          obtain rfl := Option.some.inj hn
          exact hkm hk
        have hs1 : findN (updS s self
            (fun mm => { mm with killed := true })).store i = some n := by
          rw [updS_at hn, if_neg his]
        have hloop : ∀ (ps : List Nat) (t : GState) (j : Nat) (nn : RNode),
            findN t.store j = some nn → nn.killed = true →
            ∃ n2, findN (killList (killF f) t ps).store j = some n2 ∧
              n2.killed = true ∧ n2.depends_on_list = nn.depends_on_list ∧
              n2.children = nn.children := by
          intro ps
          induction ps with
          | nil => intro t j nn h1 h2; exact ⟨nn, h1, h2, rfl, rfl⟩
          | cons q rest ihq =>
            intro t j nn h1 h2
            obtain ⟨n2, h3, h4, h5, h6⟩ := ih t q j nn h1 h2
            obtain ⟨n3, h7, h8, h9, h10⟩ := ihq _ j n2 h3 h4
            exact ⟨n3, h7, h8, h9.trans h5, h10.trans h6⟩
        obtain ⟨n2, h3, h4, h5, h6⟩ := hloop m.parents _ i n hs1 hk
        obtain ⟨n3, h7, e1, _, _, f4, _, _⟩ := killFinish_at _ self m i n2 h3
        obtain ⟨g1, g2, _⟩ := f4 his
        exact ⟨n3, h7, e1 ▸ h4, g1.trans h5, g2.trans h6⟩

/-- What one `kill` call can do to any unkilled node: either it stays
alive with all its lists intact (parents possibly pruned), or it is
killed — and then, if it had dependencies, its `depends_on_list` and
`children` are cleared. -/
theorem killF_effect : ∀ (f : Nat) (s : GState) (self i : Nat) (n0 : RNode),
    findN s.store i = some n0 → n0.killed = false →
    ∃ n2, findN (killF f s self).store i = some n2 ∧
      ((n2.killed = false ∧ n2.mark = n0.mark ∧
        n2.depends_on_list = n0.depends_on_list ∧ n2.children = n0.children ∧
        n2.render_of = n0.render_of ∧ (∀ y, y ∈ n2.parents → y ∈ n0.parents)) ∨
       (n2.killed = true ∧ (n0.depends_on_list.isEmpty = false →
          n2.depends_on_list = [] ∧ n2.children = []))) := by
  intro f
  induction f with
  | zero =>
    intro s self i n0 hn hk
    exact ⟨n0, hn, Or.inl ⟨hk, rfl, rfl, rfl, rfl, fun y hy => hy⟩⟩
  | succ f ih =>
    intro s self i n0 hn hk
    rw [show killF (f + 1) s self = killStep (killF f) s self from rfl]
    cases hfs : findN s.store self with
    | none =>
      rw [show killStep (killF f) s self = s from by simp [killStep, hfs]]
      exact ⟨n0, hn, Or.inl ⟨hk, rfl, rfl, rfl, rfl, fun y hy => hy⟩⟩
    | some m =>
      by_cases hkm : m.killed = true
      · rw [show killStep (killF f) s self = s from by
          simp only [killStep, hfs]
          rw [if_pos hkm]]
        exact ⟨n0, hn, Or.inl ⟨hk, rfl, rfl, rfl, rfl, fun y hy => hy⟩⟩
      · rw [show killStep (killF f) s self
            = killFinish (killList (killF f)
              (updS s self (fun mm => { mm with killed := true })) m.parents) self m from by
          simp only [killStep, hfs]
          rw [if_neg hkm]]
        have hloopQ : ∀ (ps : List Nat) (t : GState) (j : Nat) (nn : RNode),
            findN t.store j = some nn → nn.killed = true →
            ∃ n2, findN (killList (killF f) t ps).store j = some n2 ∧
              n2.killed = true ∧ n2.depends_on_list = nn.depends_on_list ∧
              n2.children = nn.children := by
          intro ps
          induction ps with
          | nil => intro t j nn h1 h2; exact ⟨nn, h1, h2, rfl, rfl⟩
          | cons q rest ihq =>
            intro t j nn h1 h2
            obtain ⟨n2, h3, h4, h5, h6⟩ := killF_killedQ_mono f t q j nn h1 h2
            obtain ⟨n3, h7, h8, h9, h10⟩ := ihq _ j n2 h3 h4
            exact ⟨n3, h7, h8, h9.trans h5, h10.trans h6⟩
        by_cases his : i = self
        · subst his
          rw [hn] at hfs
          obtain rfl := Option.some.inj hfs
          have hs1 : findN (updS s i
              (fun mm => { mm with killed := true })).store i
              = some { n0 with killed := true } := by
            rw [updS_at hn, if_pos rfl]
          obtain ⟨n2, h3, h4, h5, h6⟩ := hloopQ n0.parents _ i _ hs1 rfl
          obtain ⟨n3, h7, e1, _, _, _, f5, f6⟩ := killFinish_at _ i n0 i n2 h3
          refine ⟨n3, h7, Or.inr ⟨e1 ▸ h4, ?_⟩⟩
          intro hne
          exact f5 rfl hne
        · have hs1 : findN (updS s self
              (fun mm => { mm with killed := true })).store i = some n0 := by
            rw [updS_at hn, if_neg his]
          have hloopE : ∀ (ps : List Nat) (t : GState) (j : Nat) (nn : RNode),
              findN t.store j = some nn → nn.killed = false →
              ∃ n2, findN (killList (killF f) t ps).store j = some n2 ∧
                ((n2.killed = false ∧ n2.mark = nn.mark ∧
                  n2.depends_on_list = nn.depends_on_list ∧ n2.children = nn.children ∧
                  n2.render_of = nn.render_of ∧ (∀ y, y ∈ n2.parents → y ∈ nn.parents)) ∨
                 (n2.killed = true ∧ (nn.depends_on_list.isEmpty = false →
                    n2.depends_on_list = [] ∧ n2.children = []))) := by
            intro ps
            induction ps with
            | nil =>
              intro t j nn h1 h2
              exact ⟨nn, h1, Or.inl ⟨h2, rfl, rfl, rfl, rfl, fun y hy => hy⟩⟩
            | cons q rest ihq =>
              intro t j nn h1 h2
              obtain ⟨n2, h3, hd⟩ := ih t q j nn h1 h2
              rcases hd with ⟨hk2, hm2, hd2, hc2, hr2, hp2⟩ | ⟨hk2, hcl2⟩
              · obtain ⟨n3, h7, hd3⟩ := ihq _ j n2 h3 hk2
                rcases hd3 with ⟨hk3, hm3, hd3b, hc3, hr3, hp3⟩ | ⟨hk3, hcl3⟩
                · exact ⟨n3, h7, Or.inl ⟨hk3, hm3.trans hm2, hd3b.trans hd2,
                    hc3.trans hc2, hr3.trans hr2, fun y hy => hp2 y (hp3 y hy)⟩⟩
                · refine ⟨n3, h7, Or.inr ⟨hk3, ?_⟩⟩
                  intro hne
                  exact hcl3 (by rw [hd2]; exact hne)
              · obtain ⟨n3, h7, h8, h9, h10⟩ := hloopQ rest _ j n2 h3 hk2
                refine ⟨n3, h7, Or.inr ⟨h8, ?_⟩⟩
                intro hne
                obtain ⟨g1, g2⟩ := hcl2 hne
                exact ⟨h9.trans g1, h10.trans g2⟩
          obtain ⟨n2, h3, hd⟩ := hloopE m.parents _ i n0 hs1 hk
          obtain ⟨n3, h7, e1, e2, hpar, f4, _, _⟩ := killFinish_at _ self m i n2 h3
          obtain ⟨g1, g2, g3⟩ := f4 his
          rcases hd with ⟨hk2, hm2, hd2, hc2, hr2, hp2⟩ | ⟨hk2, hcl2⟩
          · exact ⟨n3, h7, Or.inl ⟨e1 ▸ hk2, e2.trans hm2, g1.trans hd2,
              g2.trans hc2, g3.trans hr2, fun y hy => hp2 y (hpar y hy)⟩⟩
          · refine ⟨n3, h7, Or.inr ⟨e1 ▸ hk2, ?_⟩⟩
            intro hne
            obtain ⟨k1, k2⟩ := hcl2 hne
            exact ⟨g1.trans k1, g2.trans k2⟩

theorem videoMark_off {s : GState} (h : s.emscripten = false) : videoMark s = s := by
  unfold videoMark
  rw [h]
  rfl

theorem sweepKill_cons (t : GState) (r : Nat) (rest : List Nat) :
    sweepKill t (r :: rest) = sweepKill (sweepStep t r) rest := rfl

theorem sweepStep_none {t : GState} {r : Nat} (h : findN t.store r = none) :
    sweepStep t r = t := by
  unfold sweepStep
  rw [h]

theorem sweepStep_marked {t : GState} {r : Nat} {n : RNode}
    (h : findN t.store r = some n) (hm : n.mark = true) :
    sweepStep t r = setMark t r false := by
  unfold sweepStep
  rw [h]
  exact if_pos hm

theorem sweepStep_unmarked {t : GState} {r : Nat} {n : RNode}
    (h : findN t.store r = some n) (hm : ¬ n.mark = true) :
    sweepStep t r = killF (t.store.length + 1) t r := by
  unfold sweepStep
  rw [h]
  exact if_neg hm

theorem KShapeLight_setMarkFalse (t : GState) (r : Nat) :
    KShapeLight t (setMark t r false) :=
  KShapeLight_updS (fun m => ⟨fun y hy => hy, fun h => h, fun h => by cases h⟩)

/-- Safety of the sweep for marked nodes: given that parents of unmarked
nodes are unmarked (in the pre-sweep state `S`), every node marked in
`S` survives the whole sweep unkilled, with its dependency, child and
render_of lists intact and its parents only pruned. -/
theorem sweepKill_markedAll (S : GState)
    (hclS : ∀ u nu p np, findN S.store u = some nu → nu.mark = false →
      p ∈ nu.parents → findN S.store p = some np → np.mark = false) :
    ∀ (live : List Nat) (t : GState), live.Nodup →
    KShapeLight S t →
    (∀ x nS, findN S.store x = some nS → nS.mark = true →
      ∃ n, findN t.store x = some n ∧ n.killed = false ∧
        n.depends_on_list = nS.depends_on_list ∧ n.children = nS.children ∧
        n.render_of = nS.render_of ∧ (∀ y, y ∈ n.parents → y ∈ nS.parents) ∧
        (n.mark = true ∨ x ∉ live)) →
    ∀ x nS, findN S.store x = some nS → nS.mark = true →
      ∃ n2, findN (sweepKill t live).store x = some n2 ∧ n2.killed = false ∧
        n2.depends_on_list = nS.depends_on_list ∧ n2.children = nS.children ∧
        n2.render_of = nS.render_of ∧ (∀ y, y ∈ n2.parents → y ∈ nS.parents) := by
  intro live
  induction live with
  | nil =>
    intro t _ _ hJ x nS hxS hmS
    obtain ⟨n, h1, h2, h3, h4, h5, h6, _⟩ := hJ x nS hxS hmS
    exact ⟨n, h1, h2, h3, h4, h5, h6⟩
  | cons r rest ih =>
    intro t hnd hKS hJ x nS hxS hmS
    rw [sweepKill_cons]
    rw [List.nodup_cons] at hnd
    cases hfr : findN t.store r with
    | none =>
      rw [sweepStep_none hfr]
      refine ih t hnd.2 hKS ?_ x nS hxS hmS
      intro x2 nS2 h1 h2
      obtain ⟨n, g1, g2, g3, g4, g5, g6, g7⟩ := hJ x2 nS2 h1 h2
      refine ⟨n, g1, g2, g3, g4, g5, g6, ?_⟩
      rcases g7 with h | h
      · exact Or.inl h
      · exact Or.inr (fun hx => h (List.mem_cons_of_mem _ hx))
    | some nr =>
      by_cases hmr : nr.mark = true
      · rw [sweepStep_marked hfr hmr]
        refine ih (setMark t r false) hnd.2
          (KShapeLight_trans hKS (KShapeLight_setMarkFalse t r)) ?_ x nS hxS hmS
        intro x2 nS2 h1 h2
        obtain ⟨n, g1, g2, g3, g4, g5, g6, g7⟩ := hJ x2 nS2 h1 h2
        have hup := updS_at (j := r) (g := fun m => { m with mark := false }) g1
        by_cases hxr : x2 = r
        · rw [if_pos hxr] at hup
          exact ⟨_, hup, g2, g3, g4, g5, g6, Or.inr (hxr ▸ hnd.1)⟩
        · rw [if_neg hxr] at hup
          refine ⟨n, hup, g2, g3, g4, g5, g6, ?_⟩
          rcases g7 with h | h
          · exact Or.inl h
          · exact Or.inr (fun hx => h (List.mem_cons_of_mem _ hx))
      · rw [sweepStep_unmarked hfr hmr]
        -- r is unmarked in S: otherwise the invariant would make it marked here
        have hPr : ∀ np, findN S.store r = some np → np.mark = false := by
          intro np hnp
          by_contra hco
          have hmt : np.mark = true := by
            cases hmm : np.mark
            · exact absurd hmm hco
            · rfl
          obtain ⟨n, g1, _, _, _, _, _, g7⟩ := hJ r np hnp hmt
          rw [hfr] at g1
          obtain rfl := Option.some.inj g1
          rcases g7 with h | h
          · exact hmr h
          · exact h (List.mem_cons_self _ _)
        have hclT : ∀ y ny p, findN t.store y = some ny →
            (∀ np, findN S.store y = some np → np.mark = false) →
            p ∈ ny.parents → ∀ np, findN S.store p = some np → np.mark = false := by
          intro y ny p hy hPy hp np hnp
          obtain ⟨nyS, hnyS, hsub, _, _⟩ := KShapeLight_back hKS hy
          exact hclS y nyS p np hnyS (hPy nyS hnyS) (hsub p hp) hnp
        refine ih (killF (t.store.length + 1) t r) hnd.2
          (KShapeLight_trans hKS (KShapeLight_killF _ t r)) ?_ x nS hxS hmS
        intro x2 nS2 h1 h2
        obtain ⟨n, g1, g2, g3, g4, g5, g6, g7⟩ := hJ x2 nS2 h1 h2
        obtain ⟨n2, h3, hd⟩ := killF_effect (t.store.length + 1) t r x2 n g1 g2
        rcases hd with ⟨k1, k2, k3, k4, k5, k6⟩ | ⟨k1, _⟩
        · refine ⟨n2, h3, k1, k3.trans g3, k4.trans g4, k5.trans g5,
            fun y hy => g6 y (k6 y hy), ?_⟩
          rcases g7 with h | h
          · exact Or.inl (k2.trans h)
          · exact Or.inr (fun hx => h (List.mem_cons_of_mem _ hx))
        · exfalso
          have hPx := killF_kills_only
            (fun z => ∀ np, findN S.store z = some np → np.mark = false)
            (t.store.length + 1) t r hPr hclT x2 n n2 g1 h3 g2 k1
          rw [hPx nS2 h1] at h2
          cases h2

theorem sweepKill_cleared_mono (nS : RNode) : ∀ (live : List Nat) (t : GState) (u : Nat),
    (∃ n, findN t.store u = some n ∧ n.killed = true ∧
      (nS.depends_on_list.isEmpty = false →
        n.depends_on_list = [] ∧ n.children = [])) →
    ∃ n2, findN (sweepKill t live).store u = some n2 ∧ n2.killed = true ∧
      (nS.depends_on_list.isEmpty = false →
        n2.depends_on_list = [] ∧ n2.children = []) := by
  intro live
  induction live with
  | nil => intro t u h; exact h
  | cons r rest ih =>
    intro t u h
    obtain ⟨n, h1, h2, h3⟩ := h
    rw [sweepKill_cons]
    cases hfr : findN t.store r with
    | none =>
      rw [sweepStep_none hfr]
      exact ih t u ⟨n, h1, h2, h3⟩
    | some nr =>
      by_cases hmr : nr.mark = true
      · rw [sweepStep_marked hfr hmr]
        refine ih _ u ?_
        have hup := updS_at (j := r) (g := fun m => { m with mark := false }) h1
        by_cases hur : u = r
        · rw [if_pos hur] at hup
          exact ⟨_, hup, h2, h3⟩
        · rw [if_neg hur] at hup
          exact ⟨n, hup, h2, h3⟩
      · rw [sweepStep_unmarked hfr hmr]
        obtain ⟨n2, g1, g2, g3, g4⟩ :=
          killF_killedQ_mono (t.store.length + 1) t r u n h1 h2
        refine ih _ u ⟨n2, g1, g2, ?_⟩
        intro hne
        obtain ⟨k1, k2⟩ := h3 hne
        exact ⟨g3.trans k1, g4.trans k2⟩

/-- The sweep kills every live-list node that is unmarked, and — when
the node had dependencies — clears its dependency and child lists. -/
theorem sweepKill_kills (nS : RNode) : ∀ (live : List Nat) (t : GState) (u : Nat),
    u ∈ live →
    (∃ n, findN t.store u = some n ∧
      ((n.killed = false ∧ n.mark = false ∧
        n.depends_on_list = nS.depends_on_list ∧ n.children = nS.children) ∨
       (n.killed = true ∧ (nS.depends_on_list.isEmpty = false →
        n.depends_on_list = [] ∧ n.children = [])))) →
    ∃ n2, findN (sweepKill t live).store u = some n2 ∧ n2.killed = true ∧
      (nS.depends_on_list.isEmpty = false →
        n2.depends_on_list = [] ∧ n2.children = []) := by
  intro live
  induction live with
  | nil =>
    intro t u hu
    cases hu
  | cons r rest ih =>
    intro t u hu h
    obtain ⟨n, h1, hd⟩ := h
    by_cases hur : u = r
    · subst hur
      rcases hd with ⟨k1, k2, k3, k4⟩ | hcl
      · rw [sweepKill_cons, sweepStep_unmarked h1 (by rw [k2]; exact Bool.false_ne_true)]
        obtain ⟨nf, hf1, hf2⟩ := killF_flags t.store.length t u n h1 k1
        obtain ⟨nf2, hg1, hgd⟩ := killF_effect (t.store.length + 1) t u u n h1 k1
        rw [hf1] at hg1
        obtain rfl := Option.some.inj hg1
        rcases hgd with ⟨hbad, _⟩ | ⟨_, hcond⟩
        · rw [hf2] at hbad
          cases hbad
        · refine sweepKill_cleared_mono nS rest _ u ⟨nf, hf1, hf2, ?_⟩
          intro hne
          exact hcond (by rw [k3]; exact hne)
      · exact sweepKill_cleared_mono nS (u :: rest) t u ⟨n, h1, hcl.1, hcl.2⟩
    · have hu2 : u ∈ rest := by
        rcases List.mem_cons.mp hu with h | h
        · exact absurd h hur
        · exact h
      rw [sweepKill_cons]
      cases hfr : findN t.store r with
      | none =>
        rw [sweepStep_none hfr]
        exact ih _ u hu2 ⟨n, h1, hd⟩
      | some nr =>
        by_cases hmr : nr.mark = true
        · rw [sweepStep_marked hfr hmr]
          have hup := updS_at (j := r) (g := fun m => { m with mark := false }) h1
          rw [if_neg hur] at hup
          exact ih _ u hu2 ⟨n, hup, hd⟩
        · rw [sweepStep_unmarked hfr hmr]
          rcases hd with ⟨k1, k2, k3, k4⟩ | ⟨k1, k2⟩
          · obtain ⟨n2, g1, hgd⟩ := killF_effect (t.store.length + 1) t r u n h1 k1
            rcases hgd with ⟨m1, m2, m3, m4, _, _⟩ | ⟨m1, m2⟩
            · exact ih _ u hu2 ⟨n2, g1, Or.inl ⟨m1, m2.trans k2, m3.trans k3, m4.trans k4⟩⟩
            · refine ih _ u hu2 ⟨n2, g1, Or.inr ⟨m1, ?_⟩⟩
              intro hne
              exact m2 (by rw [k3]; exact hne)
          · obtain ⟨n2, g1, g2, g3, g4⟩ :=
              killF_killedQ_mono (t.store.length + 1) t r u n h1 k1
            refine ih _ u hu2 ⟨n2, g1, Or.inr ⟨g2, ?_⟩⟩
            intro hne
            obtain ⟨w1, w2⟩ := k2 hne
            exact ⟨g3.trans w1, g4.trans w2⟩

/-- Transfer a per-entry property of a concrete store to all successful
lookups. -/
theorem node_prop_of_store (s : GState) (P : RNode → Prop)
    (h : ∀ p, p ∈ s.store → P p.2) : ∀ x n, findN s.store x = some n → P n :=
  fun x n hx => h (x, n) (findN_some_mem hx)

/-- The inversion invariant follows from its restriction to the entries
of the store, which is decidable on a concrete state. -/
theorem LiveInv_of_forall (s : GState)
    (h : ∀ p, p ∈ s.store → ∀ q, q ∈ s.store →
      findN s.store p.1 = some p.2 → findN s.store q.1 = some q.2 →
      p.2.killed = false → q.2.killed = false →
      (q.1 ∈ p.2.parents ↔ p.1 ∈ q.2.depends_on_list)) : LiveInv s :=
  fun a na b nb hfa hfb hka hkb =>
    h (a, na) (findN_some_mem hfa) (b, nb) (findN_some_mem hfb) hfa hfb hka hkb

theorem mark_sweep_eq (s : GState) :
    mark_sweep s = { sweepKill (videoMark (gcStep s).1) s.live_renders with
      live_renders := (gcStep s).2 } := rfl

/-- C2 (counterexample): on `exS2` the reachable node `1` is not killed,
but its fields are not untouched — killing the unreachable node `2`
discards `2` from `1`'s `parents`, shrinking it from `[0, 2]` to `[0]`;
and the unreachable node `3` is killed with its nonempty `children` list
intact, because `Render.kill` clears the lists only when
`depends_on_list` is nonempty. -/
theorem gc_safety_cex :
    exN2b.parents = [0, 2] ∧
    findN (mark_sweep exS2).store 1 = some exM2n1 ∧
    exM2n1.killed = false ∧ exM2n1.parents = [0] ∧
    findN (mark_sweep exS2).store 3 = some exM2n3 ∧
    exM2n3.killed = true ∧ exM2n3.depends_on_list = [] ∧
    exM2n3.children = exN2c.children ∧ exN2c.children ≠ [] := by
  refine ⟨rfl, rfl, ?_, ?_, rfl, ?_, ?_, ?_, ?_⟩ <;> decide

/-- C2 (amended): starting from a state satisfying the inversion
invariant, with every `mark` and `killed` flag clear, a duplicate-free
live-render list, and emscripten off, `mark_sweep` (i) keeps every node
reachable from the GC roots through `depends_on` edges alive — its
`killed` flag stays `false` and its `depends_on_list`, `children` and
`render_of` are untouched, though its `parents` list may only shrink —
and (ii) kills every unreachable node of the live-render list, clearing
its `children` and `depends_on_list` provided the dependency list was
nonempty. -/
theorem gc_safety_amended (s : GState)
    (hinv : LiveInv s)
    (hmk : ∀ x n, findN s.store x = some n → n.mark = false)
    (hkd : ∀ x n, findN s.store x = some n → n.killed = false)
    (hnd : s.live_renders.Nodup)
    (hem : s.emscripten = false) :
    (∀ x nS, findN s.store x = some nS → Reaches s (gcRoots s) x →
      ∃ n2, findN (mark_sweep s).store x = some n2 ∧ n2.killed = false ∧
        n2.depends_on_list = nS.depends_on_list ∧ n2.children = nS.children ∧
        n2.render_of = nS.render_of ∧ (∀ y, y ∈ n2.parents → y ∈ nS.parents)) ∧
    (∀ x nS, x ∈ s.live_renders → ¬ Reaches s (gcRoots s) x →
      findN s.store x = some nS →
      ∃ n2, findN (mark_sweep s).store x = some n2 ∧ n2.killed = true ∧
        (nS.depends_on_list.isEmpty = false →
          n2.depends_on_list = [] ∧ n2.children = [])) := by
  have hOM1 : OnlyMarks s (gcS1 s) := markRoots_OnlyMarks (gcRoots s) s
  have hfuel : (gcRoots s).length + cntM (gcS1 s)
      ≤ (gcRoots s).length + (gcS1 s).store.length + 1 := by
    have hle : cntM (gcS1 s) ≤ (gcS1 s).store.length := List.length_filter_le _ _
    omega
  have h1 : ∀ r, r ∈ gcRoots s → ∀ n, findN (gcS1 s).store r = some n →
      n.mark = true :=
    fun r hr n hn => markRoots_marks (gcRoots s) s r hr n hn
  have h2 : ∀ x, x ∈ ([] : List Nat) → ∀ nx, findN (gcS1 s).store x = some nx →
      ∀ j, j ∈ nx.depends_on_list → ∀ mj, findN (gcS1 s).store j = some mj →
        mj.mark = true :=
    fun x hx => absurd hx (List.not_mem_nil x)
  have hsub := markRoots_marked_sub (gcRoots s) s (fun _ => False)
    (by
      intro x n hx hm
      rw [hmk x n hx] at hm
      cases hm)
  have h4 : ∀ x n, findN (gcS1 s).store x = some n → n.mark = true →
      x ∈ ([] : List Nat) ∨ x ∈ gcRoots s := by
    intro x n hx hm
    rcases hsub x n hx hm with hF | hr
    · cases hF
    · exact Or.inr hr
  have h5 : ∀ x n, findN (gcS1 s).store x = some n → n.mark = true →
      Reaches s (gcRoots s) x := by
    intro x n hx hm
    rcases hsub x n hx hm with hF | hr
    · cases hF
    · exact Reaches.root hr
  have hRcl : ∀ x nx j, Reaches s (gcRoots s) x → findN (gcS1 s).store x = some nx →
      j ∈ nx.depends_on_list → Reaches s (gcRoots s) j := by
    intro x nx j hR hx hj
    obtain ⟨n0, hx0, _, _, hd0, _, _, _⟩ := OnlyMarks_back hOM1 hx
    exact Reaches.step hR hx0 (hd0 ▸ hj)
  have hbfs := bfs_main (Reaches s (gcRoots s))
    ((gcRoots s).length + (gcS1 s).store.length + 1) (gcRoots s) [] (gcS1 s)
    hfuel h1 h2 h4 h5 hRcl
  have hgs : bfsF ((gcRoots s).length + (gcS1 s).store.length + 1) (gcS1 s)
      (gcRoots s) [] = gcStep s := rfl
  rw [hgs] at hbfs
  obtain ⟨hOM2, hexit⟩ := hbfs
  have hOM : OnlyMarks s (gcStep s).1 := OnlyMarks_trans hOM1 hOM2
  have hreachm : ∀ x, Reaches s (gcRoots s) x →
      ∀ n, findN (gcStep s).1.store x = some n → n.mark = true := by
    intro x hx
    induction hx with
    | @root r hr =>
      intro n hn
      cases hf1 : findN (gcS1 s).store r with
      | none =>
        rw [hOM2.2.1 r hf1] at hn
        cases hn
      | some m =>
        have hm : m.mark = true := markRoots_marks (gcRoots s) s r hr m hf1
        have h2b := marked_mono_OnlyMarks hOM2 hf1 hm
        rw [h2b] at hn
        obtain rfl := Option.some.inj hn
        exact hm
    | @step a na j ha hf hj ih =>
      intro n hn
      rcases hOM.1 a na hf with hb | ⟨_, hb⟩
      · have hma := ih na hb
        exact (hexit a na hb hma).1 j hj n hn
      · have hma := ih _ hb
        exact (hexit a _ hb hma).1 j hj n hn
  have hclS : ∀ u nu p np, findN (gcStep s).1.store u = some nu → nu.mark = false →
      p ∈ nu.parents → findN (gcStep s).1.store p = some np → np.mark = false := by
    intro u nu p np hu hum hp hpn
    by_contra hnp
    have hnpm : np.mark = true := by
      cases h : np.mark
      · exact absurd h hnp
      · rfl
    have hLI : LiveInv (gcStep s).1 := LiveInv_OnlyMarks hOM hinv
    obtain ⟨nu0, hu0, hku, _, _, _, _, _⟩ := OnlyMarks_back hOM hu
    obtain ⟨np0, hp0, hkp, _, _, _, _, _⟩ := OnlyMarks_back hOM hpn
    have hku2 : nu.killed = false := by rw [hku]; exact hkd u nu0 hu0
    have hkp2 : np.killed = false := by rw [hkp]; exact hkd p np0 hp0
    have hmem : u ∈ np.depends_on_list := (hLI u nu p np hu hpn hku2 hkp2).mp hp
    have hbad := (hexit p np hpn hnpm).1 u hmem nu hu
    rw [hum] at hbad
    cases hbad
  have hSem : (gcStep s).1.emscripten = false := by rw [hOM.2.2.1]; exact hem
  have hvm : videoMark (gcStep s).1 = (gcStep s).1 := videoMark_off hSem
  have hms : (mark_sweep s).store = (sweepKill (gcStep s).1 s.live_renders).store := by
    rw [mark_sweep_eq s, hvm]
  have hJ : ∀ x2 nS2, findN (gcStep s).1.store x2 = some nS2 → nS2.mark = true →
      ∃ n, findN (gcStep s).1.store x2 = some n ∧ n.killed = false ∧
        n.depends_on_list = nS2.depends_on_list ∧ n.children = nS2.children ∧
        n.render_of = nS2.render_of ∧ (∀ y, y ∈ n.parents → y ∈ nS2.parents) ∧
        (n.mark = true ∨ x2 ∉ s.live_renders) := by
    intro x2 nS2 hx2 hm2
    obtain ⟨n0, h0, hk0, _, _, _, _, _⟩ := OnlyMarks_back hOM hx2
    exact ⟨nS2, hx2, by rw [hk0]; exact hkd x2 n0 h0, rfl, rfl, rfl,
      fun y hy => hy, Or.inl hm2⟩
  constructor
  · intro x nS hx hR
    have hmarked := hreachm x hR
    rcases hOM.1 x nS hx with hb | ⟨_, hb⟩
    · have hm' : nS.mark = true := hmarked nS hb
      obtain ⟨n2, g1, g2, g3, g4, g5, g6⟩ :=
        sweepKill_markedAll (gcStep s).1 hclS s.live_renders (gcStep s).1
          hnd (KShapeLight_refl _) hJ x nS hb hm'
      refine ⟨n2, ?_, g2, g3, g4, g5, g6⟩
      rw [hms]
      exact g1
    · have hm' : ({ nS with mark := true }).mark = true := rfl
      obtain ⟨n2, g1, g2, g3, g4, g5, g6⟩ :=
        sweepKill_markedAll (gcStep s).1 hclS s.live_renders (gcStep s).1
          hnd (KShapeLight_refl _) hJ x { nS with mark := true } hb hm'
      refine ⟨n2, ?_, g2, g3, g4, g5, g6⟩
      rw [hms]
      exact g1
  · intro x nS hxl hnR hx
    have hSn : findN (gcStep s).1.store x = some nS := by
      rcases hOM.1 x nS hx with hb | ⟨_, hb⟩
      · exact hb
      · exact absurd ((hexit x _ hb rfl).2) hnR
    have hmS : nS.mark = false := hmk x nS hx
    have hkS : nS.killed = false := hkd x nS hx
    obtain ⟨n2, g1, g2, g3⟩ :=
      sweepKill_kills nS s.live_renders (gcStep s).1 x hxl
        ⟨nS, hSn, Or.inl ⟨hkS, hmS, rfl, rfl⟩⟩
    refine ⟨n2, ?_, g2, g3⟩
    rw [hms]
    exact g1

theorem gc_safety_amended_w :
    (∃ n2, findN (mark_sweep exS2).store 1 = some n2 ∧ n2.killed = false ∧
      n2.depends_on_list = exN2b.depends_on_list ∧ n2.children = exN2b.children ∧
      n2.render_of = exN2b.render_of ∧ (∀ y, y ∈ n2.parents → y ∈ exN2b.parents)) ∧
    (∃ n2, findN (mark_sweep exS2).store 2 = some n2 ∧ n2.killed = true ∧
      (exN2u.depends_on_list.isEmpty = false →
        n2.depends_on_list = [] ∧ n2.children = [])) := by
  have hinv : LiveInv exS2 := LiveInv_of_forall exS2 (by decide)
  have hmk : ∀ x n, findN exS2.store x = some n → n.mark = false :=
    node_prop_of_store exS2 (fun n => n.mark = false) (by decide)
  have hkd : ∀ x n, findN exS2.store x = some n → n.killed = false :=
    node_prop_of_store exS2 (fun n => n.killed = false) (by decide)
  have h := gc_safety_amended exS2 hinv hmk hkd (by decide) rfl
  have hre : ∀ y, Reaches exS2 (gcRoots exS2) y → y = 0 ∨ y = 1 := by
    intro y hy
    induction hy with
    | @root r hr =>
      left
      have hr2 : r ∈ [(0 : Nat)] := hr
      simpa using hr2
    | @step a na j ha hf hj ih =>
      rcases ih with rfl | rfl
      · have hna : findN exS2.store 0 = some exN2r := rfl
        rw [hna] at hf
        obtain rfl := Option.some.inj hf
        have hj2 : j ∈ [(1 : Nat)] := hj
        right
        simpa using hj2
      · have hna : findN exS2.store 1 = some exN2b := rfl
        rw [hna] at hf
        obtain rfl := Option.some.inj hf
        have hj2 : j ∈ ([] : List Nat) := hj
        cases hj2
  have hnR : ¬ Reaches exS2 (gcRoots exS2) 2 := by
    intro hcon
    rcases hre 2 hcon with h2 | h2 <;> omega
  refine ⟨h.1 1 exN2b rfl ?_, h.2 2 exN2u (by decide) hnR rfl⟩
  exact Reaches.step (Reaches.root (show (0 : Nat) ∈ gcRoots exS2 by decide))
    (show findN exS2.store 0 = some exN2r from rfl)
    (show (1 : Nat) ∈ exN2r.depends_on_list by decide)

end RenpyRender
